import Mathlib

/-!
# github-repo-analyzer: size formatting, directory walk and repository analysis

A shallow embedding of `pkg/utils/size.go`, `internal/models/types.go`,
`internal/analyzer/analyzer.go` and the legacy entry point `main.go`, together
with the library behaviour these files rely on (binary64 arithmetic,
`fmt.Sprintf`, `filepath.Clean`/`Join`, `strings.TrimPrefix`,
`filepath.WalkDir`, `filepath.Walk`).

Conventions
* `int64` values are `Int`; arithmetic that can leave the 64-bit range goes
  through `wrapInt64`.
* `float64` values are `F64`: a finite value is the rational it denotes
  (`+0` and `-0` are identified), every arithmetic result is rounded to
  binary64 by `roundNE` (round to nearest, ties to even, overflow to infinity,
  gradual underflow).
* Go strings are `String`; path manipulation is done on the character list,
  with `/` as the separator.
* The file system is a tree that does not change during the analysis; a
  function that reads the directory at a path receives the node the path names.
* A `WalkDirFunc` closing over variables becomes a function on the state held
  in these variables; a function returning `(value, error)` returns a pair
  whose second component is `none` for a `nil` error.
* A run-time panic of an indexing expression is the result `none`; where the
  caller returns an error value it is passed on as `GoError.runtimePanic`.

The file is organised as: the embedding, the notions the specification speaks
of (sizes and directories of a tree), lemmas, and the claims `C1` to `C13`.
-/

namespace RepoAnalyzer

/-! ## Machine integers -/

/-- Two's-complement wrap-around of a mathematical integer into `int64`. -/
def wrapInt64 (x : Int) : Int := (x + 2 ^ 63) % 2 ^ 64 - 2 ^ 63

/-- The values an `int64` can hold. -/
def InInt64 (x : Int) : Prop := -(2 ^ 63) ≤ x ∧ x < 2 ^ 63

instance (x : Int) : Decidable (InInt64 x) := by unfold InInt64; infer_instance

/-! ## binary64 -/

/-- A `float64`: a finite value (the rational it denotes), an infinity
(`true` for the negative one) or a NaN. -/
inductive F64 where
  | fin (q : ℚ) : F64
  | inf (neg : Bool) : F64
  | nan : F64
deriving DecidableEq

/-- Fuel-driven worker for `ilog2`; `n` halves at every step, so fuel `n` is
never exhausted before `n < 2`. -/
def log2Fuel : Nat → Nat → Nat
  | 0, _ => 0
  | fuel + 1, n => if n < 2 then 0 else log2Fuel fuel (n / 2) + 1

/-- Floor of the binary logarithm of a positive natural number. -/
def ilog2 (n : Nat) : Nat := log2Fuel n n

/-- The rational `2 ^ s` for an integer exponent. -/
def pow2 (s : Int) : ℚ :=
  if 0 ≤ s then ((2 ^ s.toNat : Nat) : ℚ) else 1 / ((2 ^ (-s).toNat : Nat) : ℚ)

/-- Binary exponent of a non-zero rational: the `e` with `2^e ≤ |q| < 2^(e+1)`. -/
def binExp (q : ℚ) : Int :=
  let d : Int := (ilog2 q.num.natAbs : Int) - (ilog2 q.den : Int)
  if pow2 d ≤ |q| then d else d - 1

/-- Nearest integer, ties to the even one. -/
def roundHalfEven (q : ℚ) : Int :=
  let f := ⌊q⌋
  let r := q - f
  if r < 1 / 2 then f
  else if 1 / 2 < r then f + 1
  else if f % 2 = 0 then f else f + 1

/-- Nearest integer, ties away from zero (Go `math.Round` on a finite value). -/
def roundHalfAway (q : ℚ) : Int :=
  if 0 ≤ q then ⌊q + 1 / 2⌋ else -⌊-q + 1 / 2⌋

/-- Exponent of the unit in the last place of the binary64 nearest to `q`:
52 below the binary exponent, and never under the subnormal quantum `2^-1074`. -/
def ulpExp (q : ℚ) : Int := max (binExp q) (-1022) - 52

/-- Rounding of an exact rational result to binary64, round to nearest with
ties to even; magnitudes that round to `2^1024` or more become infinite. -/
def roundNE (q : ℚ) : F64 :=
  if q = 0 then .fin 0
  else
    let s := ulpExp q
    let r : ℚ := (roundHalfEven (q / pow2 s) : ℚ) * pow2 s
    if pow2 1024 ≤ |r| then .inf (decide (q < 0)) else .fin r

/-- The rationals that are binary64 values: an integer significand below
`2^53` scaled by a power of two within the exponent range. -/
def IsBinary64 (q : ℚ) : Prop :=
  ∃ m e : Int, |m| < 2 ^ 53 ∧ -1074 ≤ e ∧ e ≤ 971 ∧ q = (m : ℚ) * pow2 e

namespace F64

/-- Conversion `float64(i)` of an integer. -/
def ofInt (i : Int) : F64 := roundNE (i : ℚ)

/-- Go `x * y` on `float64`. -/
def mul : F64 → F64 → F64
  | .fin a, .fin b => roundNE (a * b)
  | .fin a, .inf n => if a = 0 then .nan else .inf (n != decide (a < 0))
  | .inf n, .fin b => if b = 0 then .nan else .inf (n != decide (b < 0))
  | .inf n, .inf k => .inf (n != k)
  | _, _ => .nan

/-- Go `x / y` on `float64` (a zero divisor is taken as `+0`). -/
def div : F64 → F64 → F64
  | .fin a, .fin b =>
    if b = 0 then (if a = 0 then .nan else .inf (decide (a < 0))) else roundNE (a / b)
  | .fin _, .inf _ => .fin 0
  | .inf n, .fin b => .inf (n != decide (b < 0))
  | _, _ => .nan

/-- Go `math.Round`: nearest integer, half away from zero; infinities and NaN
are returned unchanged. -/
def round : F64 → F64
  | .fin q => .fin (roundHalfAway q)
  | x => x

end F64

/-! ## `fmt.Sprintf` verbs -/

/-- Two decimal digits, zero padded. -/
def pad2 (d : Nat) : String := if d < 10 then "0" ++ toString d else toString d

/-- A rational printed with exactly two decimal places: the value rounded to a
multiple of 1/100 (half to even), as integer part, point and two digits. -/
def fixed2 (q : ℚ) : String :=
  let n := (roundHalfEven (|q| * 100)).toNat
  let body := toString (n / 100) ++ "." ++ pad2 (n % 100)
  if q < 0 then "-" ++ body else body

/-- The verb `%.2f` applied to a `float64`: the exact value it denotes,
correctly rounded to two decimal places. -/
def formatFixed2 : F64 → String
  | .fin q => fixed2 q
  | .inf neg => if neg then "-Inf" else "+Inf"
  | .nan => "NaN"

/-! ## pkg/utils/size.go -/

/-- The scaling loop `for n := bytes / unit; n >= unit; n /= unit { div *= unit; exp++ }`.
The first argument is fuel: it starts at `n`, and `n` shrinks faster than the
fuel, so the fuel runs out only once the loop condition is already false. -/
def scaleLoop : Nat → Int → Int → Nat → Int × Nat
  | 0, _, div, exp => (div, exp)
  | fuel + 1, n, div, exp =>
    if n ≥ 1024 then scaleLoop fuel (Int.tdiv n 1024) (wrapInt64 (div * 1024)) (exp + 1)
    else (div, exp)

/-- The indexing expression `"KMGTPE"[exp]`; `none` is the out-of-range panic. -/
def unitLetter (exp : Nat) : Option Char := "KMGTPE".toList.get? exp

/-- BytesToHumanReadable converts bytes to human readable format; `none` is a
runtime panic. -/
def BytesToHumanReadable (bytes : Int) : Option String :=
  if bytes < 1024 then some (toString bytes ++ " B")
  else
    let n := Int.tdiv bytes 1024
    let (div, exp) := scaleLoop n.toNat n 1024 0
    let size := F64.div (F64.ofInt bytes) (F64.ofInt div)
    (unitLetter exp).map fun c => formatFixed2 size ++ " " ++ String.singleton c ++ "B"

/-- BytesToMB converts bytes to megabytes. -/
def BytesToMB (bytes : Int) : F64 := F64.div (F64.ofInt bytes) (.fin (1024 * 1024))

/-- RoundToTwoDecimals rounds a float64 to two decimal places. -/
def RoundToTwoDecimals (num : F64) : F64 :=
  F64.div (F64.round (F64.mul num (.fin 100))) (.fin 100)

/-! ## internal/models/types.go -/

/-- A Go `error` value: an error identified by its text (of the operating
system, the file system, the git layer, or made by `fmt.Errorf`), or a
`*models.AnalysisError` wrapping a cause. -/
inductive GoError where
  | os (text : String) : GoError
  | analysis (Message : String) (Cause : GoError) : GoError
  | runtimePanic (text : String) : GoError
deriving DecidableEq

/-- NewAnalysisError creates a new AnalysisError. -/
def NewAnalysisError (message : String) (cause : GoError) : GoError :=
  .analysis message cause

/-- File represents a file in the repository. -/
structure File where
  Name : String
  Size : F64
  SizeHuman : String
deriving DecidableEq

/-- Folder represents a directory in the repository. -/
structure Folder where
  Name : String
  Files : List File
deriving DecidableEq

/-- RepoAnalysis represents the complete analysis of a repository. -/
structure RepoAnalysis where
  CloneURL : String
  Size : F64
  SizeHuman : String
  Folders : List Folder
  HasSubmodules : Bool
  Error : String
deriving DecidableEq

/-! ## The file system seen by the walk -/

mutual
/-- What a path names. `file` is any entry that is not a directory, with the
size its `Info()` reports; `fileNoInfo` is such an entry whose `Info()` fails;
`dir` is a directory with its listing in `os.ReadDir` order; `dirNoRead` is a
directory whose listing fails. -/
inductive Node where
  | file (size : Int) : Node
  | fileNoInfo (err : GoError) : Node
  | dir (entries : Entries) : Node
  | dirNoRead (err : GoError) : Node
/-- A directory listing: entry names with what they name, in listing order. -/
inductive Entries where
  | nil : Entries
  | cons (name : String) (node : Node) (rest : Entries) : Entries
end

/-- The method `d.IsDir()` of a directory entry. -/
def Node.IsDir : Node → Bool
  | .dir _ => true
  | .dirNoRead _ => true
  | _ => false

/-- The method `d.Info()` followed by `info.Size()`; only used on entries that
are not directories. -/
def Node.Info : Node → Except GoError Int
  | .file size => .ok size
  | .fileNoInfo err => .error err
  | .dir _ => .ok 0
  | .dirNoRead _ => .ok 0

/-- The call `os.ReadDir(path)` when `path` names this node. -/
def Node.ReadDir : Node → Except GoError Entries
  | .dir es => .ok es
  | .dirNoRead err => .error err
  | _ => .error (.os "not a directory")

/-- The listing as a list of named entries. -/
def Entries.toList : Entries → List (String × Node)
  | .nil => []
  | .cons name node rest => (name, node) :: rest.toList

/-! ## Path strings -/

/-- The pieces of a path between separators (empty pieces included). -/
def splitSep : List Char → List (List Char)
  | [] => [[]]
  | c :: cs =>
    if c = '/' then [] :: splitSep cs
    else
      match splitSep cs with
      | [] => [[c]]
      | h :: t => (c :: h) :: t

/-- One element of the path processed by `filepath.Clean`; the stack holds the
elements kept so far, last one first. Empty and `.` elements are dropped, `..`
removes the last kept element when there is one to remove, is dropped at the
root and is kept otherwise. -/
def cleanStep (rooted : Bool) (stack : List (List Char)) (el : List Char) :
    List (List Char) :=
  if el = [] ∨ el = ['.'] then stack
  else if el = ['.', '.'] then
    match stack with
    | top :: rest =>
      if top = ['.', '.'] then (if rooted then stack else el :: stack) else rest
    | [] => if rooted then [] else [el]
  else el :: stack

/-- The kept elements joined by separators. -/
def joinSep : List (List Char) → List Char
  | [] => []
  | [a] => a
  | a :: b :: rest => a ++ '/' :: joinSep (b :: rest)

/-- The function `filepath.Clean` (Unix separators) on the characters of a path. -/
def cleanChars (cs : List Char) : List Char :=
  if cs = [] then ['.']
  else
    let rooted := decide (cs.head? = some '/')
    let body := joinSep ((splitSep cs).foldl (cleanStep rooted) []).reverse
    if rooted then '/' :: body
    else if body = [] then ['.'] else body

/-- The function `filepath.Clean`. -/
def Clean (path : String) : String := String.mk (cleanChars path.toList)

/-- The function `filepath.Join` on a directory and an entry name. -/
def Join (dir name : String) : String :=
  if dir = "" then (if name = "" then "" else Clean name)
  else Clean (dir ++ "/" ++ name)

/-- The remainder of `s` after `p` when `s` starts with `p`. -/
def stripPrefix : List Char → List Char → Option (List Char)
  | [], s => some s
  | _ :: _, [] => none
  | a :: p, b :: s => if a = b then stripPrefix p s else none

/-- The function `strings.TrimPrefix`. -/
def TrimPrefix (s pre : String) : String :=
  match stripPrefix pre.toList s.toList with
  | some rest => String.mk rest
  | none => s

/-! ## `filepath.WalkDir` -/

/-- The arguments `(d, err)` a `WalkDirFunc` is called with: an entry and no
error, or an error together with the entry it concerns (absent when the root
could not be examined). -/
inductive WalkArg where
  | entry (d : Node) : WalkArg
  | failed (d : Option Node) (err : GoError) : WalkArg

mutual
/-- The recursive worker `walkDir` of `filepath.WalkDir`: the callback is
applied to the entry, then, for a directory, to each listed entry in order;
the first error stops the walk. The variables the callback closes over are the
state `σ`. -/
def walkDir {σ : Type} (fn : String → WalkArg → σ → σ × Option GoError) :
    String → Node → σ → σ × Option GoError
  | path, .file size, st => fn path (.entry (.file size)) st
  | path, .fileNoInfo err, st => fn path (.entry (.fileNoInfo err)) st
  | path, .dir es, st =>
    match fn path (.entry (.dir es)) st with
    | (st1, some err) => (st1, some err)
    | (st1, none) => walkEntries fn path es st1
  | path, .dirNoRead e, st =>
    match fn path (.entry (.dirNoRead e)) st with
    | (st1, some err) => (st1, some err)
    | (st1, none) => fn path (.failed (some (.dirNoRead e)) e) st1
/-- The loop of `walkDir` over the listing of a directory. -/
def walkEntries {σ : Type} (fn : String → WalkArg → σ → σ × Option GoError) :
    String → Entries → σ → σ × Option GoError
  | _, .nil, st => (st, none)
  | path, .cons name node rest, st =>
    match walkDir fn (Join path name) node st with
    | (st1, some err) => (st1, some err)
    | (st1, none) => walkEntries fn path rest st1
end

/-- The function `filepath.WalkDir`; `root` is the result of `os.Lstat` on the
root path together with the tree below it. The callbacks of this program never
return `SkipDir` or `SkipAll`, which are not modelled. -/
def WalkDir {σ : Type} (path : String) (root : Except GoError Node)
    (fn : String → WalkArg → σ → σ × Option GoError) (st : σ) : σ × Option GoError :=
  match root with
  | .error err => fn path (.failed none err) st
  | .ok d => walkDir fn path d st

/-! ## internal/analyzer/analyzer.go -/

/-- The loop of `analyzeDirectory` over the listing: one `File` per entry that
is not a directory, appended in listing order; the first `Info()` failure
returns what was collected so far with the error. -/
def analyzeEntries : Entries → Folder → Folder × Option GoError
  | .nil, folder => (folder, none)
  | .cons name entry rest, folder =>
    if !entry.IsDir then
      match entry.Info with
      | .error err => (folder, some (NewAnalysisError "failed to get file info" err))
      | .ok fileSize =>
        let sizeMB := RoundToTwoDecimals (BytesToMB fileSize)
        match BytesToHumanReadable fileSize with
        | none => (folder, some (.runtimePanic "index out of range"))
        | some human =>
          let file : File := { Name := name, Size := sizeMB, SizeHuman := human }
          analyzeEntries rest { folder with Files := folder.Files ++ [file] }
    else analyzeEntries rest folder

/-- analyzeDirectory analyzes a single directory and all its files; `node` is
what `path` names. -/
def analyzeDirectory (path baseDir : String) (node : Node) : Folder × Option GoError :=
  let folder : Folder := { Name := TrimPrefix path (baseDir ++ "/"), Files := [] }
  match node.ReadDir with
  | .error err => (folder, some (NewAnalysisError "failed to read directory" err))
  | .ok entries => analyzeEntries entries folder

/-- The callback of `processDirectory`; the state is the slice `folders`. -/
def processDirectoryFn (path baseDir : String) (currentPath : String) (arg : WalkArg)
    (folders : List Folder) : List Folder × Option GoError :=
  match arg with
  | .failed _ err => (folders, some (NewAnalysisError "failed to walk path" err))
  | .entry d =>
    if d.IsDir then
      if currentPath ≠ path then
        match analyzeDirectory currentPath baseDir d with
        | (_, some err) => (folders, some err)
        | (folder, none) => (folders ++ [folder], none)
      else (folders, none)
    else (folders, none)

/-- processDirectory recursively processes directories and collects all folders. -/
def processDirectory (path baseDir : String) (root : Except GoError Node) :
    List Folder × Option GoError :=
  WalkDir path root (processDirectoryFn path baseDir) []

/-- The callback of `calculateTotalSize`; the state is the variable `totalSize`. -/
def calculateTotalSizeFn (_path : String) (arg : WalkArg) (totalSize : Int) :
    Int × Option GoError :=
  match arg with
  | .failed _ err => (totalSize, some (NewAnalysisError "failed to walk path" err))
  | .entry d =>
    if !d.IsDir then
      match d.Info with
      | .error err => (totalSize, some (NewAnalysisError "failed to get file info" err))
      | .ok size => (wrapInt64 (totalSize + size), none)
    else (totalSize, none)

/-- calculateTotalSize calculates the total size of all files in the directory. -/
def calculateTotalSize (path : String) (root : Except GoError Node) : Int × Option GoError :=
  WalkDir path root calculateTotalSizeFn 0

/-- GitService interface for git operations, as the results its methods give. -/
structure GitService where
  CloneRepo : String → Option GoError
  HasSubmodules : Bool
  GetRepoPath : String
  Cleanup : Option GoError

/-- A call made on the `GitService`. -/
inductive GitCall where
  | CloneRepo (url : String) : GitCall
  | GetRepoPath : GitCall
  | HasSubmodules : GitCall
  | Cleanup : GitCall
deriving DecidableEq

/-- AnalyzeRepo analyzes a repository from URL, on a file system that may
change between the two walks: `fsSize` is what a path names when
`calculateTotalSize` walks, `fsFolders` what it names when `processDirectory`
walks. The result is the returned pair together with the calls made on the git
service, in order; the deferred `Cleanup` is the last call on every path that
passes the `defer` statement. -/
def AnalyzeRepoAt (gitService : GitService) (fsSize fsFolders : String → Except GoError Node)
    (url : String) : (RepoAnalysis × Option GoError) × List GitCall :=
  let analysis : RepoAnalysis :=
    { CloneURL := url, Size := .fin 0, SizeHuman := "", Folders := [],
      HasSubmodules := false, Error := "" }
  match gitService.CloneRepo url with
  | some err => ((analysis, some err), [.CloneRepo url])
  | none =>
    let deferred : List GitCall := [.Cleanup]
    let repoPath := gitService.GetRepoPath
    match calculateTotalSize repoPath (fsSize repoPath) with
    | (_, some err) => ((analysis, some err), [.CloneRepo url, .GetRepoPath] ++ deferred)
    | (totalSize, none) =>
      match processDirectory repoPath repoPath (fsFolders repoPath) with
      | (_, some err) => ((analysis, some err), [.CloneRepo url, .GetRepoPath] ++ deferred)
      | (folders, none) =>
        match BytesToHumanReadable totalSize with
        | none =>
          ((analysis, some (.runtimePanic "index out of range")),
            [.CloneRepo url, .GetRepoPath] ++ deferred)
        | some human =>
          (({ analysis with
                Size := RoundToTwoDecimals (BytesToMB totalSize)
                SizeHuman := human
                HasSubmodules := gitService.HasSubmodules
                Folders := folders }, none),
            [.CloneRepo url, .GetRepoPath, .HasSubmodules] ++ deferred)

/-- AnalyzeRepo analyzes a repository from URL, on a file system that does not
change during the analysis: `fs` is the file system after the clone. -/
def AnalyzeRepo (gitService : GitService) (fs : String → Except GoError Node) (url : String) :
    (RepoAnalysis × Option GoError) × List GitCall :=
  AnalyzeRepoAt gitService fs fs url

/-! ## Directory trees as the specification speaks of them -/

/-- A name a directory entry can have: not empty, not `.` or `..`, no separator. -/
def validName (n : String) : Bool :=
  decide (n.toList ≠ []) && decide (n.toList ≠ ['.']) && decide (n.toList ≠ ['.', '.'])
    && n.toList.all (fun c => decide (c ≠ '/'))

mutual
/-- A tree without failures: every file reports a size that a file can have
(`0 ≤ size < 2^63`), every directory can be listed, every entry has a valid name. -/
def Node.wellFormed : Node → Bool
  | .file size => decide (0 ≤ size) && decide (size < 2 ^ 63)
  | .fileNoInfo _ => false
  | .dir es => es.wellFormed
  | .dirNoRead _ => false
/-- The entries of a listing are well-formed trees with valid names. -/
def Entries.wellFormed : Entries → Bool
  | .nil => true
  | .cons name node rest => validName name && node.wellFormed && rest.wellFormed
end

mutual
/-- Sum of the byte sizes of every file in the tree. -/
def Node.totalBytes : Node → Int
  | .file size => size
  | .fileNoInfo _ => 0
  | .dir es => es.totalBytes
  | .dirNoRead _ => 0
/-- Sum of the byte sizes of every file at or below the entries of a listing. -/
def Entries.totalBytes : Entries → Int
  | .nil => 0
  | .cons _ node rest => node.totalBytes + rest.totalBytes
end

mutual
/-- Number of files in the tree. -/
def Node.fileCount : Node → Nat
  | .file _ => 1
  | .fileNoInfo _ => 1
  | .dir es => es.fileCount
  | .dirNoRead _ => 0
/-- Number of files at or below the entries of a listing. -/
def Entries.fileCount : Entries → Nat
  | .nil => 0
  | .cons _ node rest => node.fileCount + rest.fileCount
end

/-- The immediate entries of a listing that are not directories, with their
byte size, in listing order. -/
def Entries.directFiles : Entries → List (String × Int)
  | .nil => []
  | .cons name (.file size) rest => (name, size) :: rest.directFiles
  | .cons _ _ rest => rest.directFiles

/-- Sum of the byte sizes of the files directly in a listing. -/
def Entries.directBytes (es : Entries) : Int := (es.directFiles.map Prod.snd).sum

/-- A relative path extended by an entry name. -/
def relJoin (rel name : String) : String := if rel = "" then name else rel ++ "/" ++ name

mutual
/-- The directories of a tree in pre-order, each with its path relative to the
root and its listing; `rel` is the relative path of the node itself. -/
def Node.subdirs (rel : String) : Node → List (String × Entries)
  | .dir es => (rel, es) :: es.subdirs rel
  | _ => []
/-- The directories at or below the entries of a listing whose own relative
path is `rel` (empty for the root), in pre-order. -/
def Entries.subdirs (rel : String) : Entries → List (String × Entries)
  | .nil => []
  | .cons name node rest => node.subdirs (relJoin rel name) ++ rest.subdirs rel
end

mutual
/-- The directories of a tree in pre-order, each with the path the walk visits
it under and its listing; `path` is the path of the node itself. -/
def Node.subdirsAt (path : String) : Node → List (String × Entries)
  | .dir es => (path, es) :: es.subdirsAt path
  | _ => []
/-- The directories at or below the entries of the listing of `path`, in pre-order. -/
def Entries.subdirsAt (path : String) : Entries → List (String × Entries)
  | .nil => []
  | .cons name node rest => node.subdirsAt (Join path name) ++ rest.subdirsAt path
end

/-- The record `f` describes the entry `e` (name and byte size): its name, the
size in megabytes rounded to two decimals and the human-readable size, all
from the one byte size. -/
def IsFileOf (f : File) (e : String × Int) : Prop :=
  f.Name = e.1 ∧ f.Size = RoundToTwoDecimals (BytesToMB e.2) ∧
    BytesToHumanReadable e.2 = some f.SizeHuman

/-- The files of `folder` are the files directly in the listing, one record
per file and in listing order. -/
def HasFilesOf (folder : Folder) (es : Entries) : Prop :=
  List.Forall₂ IsFileOf folder.Files es.directFiles

/-! ## Auxiliary notions used in the proofs -/

/-- The characters of a valid entry name. -/
def ValidChars (ns : List Char) : Prop :=
  ns ≠ [] ∧ ns ≠ ['.'] ∧ ns ≠ ['.', '.'] ∧ ∀ c ∈ ns, c ≠ '/'

/-- Elements kept by `filepath.Clean` (last one first): none is empty, `.` or
contains a separator, and `..` elements only occur at the bottom of the stack
of a path that is not rooted. -/
def KeptStack (rooted : Bool) : List (List Char) → Prop
  | [] => True
  | top :: rest =>
    KeptStack rooted rest ∧ top ≠ [] ∧ top ≠ ['.'] ∧ (∀ c ∈ top, c ≠ '/') ∧
      (top = ['.', '.'] → rooted = false ∧ ∀ el ∈ rest, el = ['.', '.'])

/-- A clean path other than the root `/` and the current directory `.`. -/
def GoodPath (p : String) : Prop := Clean p = p ∧ p ≠ "/" ∧ p ≠ "."

/-- Every immediate entry that is not a directory reports an `int64` size. -/
def Entries.filesReadable : Entries → Bool
  | .nil => true
  | .cons _ (.file size) rest => decide (InInt64 size) && rest.filesReadable
  | .cons _ (.fileNoInfo _) _ => false
  | .cons _ _ rest => rest.filesReadable

/-- The folder reported for the directory visited under path `x.1` with listing
`x.2`, when the base directory is `baseDir`. -/
def FolderAt (baseDir : String) (folder : Folder) (x : String × Entries) : Prop :=
  folder.Name = TrimPrefix x.1 (baseDir ++ "/") ∧ HasFilesOf folder x.2

/-! ## Concrete inputs -/

/-- A decimal constant of the source text as the `float64` it denotes. -/
def F64.lit (q : ℚ) : F64 := roundNE q

/-- The listing of the root of the tree built by `setupTestRepo`: `file1.txt`
(1 MiB), `file2.txt` (2 MiB), `dir1/file3.txt` (512 KiB) and
`dir1/dir2/file4.txt` (3 MiB), each listing in name order. -/
def testEntries : Entries :=
  .cons "dir1"
    (.dir (.cons "dir2" (.dir (.cons "file4.txt" (.file 3145728) .nil))
      (.cons "file3.txt" (.file 524288) .nil)))
    (.cons "file1.txt" (.file 1048576) (.cons "file2.txt" (.file 2097152) .nil))

/-- The listing of `dir1` in the test tree. -/
def testDir1 : Entries :=
  .cons "dir2" (.dir (.cons "file4.txt" (.file 3145728) .nil))
    (.cons "file3.txt" (.file 524288) .nil)

/-- The `MockGitService` of the successful test case, with the test tree at its path. -/
def testGitService : GitService :=
  { CloneRepo := fun _ => none, HasSubmodules := true,
    GetRepoPath := "/tmp/analyzer-test", Cleanup := none }

/-- The file system of the successful test case. -/
def testFs (path : String) : Except GoError Node :=
  if path = "/tmp/analyzer-test" then .ok (.dir testEntries)
  else .error (.os "no such file or directory")

/-- A directory holding two files of `2^62` bytes each. -/
def twoHugeFiles : Entries :=
  .cons "a" (.file (2 ^ 62)) (.cons "b" (.file (2 ^ 62)) .nil)

/-! ## The scaling loop in unbounded integers -/

/-- The loop of `scaleLoop` with the multiplication `div *= unit` carried out
in the integers, without the wrap-around of `int64`; it is compared with
`scaleLoop` to state that no multiplication overflows. -/
def scaleLoopExact : Nat → Int → Int → Nat → Int × Nat
  | 0, _, div, exp => (div, exp)
  | fuel + 1, n, div, exp =>
    if n ≥ 1024 then scaleLoopExact fuel (Int.tdiv n 1024) (div * 1024) (exp + 1)
    else (div, exp)

/-! ## src/main.go (the legacy entry point) -/

/-- The text of an error, as its method `Error()` gives it. -/
def GoError.Error : GoError → String
  | .os text => text
  | .analysis message cause => message ++ ": " ++ cause.Error
  | .runtimePanic text => text

/-- The conversion `int(x)` of a `float64`: the fraction is discarded. For a
value that no `int` holds the language leaves the result to the
implementation; the value taken here is the one of amd64. -/
def F64.toInt : F64 → Int
  | .fin q =>
    let t : Int := if 0 ≤ q then ⌊q⌋ else -⌊-q⌋
    if -(2 ^ 63) ≤ t ∧ t < 2 ^ 63 then t else -(2 ^ 63)
  | _ => -(2 ^ 63)

namespace Main

/-- RepoAnalysis represents the JSON output structure. -/
structure RepoAnalysis where
  CloneURL : String
  Size : F64
  SizeHuman : String
  Folders : List Folder
  HasSubmodules : Bool
deriving DecidableEq

/-- bytesToHumanReadable converts bytes to human readable format; `none` is a
runtime panic. -/
def bytesToHumanReadable (bytes : Int) : Option String :=
  if bytes < 1024 then some (toString bytes ++ " B")
  else
    let n := Int.tdiv bytes 1024
    let (div, exp) := scaleLoop n.toNat n 1024 0
    let size := F64.div (F64.ofInt bytes) (F64.ofInt div)
    (unitLetter exp).map fun c => formatFixed2 size ++ " " ++ String.singleton c ++ "B"

/-- bytesToMB converts bytes to megabytes. -/
def bytesToMB (bytes : Int) : F64 := F64.div (F64.ofInt bytes) (.fin (1024 * 1024))

/-- The expression `float64(int(x*100)) / 100`, commented `Round to 2 decimal
places`, that `analyzeDirectory` applies to the size of a file and
`analyzeRepo` to the total. -/
def truncTwoDecimals (x : F64) : F64 :=
  F64.div (F64.ofInt (F64.toInt (F64.mul x (.fin 100)))) (.fin 100)

/-- The loop of `analyzeDirectory` over the listing. -/
def analyzeEntries : Entries → Folder → Folder × Option GoError
  | .nil, folder => (folder, none)
  | .cons name entry rest, folder =>
    if !entry.IsDir then
      match entry.Info with
      | .error err =>
        (folder, some (.os ("error getting file info for " ++ name ++ ": " ++ err.Error)))
      | .ok fileSize =>
        let sizeMB := bytesToMB fileSize
        match bytesToHumanReadable fileSize with
        | none => (folder, some (.runtimePanic "index out of range"))
        | some human =>
          let file : File := { Name := name, Size := truncTwoDecimals sizeMB, SizeHuman := human }
          analyzeEntries rest { folder with Files := folder.Files ++ [file] }
    else analyzeEntries rest folder

/-- analyzeDirectory traverses a directory and returns folder information;
`node` is what `path` names. -/
def analyzeDirectory (path baseDir : String) (node : Node) : Folder × Option GoError :=
  let folder : Folder := { Name := TrimPrefix path (baseDir ++ "/"), Files := [] }
  match node.ReadDir with
  | .error err =>
    (folder, some (.os ("error reading directory " ++ path ++ ": " ++ err.Error)))
  | .ok entries => analyzeEntries entries folder

mutual
/-- The recursive worker `walk` of `filepath.Walk`: the callback is applied to
a file, and to a directory together with the error of listing it, then to the
listed entries in order; an entry that cannot be examined is reported to the
callback with the error. The first error stops the walk. -/
def walk {σ : Type} (fn : String → WalkArg → σ → σ × Option GoError) :
    String → Node → σ → σ × Option GoError
  | path, .file size, st => fn path (.entry (.file size)) st
  | path, .fileNoInfo err, st => fn path (.failed none err) st
  | path, .dir es, st =>
    match fn path (.entry (.dir es)) st with
    | (st1, some err) => (st1, some err)
    | (st1, none) => walkNames fn path es st1
  | path, .dirNoRead e, st => fn path (.failed (some (.dirNoRead e)) e) st
/-- The loop of `walk` over the names of a directory. -/
def walkNames {σ : Type} (fn : String → WalkArg → σ → σ × Option GoError) :
    String → Entries → σ → σ × Option GoError
  | _, .nil, st => (st, none)
  | path, .cons name node rest, st =>
    match walk fn (Join path name) node st with
    | (st1, some err) => (st1, some err)
    | (st1, none) => walkNames fn path rest st1
end

/-- The function `filepath.Walk`; `root` is the result of `os.Lstat` on the
root path together with the tree below it. The callback of this program never
returns `SkipDir` or `SkipAll`, which are not modelled. -/
def Walk {σ : Type} (path : String) (root : Except GoError Node)
    (fn : String → WalkArg → σ → σ × Option GoError) (st : σ) : σ × Option GoError :=
  match root with
  | .error err => fn path (.failed none err) st
  | .ok d => walk fn path d st

/-- The callback of `analyzeRepo`; the state is the variable `totalSize` and
the slice `analysis.Folders`. The `info` it receives without an error is that
of a file, whose size is added, or of a directory. -/
def analyzeRepoFn (repoPath : String) (path : String) (arg : WalkArg)
    (st : Int × List Folder) : (Int × List Folder) × Option GoError :=
  match arg with
  | .failed _ err => (st, some err)
  | .entry info =>
    let totalSize :=
      match info with
      | .file size => wrapInt64 (st.1 + size)
      | _ => st.1
    if info.IsDir && decide (path ≠ repoPath) then
      match analyzeDirectory path repoPath info with
      | (_, some err) => ((totalSize, st.2), some err)
      | (folder, none) => ((totalSize, st.2 ++ [folder]), none)
    else ((totalSize, st.2), none)

/-- analyzeRepo analyzes the cloned repository. `root` is what `repoPath`
names, `gitModules` the result of `os.Stat` on `.gitmodules` below it (`none`
when the file exists). -/
def analyzeRepo (repoPath : String) (root : Except GoError Node)
    (gitModules : Option GoError) : RepoAnalysis × Option GoError :=
  let analysis : RepoAnalysis :=
    { CloneURL := "", Size := .fin 0, SizeHuman := "", Folders := [], HasSubmodules := false }
  match Walk repoPath root (analyzeRepoFn repoPath) (0, []) with
  | ((_, folders), some err) =>
    ({ analysis with Folders := folders },
      some (.os ("error walking repository: " ++ err.Error)))
  | ((totalSize, folders), none) =>
    match bytesToHumanReadable totalSize with
    | none => ({ analysis with Folders := folders }, some (.runtimePanic "index out of range"))
    | some human =>
      ({ analysis with
          Folders := folders
          Size := truncTwoDecimals (bytesToMB totalSize)
          SizeHuman := human
          HasSubmodules := gitModules.isNone }, none)

end Main

/-! ## Further concrete inputs -/

/-- The analysis returned together with an error: the URL and, for the rest,
the zero values it was created with. -/
def emptyAnalysis (url : String) : RepoAnalysis :=
  { CloneURL := url, Size := .fin 0, SizeHuman := "", Folders := [],
    HasSubmodules := false, Error := "" }

/-- A directory holding one file of 10,000 bytes. -/
def smallFileDir : Entries := .cons "notes.txt" (.file 10000) .nil

/-- A repository whose only directory `docs` holds one file of 10,000 bytes. -/
def smallFileRepo : Entries := .cons "docs" (.dir smallFileDir) .nil

/-- A repository in which `a` can be listed and `b` cannot. -/
def halfReadableRepo : Entries :=
  .cons "a" (.dir (.cons "x.txt" (.file 5) .nil))
    (.cons "b" (.dirNoRead (.os "permission denied")) .nil)

/-- The `MockGitService` of the test case `Clone Error`. -/
def failingGitService : GitService :=
  { CloneRepo := fun _ => some (.os "clone failed"), HasSubmodules := false,
    GetRepoPath := "", Cleanup := none }

/-- A git service whose clone leaves `halfReadableRepo` at `/tmp/repo`. -/
def halfReadableService : GitService :=
  { CloneRepo := fun _ => none, HasSubmodules := true, GetRepoPath := "/tmp/repo",
    Cleanup := none }

/-- The file system holding `halfReadableRepo` at every path. -/
def halfReadableFs (_path : String) : Except GoError Node := .ok (.dir halfReadableRepo)

/-- The same repository while `b` can still be listed (and is empty). -/
def readableRepo : Entries :=
  .cons "a" (.dir (.cons "x.txt" (.file 5) .nil)) (.cons "b" (.dir .nil) .nil)

/-- The file system holding `readableRepo` at every path. -/
def readableFs (_path : String) : Except GoError Node := .ok (.dir readableRepo)

/-! ## Lemmas: machine integers -/

theorem wrapInt64_of_inInt64 {x : Int} (h : InInt64 x) : wrapInt64 x = x := by
  unfold InInt64 at h
  unfold wrapInt64
  omega

theorem inInt64_wrapInt64 (x : Int) : InInt64 (wrapInt64 x) := by
  unfold InInt64 wrapInt64
  omega

theorem wrapInt64_add_wrapInt64 (a b : Int) :
    wrapInt64 (wrapInt64 a + b) = wrapInt64 (a + b) := by
  unfold wrapInt64
  omega

/-! ## Lemmas: powers of two and binary exponents -/

theorem pow2_eq_zpow (s : Int) : pow2 s = (2 : ℚ) ^ s := by
  unfold pow2
  split_ifs with h
  · obtain ⟨n, rfl⟩ := Int.eq_ofNat_of_zero_le h
    simp
  · obtain ⟨n, hn⟩ := Int.eq_ofNat_of_zero_le (show (0 : Int) ≤ -s by omega)
    have hs : s = -(n : Int) := by omega
    subst hs
    simp

theorem pow2_pos (s : Int) : 0 < pow2 s := by
  rw [pow2_eq_zpow]; positivity

theorem pow2_add (a b : Int) : pow2 (a + b) = pow2 a * pow2 b := by
  simp only [pow2_eq_zpow]
  exact zpow_add₀ (by norm_num) a b

theorem pow2_lt_pow2 {a b : Int} : pow2 a < pow2 b ↔ a < b := by
  simp only [pow2_eq_zpow]
  exact zpow_lt_zpow_iff_right₀ (by norm_num)

theorem pow2_le_pow2 {a b : Int} : pow2 a ≤ pow2 b ↔ a ≤ b := by
  simp only [pow2_eq_zpow]
  exact zpow_le_zpow_iff_right₀ (by norm_num)

theorem pow2_natCast (n : Nat) : pow2 (n : Int) = ((2 ^ n : Nat) : ℚ) := by
  rw [pow2_eq_zpow]; simp

theorem log2Fuel_spec : ∀ (fuel n : Nat), n ≤ fuel → 1 ≤ n →
    2 ^ log2Fuel fuel n ≤ n ∧ n < 2 ^ (log2Fuel fuel n + 1)
  | 0, n, h, h1 => by omega
  | fuel + 1, n, h, h1 => by
    unfold log2Fuel
    split_ifs with h2
    · constructor <;> simp <;> omega
    · have ih := log2Fuel_spec fuel (n / 2) (by omega) (by omega)
      obtain ⟨ih1, ih2⟩ := ih
      constructor
      · rw [pow_succ]; omega
      · rw [pow_succ]; omega

theorem ilog2_spec {n : Nat} (h : 1 ≤ n) : 2 ^ ilog2 n ≤ n ∧ n < 2 ^ (ilog2 n + 1) :=
  log2Fuel_spec n n le_rfl h

theorem abs_eq_natAbs_div_den (q : ℚ) : |q| = (q.num.natAbs : ℚ) / (q.den : ℚ) := by
  conv_lhs => rw [← Rat.num_div_den q]
  rw [abs_div, Nat.abs_cast]
  rw [Nat.cast_natAbs, Int.cast_abs]

theorem binExp_rough {a b : Nat} (ha : 1 ≤ a) (hb : 1 ≤ b) :
    pow2 ((ilog2 a : Int) - (ilog2 b : Int) - 1) < (a : ℚ) / (b : ℚ) ∧
      (a : ℚ) / (b : ℚ) < pow2 ((ilog2 a : Int) - (ilog2 b : Int) + 1) := by
  obtain ⟨ha1, ha2⟩ := ilog2_spec ha
  obtain ⟨hb1, hb2⟩ := ilog2_spec hb
  have hbq : (0 : ℚ) < (b : ℚ) := by exact_mod_cast hb
  have ha1q : ((2 ^ ilog2 a : Nat) : ℚ) ≤ (a : ℚ) := by exact_mod_cast ha1
  have ha2q : (a : ℚ) < ((2 ^ (ilog2 a + 1) : Nat) : ℚ) := by exact_mod_cast ha2
  have hb1q : ((2 ^ ilog2 b : Nat) : ℚ) ≤ (b : ℚ) := by exact_mod_cast hb1
  have hb2q : (b : ℚ) < ((2 ^ (ilog2 b + 1) : Nat) : ℚ) := by exact_mod_cast hb2
  rw [← pow2_natCast] at ha1q ha2q hb1q hb2q
  constructor
  · rw [lt_div_iff₀ hbq]
    have e : pow2 ((ilog2 a : Int) - (ilog2 b : Int) - 1) * pow2 ((ilog2 b + 1 : Nat) : Int)
        = pow2 (ilog2 a : Int) := by
      rw [← pow2_add]; congr 1; push_cast; ring
    calc pow2 ((ilog2 a : Int) - (ilog2 b : Int) - 1) * (b : ℚ)
        < pow2 ((ilog2 a : Int) - (ilog2 b : Int) - 1) * pow2 ((ilog2 b + 1 : Nat) : Int) :=
          mul_lt_mul_of_pos_left hb2q (pow2_pos _)
      _ = pow2 (ilog2 a : Int) := e
      _ ≤ (a : ℚ) := ha1q
  · rw [div_lt_iff₀ hbq]
    have e : pow2 ((ilog2 a : Int) - (ilog2 b : Int) + 1) * pow2 ((ilog2 b : Nat) : Int)
        = pow2 ((ilog2 a + 1 : Nat) : Int) := by
      rw [← pow2_add]; congr 1; push_cast; ring
    calc (a : ℚ) < pow2 ((ilog2 a + 1 : Nat) : Int) := ha2q
      _ = pow2 ((ilog2 a : Int) - (ilog2 b : Int) + 1) * pow2 ((ilog2 b : Nat) : Int) := e.symm
      _ ≤ pow2 ((ilog2 a : Int) - (ilog2 b : Int) + 1) * (b : ℚ) :=
          mul_le_mul_of_nonneg_left hb1q (pow2_pos _).le

theorem binExp_spec {q : ℚ} (hq : q ≠ 0) :
    pow2 (binExp q) ≤ |q| ∧ |q| < pow2 (binExp q + 1) := by
  have ha : 1 ≤ q.num.natAbs := by
    have : q.num ≠ 0 := Rat.num_ne_zero.mpr hq
    omega
  have hb : 1 ≤ q.den := q.den_pos
  obtain ⟨h1, h2⟩ := binExp_rough ha hb
  rw [← abs_eq_natAbs_div_den] at h1 h2
  unfold binExp
  simp only
  split_ifs with h
  · exact ⟨h, h2⟩
  · refine ⟨h1.le, ?_⟩
    rw [sub_add_cancel]
    exact not_le.mp h

/-! ## Lemmas: rounding -/

theorem roundHalfEven_intCast (z : Int) : roundHalfEven (z : ℚ) = z := by
  unfold roundHalfEven
  simp

theorem roundHalfEven_le {q : ℚ} {n : Int} (h : q ≤ n) : roundHalfEven q ≤ n := by
  unfold roundHalfEven
  have hf : ⌊q⌋ ≤ n := by
    have := Int.floor_le q
    exact_mod_cast (this.trans h)
  have key : q - (⌊q⌋ : ℚ) < 1 / 2 ∨ ⌊q⌋ + 1 ≤ n := by
    by_cases hfn : ⌊q⌋ = n
    · left
      rw [hfn]
      linarith
    · right; omega
  simp only
  split_ifs <;> first | omega | (rcases key with k | k <;> first | omega | linarith)

theorem le_roundHalfEven {q : ℚ} {n : Int} (h : (n : ℚ) ≤ q) : n ≤ roundHalfEven q := by
  unfold roundHalfEven
  have hf : n ≤ ⌊q⌋ := Int.le_floor.mpr h
  simp only
  split_ifs <;> omega

theorem abs_roundHalfEven_le {q : ℚ} {n : Int} (h : |q| ≤ n) : |roundHalfEven q| ≤ n := by
  rw [abs_le] at h ⊢
  exact ⟨le_roundHalfEven (by push_cast; exact h.1), roundHalfEven_le h.2⟩

theorem abs_lt_pow2_of_significand {m e : Int} (hm : |m| < 2 ^ 53) :
    |(m : ℚ) * pow2 e| < pow2 (53 + e) := by
  rw [abs_mul, abs_of_pos (pow2_pos e), pow2_add]
  have h53 : pow2 53 = (2 : ℚ) ^ 53 := by rw [pow2_eq_zpow]; norm_cast
  rw [h53]
  have : |(m : ℚ)| < (2 : ℚ) ^ 53 := by
    have : ((|m| : Int) : ℚ) < ((2 ^ 53 : Int) : ℚ) := by exact_mod_cast hm
    simpa using this
  exact mul_lt_mul_of_pos_right this (pow2_pos e)

theorem ulpExp_le_of_significand {m e : Int} (hm : |m| < 2 ^ 53) (he : -1074 ≤ e)
    (h0 : (m : ℚ) * pow2 e ≠ 0) : ulpExp ((m : ℚ) * pow2 e) ≤ e := by
  have h1 := (binExp_spec h0).1
  have h2 := abs_lt_pow2_of_significand (e := e) hm
  have h3 : binExp ((m : ℚ) * pow2 e) < 53 + e := pow2_lt_pow2.mp (lt_of_le_of_lt h1 h2)
  unfold ulpExp
  rcases max_cases (binExp ((m : ℚ) * pow2 e)) (-1022) with ⟨hmax, _⟩ | ⟨hmax, _⟩ <;>
    rw [hmax] <;> omega

theorem scaled_significand {m e s : Int} (hs : s ≤ e) :
    (m : ℚ) * pow2 e / pow2 s = ((m * 2 ^ (e - s).toNat : Int) : ℚ) := by
  have hsplit : pow2 e = pow2 ((e - s).toNat : Int) * pow2 s := by
    rw [← pow2_add]; congr 1; omega
  rw [hsplit, pow2_natCast, ← mul_assoc, mul_div_assoc, div_self (pow2_pos s).ne', mul_one]
  push_cast
  ring

theorem roundHalfEven_scaled {m e : Int} (hm : |m| < 2 ^ 53) (he : -1074 ≤ e)
    (h0 : (m : ℚ) * pow2 e ≠ 0) :
    (roundHalfEven ((m : ℚ) * pow2 e / pow2 (ulpExp ((m : ℚ) * pow2 e))) : ℚ)
      * pow2 (ulpExp ((m : ℚ) * pow2 e)) = (m : ℚ) * pow2 e := by
  have hs := ulpExp_le_of_significand hm he h0
  rw [scaled_significand hs, roundHalfEven_intCast, ← scaled_significand hs,
    div_mul_cancel₀ _ (pow2_pos _).ne']

/-- A binary64 value is left unchanged by rounding. -/
theorem roundNE_of_isBinary64 {q : ℚ} (h : IsBinary64 q) : roundNE q = .fin q := by
  obtain ⟨m, e, hm, he1, he2, rfl⟩ := h
  unfold roundNE
  by_cases h0 : (m : ℚ) * pow2 e = 0
  · simp [h0]
  · have hlt : |(m : ℚ) * pow2 e| < pow2 1024 :=
      lt_of_lt_of_le (abs_lt_pow2_of_significand hm) (pow2_le_pow2.mpr (by omega))
    simp only [if_neg h0, roundHalfEven_scaled hm he1 h0, if_neg (not_le.mpr hlt)]

theorem isBinary64_of_le {m e : Int} (hm : |m| ≤ 2 ^ 53) (he1 : -1074 ≤ e) (he2 : e ≤ 970) :
    IsBinary64 ((m : ℚ) * pow2 e) := by
  by_cases h : |m| < 2 ^ 53
  · exact ⟨m, e, h, he1, by omega, rfl⟩
  · have hm' : |m| = 2 ^ 53 := le_antisymm hm (not_lt.mp h)
    refine ⟨m / 2, e + 1, ?_, by omega, by omega, ?_⟩
    · rcases abs_cases m with ⟨h1, _⟩ | ⟨h1, _⟩ <;> rw [h1] at hm' <;>
        rcases abs_cases (m / 2) with ⟨h2, _⟩ | ⟨h2, _⟩ <;> rw [h2] <;> omega
    · have hm2 : m = m / 2 * 2 := by
        rcases abs_cases m with ⟨h1, _⟩ | ⟨h1, _⟩ <;> rw [h1] at hm' <;> omega
      have h21 : pow2 1 = 2 := by rw [pow2_eq_zpow]; norm_num
      rw [pow2_add, h21]
      conv_lhs => rw [hm2]
      push_cast
      ring

theorem isBinary64_intCast {b : Int} (hb : |b| ≤ 2 ^ 53) : IsBinary64 (b : ℚ) := by
  have h := isBinary64_of_le (m := b) (e := 0) hb (by norm_num) (by norm_num)
  have h0 : pow2 0 = 1 := by rw [pow2_eq_zpow]; norm_num
  rwa [h0, mul_one] at h

/-- The integer significand chosen by `roundNE` never exceeds `2^53` in magnitude. -/
theorem abs_significand_le {q : ℚ} (hq : q ≠ 0) :
    |roundHalfEven (q / pow2 (ulpExp q))| ≤ 2 ^ 53 := by
  have h2 := (binExp_spec hq).2
  have hs : binExp q + 1 ≤ 53 + ulpExp q := by
    unfold ulpExp
    rcases max_cases (binExp q) (-1022) with ⟨hmax, _⟩ | ⟨hmax, _⟩ <;> rw [hmax] <;> omega
  have h3 : |q| < pow2 (53 + ulpExp q) := lt_of_lt_of_le h2 (pow2_le_pow2.mpr hs)
  have h53 : pow2 53 = ((2 ^ 53 : Int) : ℚ) := by
    rw [show (53 : Int) = ((53 : Nat) : Int) by rfl, pow2_natCast]; norm_num
  have h4 : |q / pow2 (ulpExp q)| ≤ ((2 ^ 53 : Int) : ℚ) := by
    rw [abs_div, abs_of_pos (pow2_pos _), div_le_iff₀ (pow2_pos _), ← h53, ← pow2_add]
    exact h3.le
  exact abs_roundHalfEven_le h4

theorem binExp_intCast {b : Int} (h0 : b ≠ 0) (hb : |b| < 2 ^ 64) :
    0 ≤ binExp (b : ℚ) ∧ binExp (b : ℚ) ≤ 63 := by
  have hq : (b : ℚ) ≠ 0 := by exact_mod_cast h0
  obtain ⟨h1, h2⟩ := binExp_spec hq
  have h64 : pow2 64 = ((2 ^ 64 : Int) : ℚ) := by
    rw [show (64 : Int) = ((64 : Nat) : Int) by rfl, pow2_natCast]; norm_num
  have h00 : pow2 0 = ((1 : Int) : ℚ) := by rw [pow2_eq_zpow]; norm_num
  have ha : |(b : ℚ)| < pow2 64 := by
    rw [h64, ← Int.cast_abs]; exact_mod_cast hb
  have hb1 : pow2 0 ≤ |(b : ℚ)| := by
    rw [h00, ← Int.cast_abs]
    have : 1 ≤ |b| := Int.one_le_abs h0
    exact_mod_cast this
  have hu : binExp (b : ℚ) < 64 := pow2_lt_pow2.mp (lt_of_le_of_lt h1 ha)
  have hl : 0 < binExp (b : ℚ) + 1 := pow2_lt_pow2.mp (lt_of_le_of_lt hb1 h2)
  omega

/-- Shape of `float64(b)` for a 64-bit integer: a significand of at most 53
bits scaled by a power of two between `2^-52` and `2^11`. -/
theorem ofInt_shape {b : Int} (h0 : b ≠ 0) (hb : |b| < 2 ^ 64) :
    ∃ m s : Int, |m| ≤ 2 ^ 53 ∧ -52 ≤ s ∧ s ≤ 11 ∧ F64.ofInt b = .fin ((m : ℚ) * pow2 s) := by
  have hq : (b : ℚ) ≠ 0 := by exact_mod_cast h0
  obtain ⟨he1, he2⟩ := binExp_intCast h0 hb
  have hs : ulpExp (b : ℚ) = binExp (b : ℚ) - 52 := by
    unfold ulpExp; rw [max_eq_left (by omega)]
  have hm := abs_significand_le hq
  refine ⟨roundHalfEven ((b : ℚ) / pow2 (ulpExp (b : ℚ))), ulpExp (b : ℚ), hm,
    by omega, by omega, ?_⟩
  have hfin := isBinary64_of_le hm (show -1074 ≤ ulpExp (b : ℚ) by omega)
    (show ulpExp (b : ℚ) ≤ 970 by omega)
  obtain ⟨m', e', hm', _, he', heq⟩ := hfin
  have hlt : |(roundHalfEven ((b : ℚ) / pow2 (ulpExp (b : ℚ))) : ℚ) * pow2 (ulpExp (b : ℚ))|
      < pow2 1024 := by
    rw [heq]
    exact lt_of_lt_of_le (abs_lt_pow2_of_significand hm') (pow2_le_pow2.mpr (by omega))
  unfold F64.ofInt roundNE
  simp only [if_neg hq, if_neg (not_le.mpr hlt)]

theorem ofInt_exact {b : Int} (hb : |b| ≤ 2 ^ 53) : F64.ofInt b = .fin (b : ℚ) :=
  roundNE_of_isBinary64 (isBinary64_intCast hb)

/-! ## Lemmas: the scaling loop -/

theorem scaleLoop_spec (b : Int) (hb : b < 2 ^ 63) :
    ∀ (fuel : Nat) (n div : Int) (exp : Nat), 1 ≤ n → n.toNat ≤ fuel →
      div = 1024 ^ (exp + 1) → div * n ≤ b → b < div * (n + 1) →
      ∃ k : Nat, scaleLoop fuel n div exp = (1024 ^ (k + 1), k) ∧
        (1024 : Int) ^ (k + 1) ≤ b ∧ b < 1024 ^ (k + 2) ∧ exp ≤ k
  | 0, n, div, exp, h1, hf, _, _, _ => by omega
  | fuel + 1, n, div, exp, h1, hf, hd, hlo, hhi => by
    have hdpos : 0 < div := by rw [hd]; positivity
    unfold scaleLoop
    split_ifs with hn
    · have hq : Int.tdiv n 1024 = n / 1024 := Int.tdiv_eq_ediv (by omega) (by norm_num)
      rw [hq]
      have hmul : div * 1024 ≤ div * n := mul_le_mul_of_nonneg_left hn hdpos.le
      have hwrap : wrapInt64 (div * 1024) = div * 1024 :=
        wrapInt64_of_inInt64 ⟨by nlinarith, by nlinarith⟩
      rw [hwrap]
      have hstep1 : div * 1024 * (n / 1024) ≤ div * n := by
        rw [mul_assoc]; exact mul_le_mul_of_nonneg_left (by omega) hdpos.le
      have hstep2 : div * (n + 1) ≤ div * 1024 * (n / 1024 + 1) := by
        rw [mul_assoc]; exact mul_le_mul_of_nonneg_left (by omega) hdpos.le
      obtain ⟨k, hk1, hk2, hk3, hk4⟩ :=
        scaleLoop_spec b hb fuel (n / 1024) (div * 1024) (exp + 1) (by omega) (by omega)
          (by rw [hd]; ring) (by linarith) (by linarith)
      exact ⟨k, hk1, hk2, hk3, by omega⟩
    · refine ⟨exp, by rw [hd], ?_, ?_, le_rfl⟩
      · rw [← hd]; nlinarith
      · have : div * (n + 1) ≤ div * 1024 := mul_le_mul_of_nonneg_left (by omega) hdpos.le
        have e : (1024 : Int) ^ (exp + 2) = div * 1024 := by rw [hd]; ring
        rw [e]; linarith

theorem unit_index_le_five {b : Int} {k : Nat} (hb : b < 2 ^ 63)
    (hk : (1024 : Int) ^ (k + 1) ≤ b) : k ≤ 5 := by
  by_contra h
  have h7 : (1024 : Int) ^ 7 ≤ 1024 ^ (k + 1) := pow_le_pow_right₀ (by norm_num) (by omega)
  have : (1024 : Int) ^ 7 = 2 ^ 70 := by norm_num
  omega

/-- The scaling loop on an `int64` of at least 1024: the divisor is the power of
1024 indexed by the unit, and the unit index stays within `"KMGTPE"`. -/
theorem scaleLoop_bytes {b : Int} (h1 : 1024 ≤ b) (h2 : b < 2 ^ 63) :
    ∃ k : Nat, scaleLoop (Int.tdiv b 1024).toNat (Int.tdiv b 1024) 1024 0 = (1024 ^ (k + 1), k) ∧
      (1024 : Int) ^ (k + 1) ≤ b ∧ b < 1024 ^ (k + 2) ∧ k ≤ 5 := by
  have hq : Int.tdiv b 1024 = b / 1024 := Int.tdiv_eq_ediv (by omega) (by norm_num)
  rw [hq]
  obtain ⟨k, hk1, hk2, hk3, _⟩ :=
    scaleLoop_spec b h2 (b / 1024).toNat (b / 1024) 1024 0 (by omega) le_rfl (by norm_num)
      (by omega) (by omega)
  exact ⟨k, hk1, hk2, hk3, unit_index_le_five h2 hk2⟩

theorem unitLetter_isSome {k : Nat} (hk : k ≤ 5) : ∃ c, unitLetter k = some c := by
  interval_cases k <;> exact ⟨_, rfl⟩

/-- The quotient `float64(bytes) / float64(div)` for a divisor that is a power
of 1024: the division is exact. -/
theorem div_ofInt_pow1024 {b : Int} {k : Nat} (h0 : b ≠ 0) (hb : |b| < 2 ^ 64) (hk : k ≤ 5) :
    ∃ x : ℚ, F64.ofInt b = .fin x ∧ (|b| ≤ 2 ^ 53 → x = b) ∧
      F64.div (F64.ofInt b) (F64.ofInt (1024 ^ (k + 1))) = .fin (x / 1024 ^ (k + 1)) := by
  obtain ⟨m, s, hm, hs1, hs2, hx⟩ := ofInt_shape h0 hb
  have hpow : ((1024 ^ (k + 1) : Int) : ℚ) = pow2 ((10 * (k + 1) : Nat) : Int) := by
    rw [pow2_natCast]; push_cast; rw [pow_mul]; norm_num
  have hdiv : F64.ofInt (1024 ^ (k + 1)) = .fin ((1024 : ℚ) ^ (k + 1)) := by
    have hbin : IsBinary64 ((1024 ^ (k + 1) : Int) : ℚ) := by
      rw [hpow]
      have := isBinary64_of_le (m := 1) (e := ((10 * (k + 1) : Nat) : Int)) (by norm_num)
        (by omega) (by omega)
      simpa using this
    have := roundNE_of_isBinary64 hbin
    unfold F64.ofInt
    rw [this]; push_cast; rfl
  refine ⟨(m : ℚ) * pow2 s, hx, ?_, ?_⟩
  · intro hsmall
    have := ofInt_exact hsmall
    rw [hx] at this
    exact F64.fin.inj this
  · rw [hx, hdiv]
    have hne : ((1024 : ℚ) ^ (k + 1)) ≠ 0 := by positivity
    have hq : (m : ℚ) * pow2 s / (1024 : ℚ) ^ (k + 1)
        = (m : ℚ) * pow2 (s - ((10 * (k + 1) : Nat) : Int)) := by
      have : (1024 : ℚ) ^ (k + 1) = pow2 ((10 * (k + 1) : Nat) : Int) := by
        rw [← hpow]; push_cast; rfl
      rw [this, sub_eq_add_neg, pow2_add, mul_div_assoc]
      congr 1
      rw [div_eq_iff (pow2_pos _).ne', mul_assoc, ← pow2_add]
      simp [pow2_eq_zpow]
    unfold F64.div
    simp only [if_neg hne]
    rw [hq]
    exact roundNE_of_isBinary64 (isBinary64_of_le hm (by omega) (by omega))

/-- Helper shared by the claims on `BytesToHumanReadable`: the output for a
byte count of at least 1024. -/
theorem BytesToHumanReadable_of_ge {b : Int} (h1 : 1024 ≤ b) (h2 : b < 2 ^ 63) :
    ∃ (k : Nat) (c : Char) (x : ℚ),
      (1024 : Int) ^ (k + 1) ≤ b ∧ b < 1024 ^ (k + 2) ∧ k ≤ 5 ∧
      "KMGTPE".toList.get? k = some c ∧
      F64.ofInt b = .fin x ∧ (b ≤ 2 ^ 53 → x = b) ∧
      BytesToHumanReadable b
        = some (fixed2 (x / 1024 ^ (k + 1)) ++ " " ++ String.singleton c ++ "B") := by
  obtain ⟨k, hk1, hk2, hk3, hk4⟩ := scaleLoop_bytes h1 h2
  obtain ⟨c, hc⟩ := unitLetter_isSome hk4
  obtain ⟨x, hx1, hx2, hx3⟩ := div_ofInt_pow1024 (b := b) (k := k) (by omega)
    (by rw [abs_of_nonneg (by omega)]; omega) hk4
  refine ⟨k, c, x, hk2, hk3, hk4, hc, hx1, ?_, ?_⟩
  · intro hb
    exact hx2 (by rw [abs_of_nonneg (by omega)]; exact hb)
  · unfold BytesToHumanReadable
    simp only [if_neg (not_lt.mpr h1), hk1, hx3, hc, Option.map_some', formatFixed2]

theorem unit_index_unique {b : Int} {j k : Nat}
    (hj1 : (1024 : Int) ^ (j + 1) ≤ b) (hj2 : b < 1024 ^ (j + 2))
    (hk1 : (1024 : Int) ^ (k + 1) ≤ b) (hk2 : b < 1024 ^ (k + 2)) : j = k := by
  by_contra h
  rcases Nat.lt_or_gt_of_ne h with hlt | hlt
  · have : (1024 : Int) ^ (j + 2) ≤ 1024 ^ (k + 1) := pow_le_pow_right₀ (by norm_num) (by omega)
    omega
  · have : (1024 : Int) ^ (k + 2) ≤ 1024 ^ (j + 1) := pow_le_pow_right₀ (by norm_num) (by omega)
    omega

theorem toString_int_of_nonneg {b : Int} (h : 0 ≤ b) : toString b = Nat.repr b.toNat := by
  obtain ⟨n, rfl⟩ := Int.eq_ofNat_of_zero_le h
  rfl

theorem BytesToHumanReadable_isSome {b : Int} (hb : InInt64 b) :
    ∃ s, BytesToHumanReadable b = some s := by
  by_cases h : b < 1024
  · exact ⟨_, by unfold BytesToHumanReadable; rw [if_pos h]⟩
  · obtain ⟨k, c, x, _, _, _, _, _, _, hres⟩ := BytesToHumanReadable_of_ge (not_lt.mp h) hb.2
    exact ⟨_, hres⟩

/-! ## Lemmas: `BytesToMB` and `RoundToTwoDecimals` -/

theorem BytesToMB_of_exact {b : Int} (h1 : IsBinary64 (b : ℚ))
    (h2 : IsBinary64 ((b : ℚ) / 1048576)) : BytesToMB b = .fin ((b : ℚ) / 1048576) := by
  unfold BytesToMB F64.ofInt
  rw [roundNE_of_isBinary64 h1]
  unfold F64.div
  have hne : ((1024 : ℚ) * 1024) ≠ 0 := by norm_num
  simp only [if_neg hne]
  have : (1024 : ℚ) * 1024 = 1048576 := by norm_num
  rw [this]
  exact roundNE_of_isBinary64 h2

theorem pow2_neg_twenty : pow2 (-20) = 1 / 1048576 := by
  rw [pow2_eq_zpow]; norm_num [zpow_neg]

theorem pow2_twenty : pow2 20 = 1048576 := by
  rw [pow2_eq_zpow]; norm_num

theorem BytesToMB_of_small {b : Int} (h0 : 0 ≤ b) (h1 : b ≤ 2 ^ 53) :
    BytesToMB b = .fin ((b : ℚ) / 1048576) := by
  have habs : |b| ≤ 2 ^ 53 := by rw [abs_of_nonneg h0]; exact h1
  apply BytesToMB_of_exact (isBinary64_intCast habs)
  have := isBinary64_of_le (m := b) (e := -20) habs (by norm_num) (by norm_num)
  rwa [pow2_neg_twenty, mul_one_div] at this

theorem BytesToMB_of_multiple {k : Int} (h0 : 0 ≤ k) (h1 : k * 1048576 < 2 ^ 63) :
    BytesToMB (k * 1048576) = .fin (k : ℚ) := by
  have habs : |k| ≤ 2 ^ 53 := by rw [abs_of_nonneg h0]; omega
  have hb : IsBinary64 ((k * 1048576 : Int) : ℚ) := by
    have := isBinary64_of_le (m := k) (e := 20) habs (by norm_num) (by norm_num)
    rw [pow2_twenty] at this
    push_cast
    exact this
  have hq : ((k * 1048576 : Int) : ℚ) / 1048576 = (k : ℚ) := by
    push_cast; field_simp
  have := BytesToMB_of_exact hb (by rw [hq]; exact isBinary64_intCast habs)
  rw [this, hq]

theorem RoundToTwoDecimals_of_exact {x : ℚ} (h : IsBinary64 (x * 100)) :
    RoundToTwoDecimals (.fin x) = roundNE ((roundHalfAway (x * 100) : ℚ) / 100) := by
  unfold RoundToTwoDecimals F64.mul
  simp only
  rw [roundNE_of_isBinary64 h]
  unfold F64.round F64.div
  simp

theorem roundHalfAway_nearest (y : ℚ) :
    |(roundHalfAway y : ℚ) - y| ≤ 1 / 2 ∧
      (|(roundHalfAway y : ℚ) - y| = 1 / 2 → |y| < |(roundHalfAway y : ℚ)|) := by
  unfold roundHalfAway
  split_ifs with h
  · have h1 := Int.floor_le (y + 1 / 2)
    have h2 := Int.lt_floor_add_one (y + 1 / 2)
    have hnn : (0 : ℚ) ≤ (⌊y + 1 / 2⌋ : ℚ) := by
      have : (0 : Int) ≤ ⌊y + 1 / 2⌋ := Int.floor_nonneg.mpr (by linarith)
      exact_mod_cast this
    refine ⟨abs_le.mpr ⟨by linarith, by linarith⟩, fun he => ?_⟩
    rw [abs_of_nonneg h, abs_of_nonneg hnn]
    rcases abs_cases ((⌊y + 1 / 2⌋ : ℚ) - y) with ⟨e, _⟩ | ⟨e, _⟩ <;> rw [e] at he <;> linarith
  · have hneg : y < 0 := not_le.mp h
    have h1 := Int.floor_le (-y + 1 / 2)
    have h2 := Int.lt_floor_add_one (-y + 1 / 2)
    have hnn : (0 : ℚ) ≤ (⌊-y + 1 / 2⌋ : ℚ) := by
      have : (0 : Int) ≤ ⌊-y + 1 / 2⌋ := Int.floor_nonneg.mpr (by linarith)
      exact_mod_cast this
    push_cast
    refine ⟨abs_le.mpr ⟨by linarith, by linarith⟩, fun he => ?_⟩
    rw [abs_of_neg hneg, abs_neg, abs_of_nonneg hnn]
    rcases abs_cases (-(⌊-y + 1 / 2⌋ : ℚ) - y) with ⟨e, _⟩ | ⟨e, _⟩ <;> rw [e] at he <;> linarith

/-! ## Lemmas: rounding a product that is not exact -/

theorem abs_roundHalfEven_sub_le (q : ℚ) : |(roundHalfEven q : ℚ) - q| ≤ 1 / 2 := by
  unfold roundHalfEven
  have h1 := Int.floor_le q
  have h2 := Int.lt_floor_add_one q
  simp only
  split_ifs <;> push_cast <;> rw [abs_le] <;> constructor <;> linarith

/-- Below `2^52` every half-integer is a multiple of the unit in the last
place. -/
theorem half_integer_multiple {s : Int} (hs : s ≤ -1) (n : Int) :
    ∃ a : Int, (a : ℚ) * pow2 s = (n : ℚ) + 1 / 2 := by
  refine ⟨(2 * n + 1) * 2 ^ (-s - 1).toNat, ?_⟩
  have e : (((2 : Int) ^ (-s - 1).toNat : Int) : ℚ) = pow2 (((-s - 1).toNat : Nat) : Int) := by
    rw [pow2_natCast]; push_cast; rfl
  have e2 : (((-s - 1).toNat : Nat) : Int) = -s - 1 := Int.toNat_of_nonneg (by omega)
  have e3 : pow2 (-s - 1) * pow2 s = 1 / 2 := by
    rw [← pow2_add, show -s - 1 + s = -1 by ring, pow2_eq_zpow]; norm_num
  push_cast at e ⊢
  rw [e, e2, mul_assoc, e3]
  ring

/-- The nearest multiple of `2^s` stays on the same side of every multiple of
`2^s`. -/
theorem scaled_le_roundHalfEven {y : ℚ} {s a : Int} (h : (a : ℚ) * pow2 s ≤ y) :
    (a : ℚ) * pow2 s ≤ (roundHalfEven (y / pow2 s) : ℚ) * pow2 s := by
  have h1 : (a : ℚ) ≤ y / pow2 s := (le_div_iff₀ (pow2_pos s)).mpr h
  have h2 : a ≤ roundHalfEven (y / pow2 s) := le_roundHalfEven h1
  exact mul_le_mul_of_nonneg_right (by exact_mod_cast h2) (pow2_pos s).le

theorem roundHalfEven_scaled_le {y : ℚ} {s a : Int} (h : y ≤ (a : ℚ) * pow2 s) :
    (roundHalfEven (y / pow2 s) : ℚ) * pow2 s ≤ (a : ℚ) * pow2 s := by
  have h1 : y / pow2 s ≤ (a : ℚ) := (div_le_iff₀ (pow2_pos s)).mpr h
  have h2 : roundHalfEven (y / pow2 s) ≤ a := roundHalfEven_le h1
  exact mul_le_mul_of_nonneg_right (by exact_mod_cast h2) (pow2_pos s).le

theorem abs_roundHalfEven_scaled_sub_le (y : ℚ) (s : Int) :
    |(roundHalfEven (y / pow2 s) : ℚ) * pow2 s - y| ≤ pow2 s / 2 := by
  have h := abs_roundHalfEven_sub_le (y / pow2 s)
  have e : (roundHalfEven (y / pow2 s) : ℚ) * pow2 s - y
      = ((roundHalfEven (y / pow2 s) : ℚ) - y / pow2 s) * pow2 s := by
    field_simp [(pow2_pos s).ne.symm]
  rw [e, abs_mul, abs_of_pos (pow2_pos s)]
  have := mul_le_mul_of_nonneg_right h (pow2_pos s).le
  linarith

theorem ulpExp_le_neg_one {y : ℚ} (hy : y ≠ 0) (h52 : |y| < pow2 52) : ulpExp y ≤ -1 := by
  have h1 := (binExp_spec hy).1
  have : binExp y < 52 := pow2_lt_pow2.mp (lt_of_le_of_lt h1 h52)
  unfold ulpExp
  rcases max_cases (binExp y) (-1022) with ⟨hmax, _⟩ | ⟨hmax, _⟩ <;> rw [hmax] <;> omega

theorem roundNE_of_lt_pow2_52 {y : ℚ} (hy : y ≠ 0) (h52 : |y| < pow2 52) :
    roundNE y = .fin ((roundHalfEven (y / pow2 (ulpExp y)) : ℚ) * pow2 (ulpExp y)) := by
  have hs := ulpExp_le_neg_one hy h52
  have hm := abs_significand_le hy
  have hlt : |(roundHalfEven (y / pow2 (ulpExp y)) : ℚ) * pow2 (ulpExp y)| < pow2 1024 := by
    rw [abs_mul, abs_of_pos (pow2_pos _)]
    have h53 : pow2 53 = ((2 ^ 53 : Int) : ℚ) := by
      rw [show (53 : Int) = ((53 : Nat) : Int) by rfl, pow2_natCast]; norm_num
    have hmq : |(roundHalfEven (y / pow2 (ulpExp y)) : ℚ)| ≤ pow2 53 := by
      rw [h53]; exact_mod_cast hm
    calc |(roundHalfEven (y / pow2 (ulpExp y)) : ℚ)| * pow2 (ulpExp y)
        ≤ pow2 53 * pow2 (ulpExp y) := mul_le_mul_of_nonneg_right hmq (pow2_pos _).le
      _ = pow2 (53 + ulpExp y) := (pow2_add _ _).symm
      _ < pow2 1024 := pow2_lt_pow2.mpr (by omega)
  unfold roundNE
  rw [if_neg hy]
  simp only
  rw [if_neg (not_le.mpr hlt)]

theorem roundHalfAway_of_nonpos {p : ℚ} (hp : p ≤ 0) : roundHalfAway p = -⌊-p + 1 / 2⌋ := by
  unfold roundHalfAway
  split_ifs with h
  · have : p = 0 := le_antisymm hp h
    subst this
    norm_num
  · rfl

/-- Rounding a product below `2^52` to binary64 does not change the integer
nearest to it, unless the product lies within half a unit in the last place
under a tie. -/
theorem roundHalfAway_roundNE {y : ℚ} (h52 : |y| < pow2 52)
    (hm : |y| + pow2 (ulpExp y) / 2 < |(roundHalfAway y : ℚ)| + 1 / 2) :
    ∃ p : ℚ, roundNE y = .fin p ∧ roundHalfAway p = roundHalfAway y := by
  by_cases hy : y = 0
  · subst hy
    exact ⟨0, by simp [roundNE], rfl⟩
  refine ⟨_, roundNE_of_lt_pow2_52 hy h52, ?_⟩
  have hs := ulpExp_le_neg_one hy h52
  have herr := abs_le.mp (abs_roundHalfEven_scaled_sub_le y (ulpExp y))
  generalize hp : (roundHalfEven (y / pow2 (ulpExp y)) : ℚ) * pow2 (ulpExp y) = p at herr ⊢
  by_cases h0 : 0 ≤ y
  · have hp0 : 0 ≤ p := by
      have := @scaled_le_roundHalfEven y (ulpExp y) 0 (by simpa using h0)
      rw [hp] at this
      simpa using this
    have hN : roundHalfAway y = ⌊y + 1 / 2⌋ := by unfold roundHalfAway; rw [if_pos h0]
    have hNp : roundHalfAway p = ⌊p + 1 / 2⌋ := by unfold roundHalfAway; rw [if_pos hp0]
    have h1 := Int.floor_le (y + 1 / 2)
    have hnn : (0 : ℚ) ≤ (⌊y + 1 / 2⌋ : ℚ) := by
      have : (0 : Int) ≤ ⌊y + 1 / 2⌋ := Int.floor_nonneg.mpr (by linarith)
      exact_mod_cast this
    rw [hN, abs_of_nonneg h0, abs_of_nonneg hnn] at hm
    rw [hNp, hN, Int.floor_eq_iff]
    obtain ⟨a, ha⟩ := half_integer_multiple hs (⌊y + 1 / 2⌋ - 1)
    have hlow := @scaled_le_roundHalfEven y (ulpExp y) a (by rw [ha]; push_cast; linarith)
    rw [hp, ha] at hlow
    push_cast at hlow
    constructor <;> linarith
  · have hneg : y < 0 := not_le.mp h0
    have hp0 : p ≤ 0 := by
      have := @roundHalfEven_scaled_le y (ulpExp y) 0 (by simpa using hneg.le)
      rw [hp] at this
      simpa using this
    have hN : roundHalfAway y = -⌊-y + 1 / 2⌋ := by unfold roundHalfAway; rw [if_neg h0]
    have h1 := Int.floor_le (-y + 1 / 2)
    have hnn : (0 : ℚ) ≤ (⌊-y + 1 / 2⌋ : ℚ) := by
      have : (0 : Int) ≤ ⌊-y + 1 / 2⌋ := Int.floor_nonneg.mpr (by linarith)
      exact_mod_cast this
    rw [hN] at hm
    push_cast at hm
    rw [abs_of_neg hneg, abs_neg, abs_of_nonneg hnn] at hm
    rw [roundHalfAway_of_nonpos hp0, hN, neg_inj, Int.floor_eq_iff]
    obtain ⟨a, ha⟩ := half_integer_multiple hs (-⌊-y + 1 / 2⌋)
    have hup := @roundHalfEven_scaled_le y (ulpExp y) a (by rw [ha]; push_cast; linarith)
    rw [hp, ha] at hup
    push_cast at hup
    constructor <;> linarith

theorem RoundToTwoDecimals_of_margin {x : ℚ} (h52 : |x * 100| < pow2 52)
    (hm : |x * 100| + pow2 (ulpExp (x * 100)) / 2 < |(roundHalfAway (x * 100) : ℚ)| + 1 / 2) :
    RoundToTwoDecimals (.fin x) = roundNE ((roundHalfAway (x * 100) : ℚ) / 100) := by
  obtain ⟨p, hp, hN⟩ := roundHalfAway_roundNE h52 hm
  unfold RoundToTwoDecimals F64.mul
  simp only
  rw [hp]
  unfold F64.round F64.div
  simp [hN]

/-! ## Lemmas: path strings -/

theorem splitSep_ne_nil (cs : List Char) : splitSep cs ≠ [] := by
  cases cs with
  | nil => simp [splitSep]
  | cons c cs =>
    unfold splitSep
    split_ifs
    · simp
    · split <;> simp

theorem splitSep_append_sep (a b : List Char) :
    splitSep (a ++ '/' :: b) = splitSep a ++ splitSep b := by
  induction a with
  | nil => simp [splitSep]
  | cons c a ih =>
    rw [List.cons_append]
    by_cases hc : c = '/'
    · subst hc
      simp only [splitSep, if_true, ih, List.cons_append]
    · rw [splitSep, if_neg hc, ih]
      conv_rhs => rw [splitSep, if_neg hc]
      have hne := splitSep_ne_nil a
      cases h : splitSep a with
      | nil => exact absurd h hne
      | cons x xs => simp

theorem splitSep_of_no_sep {ns : List Char} (h : ∀ c ∈ ns, c ≠ '/') : splitSep ns = [ns] := by
  induction ns with
  | nil => rfl
  | cons c ns ih =>
    have hc : c ≠ '/' := h c (List.mem_cons_self _ _)
    have ih' := ih (fun d hd => h d (List.mem_cons_of_mem _ hd))
    rw [splitSep, if_neg hc, ih']

theorem joinSep_cons_cons (a b : List Char) (rest : List (List Char)) :
    joinSep (a :: b :: rest) = a ++ '/' :: joinSep (b :: rest) := rfl

theorem joinSep_append_singleton (ns : List Char) :
    ∀ xs : List (List Char), xs ≠ [] → joinSep (xs ++ [ns]) = joinSep xs ++ '/' :: ns
  | [], h => absurd rfl h
  | [a], _ => rfl
  | a :: b :: rest, _ => by
    have ih := joinSep_append_singleton ns (b :: rest) (by simp)
    rw [List.cons_append, List.cons_append, joinSep_cons_cons, ← List.cons_append, ih,
      joinSep_cons_cons]
    simp

theorem validChars_of_validName {n : String} (h : validName n = true) : ValidChars n.toList := by
  unfold validName at h
  simp only [Bool.and_eq_true, decide_eq_true_eq, List.all_eq_true] at h
  exact ⟨h.1.1.1, h.1.1.2, h.1.2, h.2⟩

theorem cleanStep_valid (rooted : Bool) (stack : List (List Char)) {ns : List Char}
    (h : ValidChars ns) : cleanStep rooted stack ns = ns :: stack := by
  unfold cleanStep
  rw [if_neg (by rintro (h1 | h1); exact h.1 h1; exact h.2.1 h1), if_neg h.2.2.1]

/-- The stack of kept elements after cleaning a path extended by a separator
and a valid name: the name on top of the stack for the path alone. -/
theorem foldl_cleanStep_append (rooted : Bool) (cs : List Char) {ns : List Char}
    (h : ValidChars ns) :
    (splitSep (cs ++ '/' :: ns)).foldl (cleanStep rooted) []
      = ns :: (splitSep cs).foldl (cleanStep rooted) [] := by
  rw [splitSep_append_sep, splitSep_of_no_sep h.2.2.2, List.foldl_append]
  simp only [List.foldl_cons, List.foldl_nil]
  exact cleanStep_valid _ _ h

theorem head?_append_of_ne_nil {cs : List Char} (h : cs ≠ []) (ds : List Char) :
    (cs ++ ds).head? = cs.head? := by
  cases cs with
  | nil => exact absurd rfl h
  | cons c cs => rfl

/-- Cleaning a clean path extended by a separator and a valid name changes nothing. -/
theorem cleanChars_append {cs ns : List Char} (hc : cleanChars cs = cs) (h1 : cs ≠ ['/'])
    (h2 : cs ≠ ['.']) (h : ValidChars ns) :
    cleanChars (cs ++ '/' :: ns) = cs ++ '/' :: ns := by
  have hne : cs ≠ [] := by
    intro h0
    rw [h0] at hc
    simp [cleanChars] at hc
  have hne' : cs ++ '/' :: ns ≠ [] := by simp
  unfold cleanChars at hc ⊢
  simp only [if_neg hne, if_neg hne', head?_append_of_ne_nil hne,
    foldl_cleanStep_append _ _ h, List.reverse_cons] at hc ⊢
  by_cases hr : decide (cs.head? = some '/') = true
  · simp only [hr, if_true] at hc ⊢
    have hx : ((splitSep cs).foldl (cleanStep true) []).reverse ≠ [] := by
      intro h0
      rw [h0] at hc
      exact h1 hc.symm
    rw [joinSep_append_singleton ns _ hx]
    conv_rhs => rw [← hc]
    simp
  · simp only [hr] at hc ⊢
    simp only [Bool.false_eq_true, if_false] at hc ⊢
    have hb : joinSep ((splitSep cs).foldl (cleanStep false) []).reverse ≠ [] := by
      intro h0
      rw [if_pos h0] at hc
      exact h2 hc.symm
    rw [if_neg hb] at hc
    have hx : ((splitSep cs).foldl (cleanStep false) []).reverse ≠ [] := by
      intro h0
      rw [h0] at hb
      exact hb rfl
    rw [joinSep_append_singleton ns _ hx, hc, if_neg (by simp)]

theorem splitSep_no_sep (cs : List Char) : ∀ el ∈ splitSep cs, ∀ c ∈ el, c ≠ '/' := by
  induction cs with
  | nil => simp [splitSep]
  | cons c cs ih =>
    unfold splitSep
    split_ifs with hc
    · intro el hel
      rcases List.mem_cons.mp hel with h | h
      · subst h; simp
      · exact ih el h
    · cases hs : splitSep cs with
      | nil => exact absurd hs (splitSep_ne_nil cs)
      | cons x xs =>
        rw [hs] at ih
        intro el hel
        rcases List.mem_cons.mp hel with h | h
        · subst h
          intro d hd
          rcases List.mem_cons.mp hd with h' | h'
          · subst h'; exact hc
          · exact ih x (List.mem_cons_self _ _) d h'
        · exact ih el (List.mem_cons_of_mem _ h)

theorem cleanStep_dotdot_nil (rooted : Bool) :
    cleanStep rooted [] ['.', '.'] = if rooted then [] else [['.', '.']] := by
  simp [cleanStep]

theorem cleanStep_dotdot_cons (rooted : Bool) (top : List Char) (rest : List (List Char)) :
    cleanStep rooted (top :: rest) ['.', '.']
      = if top = ['.', '.'] then (if rooted then top :: rest else ['.', '.'] :: top :: rest)
        else rest := by
  simp [cleanStep]

theorem cleanStep_push (rooted : Bool) (stack : List (List Char)) {el : List Char}
    (h1 : el ≠ []) (h2 : el ≠ ['.']) (h3 : el ≠ ['.', '.']) :
    cleanStep rooted stack el = el :: stack := by
  unfold cleanStep
  rw [if_neg (by rintro (h | h); exact h1 h; exact h2 h), if_neg h3]

theorem keptStack_cleanStep {rooted : Bool} {stack : List (List Char)} {el : List Char}
    (hs : KeptStack rooted stack) (hel : ∀ c ∈ el, c ≠ '/') :
    KeptStack rooted (cleanStep rooted stack el) := by
  by_cases h1 : el = [] ∨ el = ['.']
  · unfold cleanStep; rw [if_pos h1]; exact hs
  · push_neg at h1
    by_cases h2 : el = ['.', '.']
    · subst h2
      cases stack with
      | nil =>
        rw [cleanStep_dotdot_nil]
        cases rooted <;> simp [KeptStack]
      | cons top rest =>
        rw [cleanStep_dotdot_cons]
        by_cases h3 : top = ['.', '.']
        · rw [if_pos h3]
          cases hr : rooted
          · simp only [Bool.false_eq_true, if_false]
            rw [← hr]
            refine ⟨hs, by simp, by simp, by simp, fun _ => ⟨hr, ?_⟩⟩
            intro el hel
            rcases List.mem_cons.mp hel with h | h
            · rw [h, h3]
            · exact (hs.2.2.2.2 h3).2 el h
          · simp only [if_true]
            rw [← hr]; exact hs
        · rw [if_neg h3]; exact hs.1
    · rw [cleanStep_push _ _ h1.1 h1.2 h2]
      exact ⟨hs, h1.1, h1.2, hel, fun h => absurd h h2⟩

theorem keptStack_foldl {rooted : Bool} :
    ∀ (els : List (List Char)) (stack : List (List Char)), KeptStack rooted stack →
      (∀ el ∈ els, ∀ c ∈ el, c ≠ '/') → KeptStack rooted (els.foldl (cleanStep rooted) stack)
  | [], _, hs, _ => hs
  | el :: els, stack, hs, h => by
    rw [List.foldl_cons]
    exact keptStack_foldl els _ (keptStack_cleanStep hs (h el (List.mem_cons_self _ _)))
      (fun e he => h e (List.mem_cons_of_mem _ he))

theorem keptStack_no_sep {rooted : Bool} :
    ∀ {stack : List (List Char)}, KeptStack rooted stack → ∀ el ∈ stack, ∀ c ∈ el, c ≠ '/'
  | [], _, el, hel => by simp at hel
  | top :: rest, hs, el, hel => by
    rcases List.mem_cons.mp hel with h | h
    · subst h; exact hs.2.2.2.1
    · exact keptStack_no_sep hs.1 el h

theorem keptStack_ne_nil {rooted : Bool} :
    ∀ {stack : List (List Char)}, KeptStack rooted stack → ∀ el ∈ stack, el ≠ []
  | [], _, el, hel => by simp at hel
  | top :: rest, hs, el, hel => by
    rcases List.mem_cons.mp hel with h | h
    · subst h; exact hs.2.1
    · exact keptStack_ne_nil hs.1 el h

/-- Feeding the kept elements, first one first, to the cleaning step rebuilds the stack. -/
theorem foldl_cleanStep_reverse {rooted : Bool} :
    ∀ {stack : List (List Char)}, KeptStack rooted stack →
      stack.reverse.foldl (cleanStep rooted) [] = stack
  | [], _ => rfl
  | top :: rest, hs => by
    rw [List.reverse_cons, List.foldl_append, foldl_cleanStep_reverse hs.1]
    simp only [List.foldl_cons, List.foldl_nil]
    by_cases h2 : top = ['.', '.']
    · obtain ⟨hr, hall⟩ := hs.2.2.2.2 h2
      subst h2
      cases rest with
      | nil => rw [cleanStep_dotdot_nil, hr]; rfl
      | cons t r =>
        have ht : t = ['.', '.'] := hall t (List.mem_cons_self _ _)
        rw [cleanStep_dotdot_cons, if_pos ht, hr]; rfl
    · exact cleanStep_push _ _ hs.2.1 hs.2.2.1 h2

theorem splitSep_joinSep : ∀ (xs : List (List Char)), xs ≠ [] →
    (∀ el ∈ xs, ∀ c ∈ el, c ≠ '/') → splitSep (joinSep xs) = xs
  | [], h, _ => absurd rfl h
  | [a], _, h => splitSep_of_no_sep (h a (List.mem_cons_self _ _))
  | a :: b :: rest, _, h => by
    rw [joinSep_cons_cons, splitSep_append_sep, splitSep_of_no_sep (h a (List.mem_cons_self _ _)),
      splitSep_joinSep (b :: rest) (by simp) (fun e he => h e (List.mem_cons_of_mem _ he))]
    rfl

theorem foldl_cleanStep_joinSep {rooted : Bool} {stack : List (List Char)}
    (hs : KeptStack rooted stack) :
    (splitSep (joinSep stack.reverse)).foldl (cleanStep rooted) [] = stack := by
  by_cases h0 : stack = []
  · subst h0; rfl
  · have hne : stack.reverse ≠ [] := by simpa using h0
    rw [splitSep_joinSep _ hne (fun el hel => keptStack_no_sep hs el (List.mem_reverse.mp hel))]
    exact foldl_cleanStep_reverse hs

theorem head?_joinSep {a : List Char} (ha : a ≠ []) (rest : List (List Char)) :
    (joinSep (a :: rest)).head? = a.head? := by
  cases rest with
  | nil => rfl
  | cons b rest => rw [joinSep_cons_cons, head?_append_of_ne_nil ha]

theorem head?_joinSep_ne_sep {rooted : Bool} {stack : List (List Char)}
    (hs : KeptStack rooted stack) : (joinSep stack.reverse).head? ≠ some '/' := by
  cases hrev : stack.reverse with
  | nil => simp [joinSep]
  | cons a rest =>
    have hmem : a ∈ stack := by
      rw [← List.mem_reverse, hrev]; exact List.mem_cons_self _ _
    have hns := keptStack_no_sep hs a hmem
    cases a with
    | nil => exact absurd rfl (keptStack_ne_nil hs [] hmem)
    | cons c a' =>
      rw [head?_joinSep (by simp)]
      simp only [List.head?_cons, ne_eq, Option.some.injEq]
      exact hns c (List.mem_cons_self _ _)

theorem cleanChars_dot : cleanChars ['.'] = ['.'] := by decide

/-- The output built from a stack of kept elements is a fixed point of `filepath.Clean`. -/
theorem cleanChars_render {rooted : Bool} {stack : List (List Char)}
    (hs : KeptStack rooted stack) :
    cleanChars (if rooted then '/' :: joinSep stack.reverse
        else if joinSep stack.reverse = [] then ['.'] else joinSep stack.reverse)
      = if rooted then '/' :: joinSep stack.reverse
        else if joinSep stack.reverse = [] then ['.'] else joinSep stack.reverse := by
  cases rooted with
  | true =>
    simp only [if_true]
    unfold cleanChars
    have hsplit : splitSep ('/' :: joinSep stack.reverse) = [] :: splitSep (joinSep stack.reverse) := by
      rw [splitSep, if_pos rfl]
    have hstep : cleanStep true [] [] = [] := by simp [cleanStep]
    simp only [if_neg (List.cons_ne_nil _ _), List.head?_cons, decide_True, if_true, hsplit,
      List.foldl_cons, hstep, foldl_cleanStep_joinSep hs]
  | false =>
    simp only [Bool.false_eq_true, if_false]
    by_cases hb : joinSep stack.reverse = []
    · rw [if_pos hb]; exact cleanChars_dot
    · rw [if_neg hb]
      unfold cleanChars
      have hh : decide ((joinSep stack.reverse).head? = some '/') = false := by
        simpa using head?_joinSep_ne_sep hs
      simp only [if_neg hb, hh, Bool.false_eq_true, if_false, foldl_cleanStep_joinSep hs]

theorem keptStack_of_path (rooted : Bool) (cs : List Char) :
    KeptStack rooted ((splitSep cs).foldl (cleanStep rooted) []) :=
  keptStack_foldl _ _ trivial (splitSep_no_sep cs)

/-- `filepath.Clean` is idempotent. -/
theorem cleanChars_idem (cs : List Char) : cleanChars (cleanChars cs) = cleanChars cs := by
  by_cases h0 : cs = []
  · subst h0
    have : cleanChars [] = ['.'] := by decide
    rw [this, cleanChars_dot]
  · have hr := cleanChars_render (keptStack_of_path (decide (cs.head? = some '/')) cs)
    have he : cleanChars cs
        = if decide (cs.head? = some '/') = true
          then '/' :: joinSep ((splitSep cs).foldl (cleanStep (decide (cs.head? = some '/'))) []).reverse
          else if joinSep ((splitSep cs).foldl (cleanStep (decide (cs.head? = some '/'))) []).reverse = []
            then ['.']
            else joinSep ((splitSep cs).foldl (cleanStep (decide (cs.head? = some '/'))) []).reverse := by
      unfold cleanChars
      rw [if_neg h0]
    rw [he]
    exact hr

/-- Cleaning a path extended by a separator and a valid name never yields the
root or the current directory. -/
theorem cleanChars_append_ne (cs : List Char) {ns : List Char} (h : ValidChars ns) :
    cleanChars (cs ++ '/' :: ns) ≠ ['/'] ∧ cleanChars (cs ++ '/' :: ns) ≠ ['.'] := by
  have hne' : cs ++ '/' :: ns ≠ [] := by simp
  unfold cleanChars
  simp only [if_neg hne', foldl_cleanStep_append _ _ h, List.reverse_cons]
  have key : ∀ xs : List (List Char), joinSep (xs ++ [ns]) ≠ [] ∧ joinSep (xs ++ [ns]) ≠ ['.'] ∧
      joinSep (xs ++ [ns]) ≠ ['/'] := by
    intro xs
    by_cases hx : xs = []
    · subst hx
      refine ⟨h.1, h.2.1, ?_⟩
      intro hh
      have : ns = ['/'] := hh
      exact h.2.2.2 '/' (by rw [this]; simp) rfl
    · rw [joinSep_append_singleton ns xs hx]
      obtain ⟨c, ns', rfl⟩ := List.exists_cons_of_ne_nil h.1
      refine ⟨by simp, ?_, ?_⟩ <;>
      · intro hh
        have := congrArg List.length hh
        simp at this
        omega
  split_ifs with h1 h2
  · exact ⟨by simpa using (key _).1, by simp⟩
  · exact absurd h2 (key _).1
  · exact ⟨(key _).2.2, (key _).2.1⟩

theorem cleanChars_validChars {ns : List Char} (h : ValidChars ns) : cleanChars ns = ns := by
  obtain ⟨c, ns', rfl⟩ := List.exists_cons_of_ne_nil h.1
  have hc : c ≠ '/' := h.2.2.2 c (List.mem_cons_self _ _)
  unfold cleanChars
  have hh : decide ((c :: ns').head? = some '/') = false := by simpa using hc
  simp only [if_neg (List.cons_ne_nil _ _), hh, splitSep_of_no_sep h.2.2.2, List.foldl_cons,
    List.foldl_nil, cleanStep_valid _ _ h, List.reverse_cons, List.reverse_nil, List.nil_append,
    joinSep, Bool.false_eq_true, if_false, if_neg (List.cons_ne_nil _ _)]

theorem toList_append (a b : String) : (a ++ b).toList = a.toList ++ b.toList :=
  String.data_append a b

theorem toList_path (p n : String) : (p ++ "/" ++ n).toList = p.toList ++ '/' :: n.toList := by
  rw [toList_append, toList_append]
  simp [String.toList]

theorem clean_eq_iff {p : String} : Clean p = p ↔ cleanChars p.toList = p.toList := by
  unfold Clean
  constructor
  · intro h
    have := congrArg String.toList h
    simpa [String.toList] using this
  · intro h
    rw [h]
    rfl

theorem ne_of_toList_ne {p q : String} (h : p.toList ≠ q.toList) : p ≠ q := by
  intro e; exact h (by rw [e])

theorem toList_ne_of_ne {p q : String} (h : p ≠ q) : p.toList ≠ q.toList := by
  intro e; exact h (String.ext e)

/-- Joining a good path and a valid name appends separator and name, and the
result is a good path again. -/
theorem Join_of_goodPath {p n : String} (hp : GoodPath p) (hn : validName n = true) :
    Join p n = p ++ "/" ++ n ∧ GoodPath (p ++ "/" ++ n) := by
  obtain ⟨hc, h1, h2⟩ := hp
  have hv := validChars_of_validName hn
  have hcl : cleanChars (p.toList ++ '/' :: n.toList) = p.toList ++ '/' :: n.toList :=
    cleanChars_append (clean_eq_iff.mp hc) (toList_ne_of_ne h1) (toList_ne_of_ne h2) hv
  have hclean : Clean (p ++ "/" ++ n) = p ++ "/" ++ n := by
    rw [clean_eq_iff, toList_path]; exact hcl
  have hpne : p ≠ "" := by
    intro h0
    rw [h0] at hc
    exact absurd hc (by decide)
  have hlen : ∀ q : String, q.toList.length ≤ 1 → p ++ "/" ++ n ≠ q := by
    intro q hq
    apply ne_of_toList_ne
    rw [toList_path]
    intro e
    have := congrArg List.length e
    simp only [List.length_append, List.length_cons] at this
    have hp0 : p.toList ≠ [] := toList_ne_of_ne hpne
    have : 0 < p.toList.length := List.length_pos.mpr hp0
    omega
  refine ⟨?_, hclean, hlen "/" (by decide), hlen "." (by decide)⟩
  unfold Join
  rw [if_neg hpne, hclean]

/-- Whatever the directory path, joining a valid name to it gives a good path. -/
theorem goodPath_Join (p : String) {n : String} (hn : validName n = true) :
    GoodPath (Join p n) := by
  have hv := validChars_of_validName hn
  have hnne : n ≠ "" := by
    intro h0; rw [h0] at hv; exact hv.1 rfl
  unfold Join
  by_cases hp : p = ""
  · rw [if_pos hp, if_neg hnne]
    have hcl : Clean n = n := clean_eq_iff.mpr (cleanChars_validChars hv)
    rw [hcl]
    refine ⟨hcl, ?_, ?_⟩
    · apply ne_of_toList_ne
      intro e
      exact hv.2.2.2 '/' (by rw [e]; decide) rfl
    · apply ne_of_toList_ne
      exact hv.2.1
  · rw [if_neg hp]
    obtain ⟨ha, hb⟩ := cleanChars_append_ne p.toList hv
    refine ⟨?_, ?_, ?_⟩
    · rw [clean_eq_iff]
      unfold Clean
      rw [toList_path]
      exact cleanChars_idem _
    · unfold Clean
      rw [toList_path]
      apply ne_of_toList_ne
      exact ha
    · unfold Clean
      rw [toList_path]
      apply ne_of_toList_ne
      exact hb

theorem stripPrefix_append (a b : List Char) : stripPrefix a (a ++ b) = some b := by
  induction a with
  | nil => cases b <;> rfl
  | cons c a ih => simp [stripPrefix, ih]

theorem TrimPrefix_append (a b : String) : TrimPrefix (a ++ b) a = b := by
  unfold TrimPrefix
  rw [toList_append, stripPrefix_append]
  rfl

/-! ## Lemmas: the directory scanner -/

theorem filesReadable_of_wellFormed : ∀ {es : Entries}, es.wellFormed = true →
    es.filesReadable = true
  | .nil, _ => rfl
  | .cons _ (.file size) rest, h => by
    simp only [Entries.wellFormed, Node.wellFormed, Bool.and_eq_true, decide_eq_true_eq] at h
    simp only [Entries.filesReadable, Bool.and_eq_true, decide_eq_true_eq]
    exact ⟨⟨by omega, h.1.2.2⟩, filesReadable_of_wellFormed h.2⟩
  | .cons _ (.fileNoInfo _) rest, h => by
    simp [Entries.wellFormed, Node.wellFormed] at h
  | .cons _ (.dir _) rest, h => by
    simp only [Entries.wellFormed, Bool.and_eq_true] at h
    simp only [Entries.filesReadable]
    exact filesReadable_of_wellFormed h.2
  | .cons _ (.dirNoRead _) rest, h => by
    simp [Entries.wellFormed, Node.wellFormed] at h

theorem analyzeEntries_spec : ∀ (es : Entries) (folder : Folder), es.filesReadable = true →
    ∃ files, analyzeEntries es folder = ({ folder with Files := folder.Files ++ files }, none) ∧
      List.Forall₂ IsFileOf files es.directFiles
  | .nil, folder, _ => ⟨[], by simp [analyzeEntries], List.Forall₂.nil⟩
  | .cons name (.file size) rest, folder, h => by
    simp only [Entries.filesReadable, Bool.and_eq_true, decide_eq_true_eq] at h
    obtain ⟨human, hh⟩ := BytesToHumanReadable_isSome h.1
    obtain ⟨files, hf1, hf2⟩ := analyzeEntries_spec rest
      { folder with Files := folder.Files ++
          [{ Name := name, Size := RoundToTwoDecimals (BytesToMB size), SizeHuman := human }] } h.2
    refine ⟨{ Name := name, Size := RoundToTwoDecimals (BytesToMB size), SizeHuman := human }
      :: files, ?_, ?_⟩
    · simp only [analyzeEntries, Node.IsDir, Node.Info, hh, hf1]
      simp
    · exact List.Forall₂.cons ⟨rfl, rfl, hh⟩ hf2
  | .cons _ (.fileNoInfo _) rest, folder, h => by
    simp [Entries.filesReadable] at h
  | .cons _ (.dir _) rest, folder, h => by
    simp only [Entries.filesReadable] at h
    obtain ⟨files, hf1, hf2⟩ := analyzeEntries_spec rest folder h
    exact ⟨files, by simp only [analyzeEntries, Node.IsDir]; simpa using hf1, hf2⟩
  | .cons _ (.dirNoRead _) rest, folder, h => by
    simp only [Entries.filesReadable] at h
    obtain ⟨files, hf1, hf2⟩ := analyzeEntries_spec rest folder h
    exact ⟨files, by simp only [analyzeEntries, Node.IsDir]; simpa using hf1, hf2⟩

theorem analyzeDirectory_spec (path baseDir : String) {es : Entries}
    (h : es.filesReadable = true) :
    ∃ folder, analyzeDirectory path baseDir (.dir es) = (folder, none) ∧
      folder.Name = TrimPrefix path (baseDir ++ "/") ∧ HasFilesOf folder es := by
  obtain ⟨files, hf1, hf2⟩ := analyzeEntries_spec es
    { Name := TrimPrefix path (baseDir ++ "/"), Files := [] } h
  refine ⟨{ Name := TrimPrefix path (baseDir ++ "/"), Files := [] ++ files }, ?_, rfl, ?_⟩
  · unfold analyzeDirectory
    simp only [Node.ReadDir]
    exact hf1
  · simpa [HasFilesOf] using hf2

/-! ## Lemmas: the walks -/

mutual
theorem walkDir_processDirectory (r b : String) :
    ∀ (node : Node) (p : String) (acc : List Folder), node.wellFormed = true →
      (∀ x ∈ node.subdirsAt p, x.1 ≠ r) →
      ∃ new, walkDir (processDirectoryFn r b) p node acc = (acc ++ new, none) ∧
        List.Forall₂ (FolderAt b) new (node.subdirsAt p)
  | .file size, p, acc, _, _ =>
    ⟨[], by simp [walkDir, processDirectoryFn, Node.IsDir], by
      simp only [Node.subdirsAt]; exact List.Forall₂.nil⟩
  | .fileNoInfo _, _, _, h, _ => by simp [Node.wellFormed] at h
  | .dirNoRead _, _, _, h, _ => by simp [Node.wellFormed] at h
  | .dir es, p, acc, h, hne => by
    simp only [Node.wellFormed] at h
    have hp : p ≠ r := hne (p, es) (by simp [Node.subdirsAt])
    obtain ⟨folder, hf1, hf2, hf3⟩ := analyzeDirectory_spec p b (filesReadable_of_wellFormed h)
    obtain ⟨new, hn1, hn2⟩ := walkEntries_processDirectory r b es p (acc ++ [folder]) h
      (fun x hx => hne x (by simp only [Node.subdirsAt]; exact List.mem_cons_of_mem _ hx))
    refine ⟨folder :: new, ?_, ?_⟩
    · simp only [walkDir, processDirectoryFn, Node.IsDir, if_true, ne_eq, hp, not_false_eq_true,
        hf1, hn1]
      simp
    · simp only [Node.subdirsAt]
      exact List.Forall₂.cons ⟨hf2, hf3⟩ hn2
theorem walkEntries_processDirectory (r b : String) :
    ∀ (es : Entries) (p : String) (acc : List Folder), es.wellFormed = true →
      (∀ x ∈ es.subdirsAt p, x.1 ≠ r) →
      ∃ new, walkEntries (processDirectoryFn r b) p es acc = (acc ++ new, none) ∧
        List.Forall₂ (FolderAt b) new (es.subdirsAt p)
  | .nil, p, acc, _, _ => ⟨[], by simp [walkEntries], by
      simp only [Entries.subdirsAt]; exact List.Forall₂.nil⟩
  | .cons name node rest, p, acc, h, hne => by
    simp only [Entries.wellFormed, Bool.and_eq_true] at h
    simp only [Entries.subdirsAt] at hne
    obtain ⟨new1, h11, h12⟩ := walkDir_processDirectory r b node (Join p name) acc h.1.2
      (fun x hx => hne x (List.mem_append_left _ hx))
    obtain ⟨new2, h21, h22⟩ := walkEntries_processDirectory r b rest p (acc ++ new1) h.2
      (fun x hx => hne x (List.mem_append_right _ hx))
    refine ⟨new1 ++ new2, ?_, ?_⟩
    · simp only [walkEntries, h11, h21]
      simp
    · simp only [Entries.subdirsAt]
      exact List.rel_append h12 h22
end

mutual
theorem walkDir_calculateTotalSize :
    ∀ (node : Node) (p : String) (acc : Int), node.wellFormed = true → InInt64 acc →
      walkDir calculateTotalSizeFn p node acc = (wrapInt64 (acc + node.totalBytes), none)
  | .file size, p, acc, _, _ => by
    simp [walkDir, calculateTotalSizeFn, Node.IsDir, Node.Info, Node.totalBytes]
  | .fileNoInfo _, _, _, h, _ => by simp [Node.wellFormed] at h
  | .dirNoRead _, _, _, h, _ => by simp [Node.wellFormed] at h
  | .dir es, p, acc, h, hacc => by
    simp only [Node.wellFormed] at h
    simp only [walkDir, calculateTotalSizeFn, Node.IsDir, Node.totalBytes]
    simpa using walkEntries_calculateTotalSize es p acc h hacc
theorem walkEntries_calculateTotalSize :
    ∀ (es : Entries) (p : String) (acc : Int), es.wellFormed = true → InInt64 acc →
      walkEntries calculateTotalSizeFn p es acc = (wrapInt64 (acc + es.totalBytes), none)
  | .nil, p, acc, _, hacc => by
    simp [walkEntries, Entries.totalBytes, wrapInt64_of_inInt64 hacc]
  | .cons name node rest, p, acc, h, hacc => by
    simp only [Entries.wellFormed, Bool.and_eq_true] at h
    simp only [walkEntries, walkDir_calculateTotalSize node (Join p name) acc h.1.2 hacc,
      walkEntries_calculateTotalSize rest p _ h.2 (inInt64_wrapInt64 _), Entries.totalBytes,
      wrapInt64_add_wrapInt64, add_assoc]
end

theorem append_sep_ne_self (r s : String) : r ++ "/" ++ s ≠ r := by
  apply ne_of_toList_ne
  rw [toList_path]
  intro e
  have := congrArg List.length e
  simp only [List.length_append, List.length_cons] at this
  omega

mutual
theorem subdirsAt_goodPath :
    ∀ (node : Node) (p : String), GoodPath p → node.wellFormed = true →
      ∀ x ∈ node.subdirsAt p, GoodPath x.1 ∧ (x.1 = p ∨ ∃ suf, x.1 = p ++ "/" ++ suf)
  | .file _, _, _, _, x, hx => by simp [Node.subdirsAt] at hx
  | .fileNoInfo _, _, _, _, x, hx => by simp [Node.subdirsAt] at hx
  | .dirNoRead _, _, _, _, x, hx => by simp [Node.subdirsAt] at hx
  | .dir es, p, hp, h, x, hx => by
    simp only [Node.wellFormed] at h
    simp only [Node.subdirsAt, List.mem_cons] at hx
    rcases hx with hx | hx
    · subst hx; exact ⟨hp, Or.inl rfl⟩
    · obtain ⟨h1, h2⟩ := entries_subdirsAt_goodPath es p hp h x hx
      exact ⟨h1, Or.inr h2⟩
theorem entries_subdirsAt_goodPath :
    ∀ (es : Entries) (p : String), GoodPath p → es.wellFormed = true →
      ∀ x ∈ es.subdirsAt p, GoodPath x.1 ∧ ∃ suf, x.1 = p ++ "/" ++ suf
  | .nil, _, _, _, x, hx => by simp [Entries.subdirsAt] at hx
  | .cons name node rest, p, hp, h, x, hx => by
    simp only [Entries.wellFormed, Bool.and_eq_true] at h
    simp only [Entries.subdirsAt, List.mem_append] at hx
    rcases hx with hx | hx
    · obtain ⟨hj, hg⟩ := Join_of_goodPath hp h.1.1
      rw [hj] at hx
      obtain ⟨h1, h2⟩ := subdirsAt_goodPath node _ hg h.1.2 x hx
      refine ⟨h1, ?_⟩
      rcases h2 with h2 | ⟨suf, h2⟩
      · exact ⟨name, h2⟩
      · exact ⟨name ++ "/" ++ suf, by rw [h2]; simp only [String.append_assoc]⟩
    · exact entries_subdirsAt_goodPath rest p hp h.2 x hx
end

/-- No directory below the root is visited under the path of the root, whatever
that path is. -/
theorem subdirsAt_ne_root (r : String) :
    ∀ (es : Entries), es.wellFormed = true → ∀ x ∈ es.subdirsAt r, x.1 ≠ r
  | .nil, _, x, hx => by simp [Entries.subdirsAt] at hx
  | .cons name node rest, h, x, hx => by
    simp only [Entries.wellFormed, Bool.and_eq_true] at h
    simp only [Entries.subdirsAt, List.mem_append] at hx
    rcases hx with hx | hx
    · have hg := goodPath_Join r h.1.1
      obtain ⟨h1, h2⟩ := subdirsAt_goodPath node _ hg h.1.2 x hx
      by_cases hr : GoodPath r
      · rw [(Join_of_goodPath hr h.1.1).1] at h2
        rcases h2 with h2 | ⟨suf, h2⟩
        · rw [h2]; exact append_sep_ne_self r name
        · have e : r ++ "/" ++ name ++ "/" ++ suf = r ++ "/" ++ (name ++ "/" ++ suf) := by
            simp only [String.append_assoc]
          rw [h2, e]
          exact append_sep_ne_self r _
      · intro e
        rw [e] at h1
        exact hr h1
    · exact subdirsAt_ne_root r rest h.2 x hx

/-- The walk of `processDirectory` over a well-formed tree: one folder per
directory below the root, in pre-order. -/
theorem processDirectory_spec (r : String) {es : Entries} (h : es.wellFormed = true) :
    ∃ folders, processDirectory r r (.ok (.dir es)) = (folders, none) ∧
      List.Forall₂ (FolderAt r) folders (es.subdirsAt r) := by
  obtain ⟨new, h1, h2⟩ := walkEntries_processDirectory r r es r [] h (subdirsAt_ne_root r es h)
  refine ⟨new, ?_, h2⟩
  unfold processDirectory WalkDir
  simp only [walkDir, processDirectoryFn, Node.IsDir, if_true, ne_eq, not_true_eq_false,
    if_false, h1]
  simp

theorem calculateTotalSize_spec (r : String) {es : Entries} (h : es.wellFormed = true) :
    calculateTotalSize r (.ok (.dir es)) = (wrapInt64 es.totalBytes, none) := by
  unfold calculateTotalSize WalkDir
  have := walkDir_calculateTotalSize (.dir es) r 0 (by simpa [Node.wellFormed] using h)
    (by unfold InInt64; norm_num)
  simpa [Node.totalBytes] using this

/-! ## Lemmas: the directories of a tree -/

theorem relJoin_ne_empty (rel : String) {name : String} (hn : validName name = true) :
    relJoin rel name ≠ "" := by
  have hv := validChars_of_validName hn
  unfold relJoin
  split_ifs with h
  · intro e; rw [e] at hv; exact hv.1 rfl
  · apply ne_of_toList_ne
    rw [toList_path]
    simp

mutual
theorem subdirsAt_subdirs (pathOf : String → String)
    (hlaw : ∀ q name : String, q ≠ "" → pathOf q ++ "/" ++ name = pathOf (q ++ "/" ++ name)) :
    ∀ (node : Node) (p rel : String), GoodPath p → node.wellFormed = true →
      rel ≠ "" → p = pathOf rel →
      List.Forall₂ (fun x y => x.1 = pathOf y.1 ∧ x.2 = y.2)
        (node.subdirsAt p) (node.subdirs rel)
  | .file _, _, _, _, _, _, _ => by simp only [Node.subdirsAt, Node.subdirs]; exact List.Forall₂.nil
  | .fileNoInfo _, _, _, _, _, _, _ => by
    simp only [Node.subdirsAt, Node.subdirs]; exact List.Forall₂.nil
  | .dirNoRead _, _, _, _, _, _, _ => by
    simp only [Node.subdirsAt, Node.subdirs]; exact List.Forall₂.nil
  | .dir es, p, rel, hp, h, hrel, hpr => by
    simp only [Node.wellFormed] at h
    simp only [Node.subdirsAt, Node.subdirs]
    exact List.Forall₂.cons ⟨hpr, rfl⟩
      (entries_subdirsAt_subdirs pathOf hlaw es p rel hp h hrel hpr)
theorem entries_subdirsAt_subdirs (pathOf : String → String)
    (hlaw : ∀ q name : String, q ≠ "" → pathOf q ++ "/" ++ name = pathOf (q ++ "/" ++ name)) :
    ∀ (es : Entries) (p rel : String), GoodPath p → es.wellFormed = true →
      rel ≠ "" → p = pathOf rel →
      List.Forall₂ (fun x y => x.1 = pathOf y.1 ∧ x.2 = y.2)
        (es.subdirsAt p) (es.subdirs rel)
  | .nil, _, _, _, _, _, _ => by
    simp only [Entries.subdirsAt, Entries.subdirs]; exact List.Forall₂.nil
  | .cons name node rest, p, rel, hp, h, hrel, hpr => by
    simp only [Entries.wellFormed, Bool.and_eq_true] at h
    simp only [Entries.subdirsAt, Entries.subdirs]
    obtain ⟨hj, hg⟩ := Join_of_goodPath hp h.1.1
    rw [hj]
    have hpath : p ++ "/" ++ name = pathOf (relJoin rel name) := by
      unfold relJoin
      rw [if_neg hrel, hpr]
      exact hlaw rel name hrel
    exact List.rel_append
      (subdirsAt_subdirs pathOf hlaw node _ _ hg h.1.2 (relJoin_ne_empty rel h.1.1) hpath)
      (entries_subdirsAt_subdirs pathOf hlaw rest p rel hp h.2 hrel hpr)
end

/-- The directories below the root: the path each is visited under is the
image of its relative path, once this holds for the entries of the root. -/
theorem root_subdirsAt_subdirs (pathOf : String → String)
    (hlaw : ∀ q name : String, q ≠ "" → pathOf q ++ "/" ++ name = pathOf (q ++ "/" ++ name))
    (r : String) (hfirst : ∀ name : String, validName name = true → Join r name = pathOf name) :
    ∀ (es : Entries), es.wellFormed = true →
      List.Forall₂ (fun x y => x.1 = pathOf y.1 ∧ x.2 = y.2)
        (es.subdirsAt r) (es.subdirs "")
  | .nil, _ => by simp only [Entries.subdirsAt, Entries.subdirs]; exact List.Forall₂.nil
  | .cons name node rest, h => by
    simp only [Entries.wellFormed, Bool.and_eq_true] at h
    simp only [Entries.subdirsAt, Entries.subdirs]
    have hrel : relJoin "" name = name := by unfold relJoin; rw [if_pos rfl]
    rw [hrel]
    exact List.rel_append
      (subdirsAt_subdirs pathOf hlaw node _ _ (goodPath_Join r h.1.1) h.1.2
        (by rw [← hrel]; exact relJoin_ne_empty "" h.1.1) (hfirst name h.1.1))
      (root_subdirsAt_subdirs pathOf hlaw r hfirst rest h.2)

mutual
theorem subdirs_shape :
    ∀ (node : Node) (rel : String), rel ≠ "" → ∀ y ∈ node.subdirs rel,
      y.1 = rel ∨ ∃ suf : String, y.1 = rel ++ "/" ++ suf
  | .file _, _, _, y, hy => by simp [Node.subdirs] at hy
  | .fileNoInfo _, _, _, y, hy => by simp [Node.subdirs] at hy
  | .dirNoRead _, _, _, y, hy => by simp [Node.subdirs] at hy
  | .dir es, rel, hrel, y, hy => by
    simp only [Node.subdirs, List.mem_cons] at hy
    rcases hy with hy | hy
    · subst hy; exact Or.inl rfl
    · exact Or.inr (entries_subdirs_shape es rel hrel y hy)
theorem entries_subdirs_shape :
    ∀ (es : Entries) (rel : String), rel ≠ "" → ∀ y ∈ es.subdirs rel,
      ∃ suf : String, y.1 = rel ++ "/" ++ suf
  | .nil, _, _, y, hy => by simp [Entries.subdirs] at hy
  | .cons name node rest, rel, hrel, y, hy => by
    simp only [Entries.subdirs, List.mem_append] at hy
    rcases hy with hy | hy
    · have e : relJoin rel name = rel ++ "/" ++ name := by unfold relJoin; rw [if_neg hrel]
      rw [e] at hy
      have hne : rel ++ "/" ++ name ≠ "" := by
        apply ne_of_toList_ne
        rw [toList_path]
        simp
      rcases subdirs_shape node _ hne y hy with h | ⟨suf, h⟩
      · exact ⟨name, h⟩
      · exact ⟨name ++ "/" ++ suf, by rw [h]; simp only [String.append_assoc]⟩
    · exact entries_subdirs_shape rest rel hrel y hy
end

/-- Every relative path of a directory below the root starts with a valid name,
followed by nothing or by a separator. -/
theorem root_subdirs_shape :
    ∀ (es : Entries), es.wellFormed = true → ∀ y ∈ es.subdirs "",
      ∃ name : String, validName name = true ∧
        (y.1 = name ∨ ∃ suf : String, y.1 = name ++ "/" ++ suf)
  | .nil, _, y, hy => by simp [Entries.subdirs] at hy
  | .cons name node rest, h, y, hy => by
    simp only [Entries.wellFormed, Bool.and_eq_true] at h
    simp only [Entries.subdirs, List.mem_append] at hy
    rcases hy with hy | hy
    · have hrel : relJoin "" name = name := by unfold relJoin; rw [if_pos rfl]
      rw [hrel] at hy
      have hne : name ≠ "" := by rw [← hrel]; exact relJoin_ne_empty "" h.1.1
      exact ⟨name, h.1.1, subdirs_shape node name hne y hy⟩
    · exact root_subdirs_shape rest h.2 y hy

theorem stripPrefix_dot_sep {ns : List Char} (h : ValidChars ns) (rest : List Char) :
    stripPrefix ['.', '/'] (ns ++ rest) = none := by
  obtain ⟨c, ns', rfl⟩ := List.exists_cons_of_ne_nil h.1
  by_cases hc : c = '.'
  · subst hc
    cases ns' with
    | nil => exact absurd rfl h.2.1
    | cons d ns'' =>
      have hd : d ≠ '/' := h.2.2.2 d (by simp)
      simp [stripPrefix, Ne.symm hd]
  · simp [stripPrefix, Ne.symm hc]

/-- The prefix `./` is not trimmed from the relative path of a directory. -/
theorem TrimPrefix_dot_sep {es : Entries} (h : es.wellFormed = true) :
    ∀ y ∈ es.subdirs "", TrimPrefix y.1 ("." ++ "/") = y.1 := by
  intro y hy
  obtain ⟨name, hn, hshape⟩ := root_subdirs_shape es h y hy
  have hv := validChars_of_validName hn
  have key : stripPrefix ("." ++ "/" : String).toList y.1.toList = none := by
    have hp : ("." ++ "/" : String).toList = ['.', '/'] := by decide
    rw [hp]
    rcases hshape with e | ⟨suf, e⟩
    · rw [e]
      have := stripPrefix_dot_sep hv []
      simpa using this
    · rw [e, toList_path]
      exact stripPrefix_dot_sep hv _
  unfold TrimPrefix
  rw [key]

theorem Join_dot {name : String} (hn : validName name = true) : Join "." name = name := by
  have hv := validChars_of_validName hn
  have h1 : ("." : String) ≠ "" := by decide
  unfold Join Clean
  rw [if_neg h1, toList_path]
  have hdot : ("." : String).toList = ['.'] := rfl
  rw [hdot]
  have hne : ['.'] ++ '/' :: name.toList ≠ [] := by simp
  have hfold : List.foldl (cleanStep false) [] (splitSep ['.']) = [] := by decide
  have hhead : decide ((['.'] ++ '/' :: name.toList).head? = some '/') = false := by simp
  have hres : cleanChars (['.'] ++ '/' :: name.toList) = name.toList := by
    unfold cleanChars
    simp only [if_neg hne, hhead, foldl_cleanStep_append _ _ hv, hfold, List.reverse_cons,
      List.reverse_nil, List.nil_append, joinSep, Bool.false_eq_true, if_false, if_neg hv.1]
  rw [hres]
  rfl

theorem forall₂_and_right {α β : Type} {R : α → β → Prop} {P : β → Prop} :
    ∀ {l1 : List α} {l2 : List β}, List.Forall₂ R l1 l2 → (∀ b ∈ l2, P b) →
      List.Forall₂ (fun a b => R a b ∧ P b) l1 l2
  | _, _, .nil, _ => List.Forall₂.nil
  | _, _, .cons h t, hp =>
    List.Forall₂.cons ⟨h, hp _ (List.mem_cons_self _ _)⟩
      (forall₂_and_right t (fun b hb => hp b (List.mem_cons_of_mem _ hb)))

/-- The listings met by the walk do not depend on the path of the root. -/
theorem forall₂_listing {P : Folder → Entries → Prop} :
    ∀ {folders : List Folder} {xs : List (String × Entries)},
      List.Forall₂ (fun f x => P f x.2) folders xs →
      List.Forall₂ P folders (xs.map Prod.snd)
  | _, _, .nil => List.Forall₂.nil
  | _, _, .cons h t => List.Forall₂.cons h (forall₂_listing t)

mutual
theorem subdirsAt_map_snd :
    ∀ (node : Node) (p rel : String),
      (node.subdirsAt p).map Prod.snd = (node.subdirs rel).map Prod.snd
  | .file _, _, _ => rfl
  | .fileNoInfo _, _, _ => rfl
  | .dirNoRead _, _, _ => rfl
  | .dir es, p, rel => by
    simp only [Node.subdirsAt, Node.subdirs, List.map_cons]
    rw [entries_subdirsAt_map_snd es p rel]
theorem entries_subdirsAt_map_snd :
    ∀ (es : Entries) (p rel : String),
      (es.subdirsAt p).map Prod.snd = (es.subdirs rel).map Prod.snd
  | .nil, _, _ => rfl
  | .cons name node rest, p, rel => by
    simp only [Entries.subdirsAt, Entries.subdirs, List.map_append]
    rw [subdirsAt_map_snd node _ (relJoin rel name), entries_subdirsAt_map_snd rest p rel]
end

mutual
theorem node_totalBytes_eq :
    ∀ (node : Node) (rel : String),
      node.totalBytes
        = (match node with | .file size => size | _ => 0)
          + ((node.subdirs rel).map (fun d => d.2.directBytes)).sum
  | .file _, _ => by simp [Node.totalBytes, Node.subdirs]
  | .fileNoInfo _, _ => by simp [Node.totalBytes, Node.subdirs]
  | .dirNoRead _, _ => by simp [Node.totalBytes, Node.subdirs]
  | .dir es, rel => by
    simp only [Node.totalBytes, Node.subdirs, List.map_cons, List.sum_cons, zero_add]
    exact entries_totalBytes_eq es rel
/-- The bytes of a tree are the bytes of the files directly under the root plus
the bytes of the files directly in each directory below it. -/
theorem entries_totalBytes_eq :
    ∀ (es : Entries) (rel : String),
      es.totalBytes = es.directBytes + ((es.subdirs rel).map (fun d => d.2.directBytes)).sum
  | .nil, _ => by simp [Entries.totalBytes, Entries.directBytes, Entries.directFiles,
      Entries.subdirs]
  | .cons name node rest, rel => by
    have h1 := node_totalBytes_eq node (relJoin rel name)
    have h2 := entries_totalBytes_eq rest rel
    simp only [Entries.totalBytes, Entries.subdirs, List.map_append, List.sum_append]
    rw [h1, h2]
    cases node <;> simp [Entries.directBytes, Entries.directFiles] <;> ring
end

mutual
theorem node_totalBytes_nonneg :
    ∀ (node : Node), node.wellFormed = true → 0 ≤ node.totalBytes
  | .file _, h => by
    simp only [Node.wellFormed, Bool.and_eq_true, decide_eq_true_eq] at h
    simpa [Node.totalBytes] using h.1
  | .fileNoInfo _, _ => by simp [Node.totalBytes]
  | .dirNoRead _, _ => by simp [Node.totalBytes]
  | .dir es, h => by
    simp only [Node.wellFormed] at h
    simpa [Node.totalBytes] using entries_totalBytes_nonneg es h
theorem entries_totalBytes_nonneg :
    ∀ (es : Entries), es.wellFormed = true → 0 ≤ es.totalBytes
  | .nil, _ => by simp [Entries.totalBytes]
  | .cons _ node rest, h => by
    simp only [Entries.wellFormed, Bool.and_eq_true] at h
    have h1 := node_totalBytes_nonneg node h.1.2
    have h2 := entries_totalBytes_nonneg rest h.2
    simp only [Entries.totalBytes]
    omega
end

mutual
theorem node_fileCount_eq :
    ∀ (node : Node) (rel : String), node.wellFormed = true →
      node.fileCount
        = (match node with | .file _ => 1 | _ => 0)
          + ((node.subdirs rel).map (fun d => d.2.directFiles.length)).sum
  | .file _, _, _ => by simp [Node.fileCount, Node.subdirs]
  | .fileNoInfo _, _, h => by simp [Node.wellFormed] at h
  | .dirNoRead _, _, _ => by simp [Node.fileCount, Node.subdirs]
  | .dir es, rel, h => by
    simp only [Node.wellFormed] at h
    simp only [Node.fileCount, Node.subdirs, List.map_cons, List.sum_cons, zero_add]
    exact entries_fileCount_eq es rel h
/-- The files of a tree are the files directly under the root plus the files
directly in each directory below it. -/
theorem entries_fileCount_eq :
    ∀ (es : Entries) (rel : String), es.wellFormed = true →
      es.fileCount
        = es.directFiles.length + ((es.subdirs rel).map (fun d => d.2.directFiles.length)).sum
  | .nil, _, _ => by simp [Entries.fileCount, Entries.directFiles, Entries.subdirs]
  | .cons name node rest, rel, h => by
    simp only [Entries.wellFormed, Bool.and_eq_true] at h
    have h1 := node_fileCount_eq node (relJoin rel name) h.1.2
    have h2 := entries_fileCount_eq rest rel h.2
    simp only [Entries.fileCount, Entries.subdirs, List.map_append, List.sum_append]
    rw [h1, h2]
    cases node <;> simp [Entries.directFiles] <;> omega
end

/-! ## Lemmas: the orchestrator -/

mutual
theorem walkDir_calculateTotalSize_inInt64 :
    ∀ (node : Node) (p : String) (acc : Int), InInt64 acc →
      InInt64 (walkDir calculateTotalSizeFn p node acc).1
  | .file size, p, acc, _ => by
    simp only [walkDir, calculateTotalSizeFn, Node.IsDir, Node.Info]
    exact inInt64_wrapInt64 _
  | .fileNoInfo _, p, acc, h => by
    simpa [walkDir, calculateTotalSizeFn, Node.IsDir, Node.Info] using h
  | .dirNoRead _, p, acc, h => by
    simpa [walkDir, calculateTotalSizeFn, Node.IsDir] using h
  | .dir es, p, acc, h => by
    simp only [walkDir, calculateTotalSizeFn, Node.IsDir]
    simpa using walkEntries_calculateTotalSize_inInt64 es p acc h
theorem walkEntries_calculateTotalSize_inInt64 :
    ∀ (es : Entries) (p : String) (acc : Int), InInt64 acc →
      InInt64 (walkEntries calculateTotalSizeFn p es acc).1
  | .nil, p, acc, h => by simpa [walkEntries] using h
  | .cons name node rest, p, acc, h => by
    have h1 := walkDir_calculateTotalSize_inInt64 node (Join p name) acc h
    simp only [walkEntries]
    rcases hw : walkDir calculateTotalSizeFn (Join p name) node acc with ⟨st1, _ | err⟩
    · rw [hw] at h1
      exact walkEntries_calculateTotalSize_inInt64 rest p st1 h1
    · rw [hw] at h1
      exact h1
end

/-- The total returned by `calculateTotalSize` is an `int64`. -/
theorem calculateTotalSize_inInt64 (path : String) (root : Except GoError Node) :
    InInt64 (calculateTotalSize path root).1 := by
  have h0 : InInt64 0 := by unfold InInt64; norm_num
  unfold calculateTotalSize WalkDir
  cases root with
  | error err => simpa [calculateTotalSizeFn] using h0
  | ok d => exact walkDir_calculateTotalSize_inInt64 d path 0 h0

/-- The result of `AnalyzeRepo` when the clone and both walks succeed. -/
theorem AnalyzeRepo_of_success {gitService : GitService} {fs : String → Except GoError Node}
    {url : String} {totalSize : Int} {folders : List Folder}
    (hclone : gitService.CloneRepo url = none)
    (hsize : calculateTotalSize gitService.GetRepoPath (fs gitService.GetRepoPath)
      = (totalSize, none))
    (hfolders : processDirectory gitService.GetRepoPath gitService.GetRepoPath
      (fs gitService.GetRepoPath) = (folders, none)) :
    ∃ human, BytesToHumanReadable totalSize = some human ∧
      AnalyzeRepo gitService fs url
        = (({ CloneURL := url, Size := RoundToTwoDecimals (BytesToMB totalSize),
              SizeHuman := human, Folders := folders,
              HasSubmodules := gitService.HasSubmodules, Error := "" }, none),
            [.CloneRepo url, .GetRepoPath, .HasSubmodules, .Cleanup]) := by
  have hin : InInt64 totalSize := by
    have := calculateTotalSize_inInt64 gitService.GetRepoPath (fs gitService.GetRepoPath)
    rwa [hsize] at this
  obtain ⟨human, hh⟩ := BytesToHumanReadable_isSome hin
  refine ⟨human, hh, ?_⟩
  unfold AnalyzeRepo AnalyzeRepoAt
  simp only [hclone, hsize, hfolders, hh]
  rfl

/-- How often `AnalyzeRepo` calls `Cleanup`: never when the clone fails, once otherwise. -/
theorem AnalyzeRepo_count_cleanup (gitService : GitService)
    (fs : String → Except GoError Node) (url : String) :
    (AnalyzeRepo gitService fs url).2.count GitCall.Cleanup
      = if (gitService.CloneRepo url).isSome then 0 else 1 := by
  unfold AnalyzeRepo AnalyzeRepoAt
  simp only
  split
  · next err h => simp [h]
  · next h =>
    simp only [h, Option.isSome_none, Bool.false_eq_true, if_false]
    split
    · simp
    · split
      · simp
      · split <;> simp

/-! ## The claims -/

theorem forall₂_trans {α β γ : Type} {R : α → β → Prop} {S : β → γ → Prop} {T : α → γ → Prop}
    (h : ∀ a b c, R a b → S b c → T a c) :
    ∀ {l1 : List α} {l2 : List β} {l3 : List γ},
      List.Forall₂ R l1 l2 → List.Forall₂ S l2 l3 → List.Forall₂ T l1 l3
  | _, _, _, .nil, .nil => List.Forall₂.nil
  | _, _, _, .cons h1 t1, .cons h2 t2 => List.Forall₂.cons (h _ _ _ h1 h2) (forall₂_trans h t1 t2)

theorem forall₂_map_right {α β γ : Type} {R : α → γ → Prop} (f : β → γ) :
    ∀ {l1 : List α} {l2 : List β},
      List.Forall₂ (fun a b => R a (f b)) l1 l2 → List.Forall₂ R l1 (l2.map f)
  | _, _, .nil => List.Forall₂.nil
  | _, _, .cons h t => List.Forall₂.cons h (forall₂_map_right f t)

/-- The folders of a well-formed tree carry the files of the directories below
the root, in pre-order, whatever the path of the root. -/
theorem processDirectory_files (r : String) {es : Entries} (h : es.wellFormed = true) :
    ∃ folders, processDirectory r r (.ok (.dir es)) = (folders, none) ∧
      List.Forall₂ HasFilesOf folders ((es.subdirs "").map Prod.snd) := by
  obtain ⟨folders, h1, h2⟩ := processDirectory_spec r h
  refine ⟨folders, h1, ?_⟩
  rw [← entries_subdirsAt_map_snd es r ""]
  exact forall₂_map_right Prod.snd (h2.imp (fun _ _ hf => hf.2))

/-- The folders of a well-formed tree rooted at a clean path other than `/`:
names are the relative paths, files the files of each directory. -/
theorem processDirectory_named (r : String) {es : Entries} (h : es.wellFormed = true)
    (hclean : Clean r = r) (hroot : r ≠ "/") :
    ∃ folders, processDirectory r r (.ok (.dir es)) = (folders, none) ∧
      List.Forall₂ (fun folder d => folder.Name = d.1 ∧ HasFilesOf folder d.2)
        folders (es.subdirs "") := by
  obtain ⟨folders, h1, h2⟩ := processDirectory_spec r h
  refine ⟨folders, h1, ?_⟩
  by_cases hdot : r = "."
  · subst hdot
    have h3 := root_subdirsAt_subdirs (fun rel => rel) (fun _ _ _ => rfl) "."
      (fun name hn => Join_dot hn) es h
    have h4 := forall₂_and_right h3 (TrimPrefix_dot_sep h)
    refine forall₂_trans ?_ h2 h4
    intro folder x y hf hxy
    refine ⟨?_, hxy.1.2 ▸ hf.2⟩
    rw [hf.1, hxy.1.1]
    exact hxy.2
  · have hr : GoodPath r := ⟨hclean, hroot, hdot⟩
    have h3 := root_subdirsAt_subdirs (fun rel => r ++ "/" ++ rel)
      (fun _ _ _ => by simp only [String.append_assoc]) r
      (fun name hn => (Join_of_goodPath hr hn).1) es h
    refine forall₂_trans ?_ h2 h3
    intro folder x y hf hxy
    refine ⟨?_, hxy.2 ▸ hf.2⟩
    rw [hf.1, hxy.1]
    exact TrimPrefix_append (r ++ "/") y.1

theorem forall₂_length_sum {α β : Type} {R : α → β → Prop} {f : α → Nat} {g : β → Nat}
    (h : ∀ a b, R a b → f a = g b) :
    ∀ {l1 : List α} {l2 : List β}, List.Forall₂ R l1 l2 → (l1.map f).sum = (l2.map g).sum
  | _, _, .nil => rfl
  | _, _, .cons h1 t => by
    simp only [List.map_cons, List.sum_cons]
    rw [h _ _ h1, forall₂_length_sum h t]

/-- Claim C1, counterexample: a directory holding two files of `2^62` bytes is a
well-formed tree whose file sizes sum to `2^63`, yet `calculateTotalSize`
returns `-2^63`: the `int64` accumulator wraps around. -/
theorem calculateTotalSize_wraps_on_overflow :
    twoHugeFiles.wellFormed = true ∧ twoHugeFiles.totalBytes = 2 ^ 63 ∧
      calculateTotalSize "/repo" (.ok (.dir twoHugeFiles)) = (-(2 ^ 63), none) ∧
      (calculateTotalSize "/repo" (.ok (.dir twoHugeFiles))).1 ≠ twoHugeFiles.totalBytes := by
  decide

/-- Claim C1 (amended): for every well-formed directory tree whose file sizes sum
to less than `2^63`, and every root path, `calculateTotalSize` returns the sum
of the byte sizes of every file in the tree; `processDirectory` returns one
folder per directory below the root, each holding the records of the files
directly in that directory, and the total is the sum of the byte sizes of the
files of these directories plus the byte sizes of the files directly under the
root. -/
theorem calculateTotalSize_eq_sum_of_file_sizes (r : String) (es : Entries)
    (hwf : es.wellFormed = true) (hfit : es.totalBytes < 2 ^ 63) :
    calculateTotalSize r (.ok (.dir es)) = (es.totalBytes, none) ∧
      ∃ folders, processDirectory r r (.ok (.dir es)) = (folders, none) ∧
        List.Forall₂ HasFilesOf folders ((es.subdirs "").map Prod.snd) ∧
        es.totalBytes
          = (((es.subdirs "").map Prod.snd).map Entries.directBytes).sum + es.directBytes := by
  refine ⟨?_, ?_⟩
  · rw [calculateTotalSize_spec r hwf,
      wrapInt64_of_inInt64 ⟨by have := entries_totalBytes_nonneg es hwf; omega, hfit⟩]
  · obtain ⟨folders, h1, h2⟩ := processDirectory_files r hwf
    refine ⟨folders, h1, h2, ?_⟩
    rw [entries_totalBytes_eq es "", List.map_map, add_comm]
    rfl

/-- Witness for claim C1: the tree of the tests. -/
theorem calculateTotalSize_eq_sum_of_file_sizes_witness :
    testEntries.wellFormed = true ∧ testEntries.totalBytes < 2 ^ 63 ∧
      (calculateTotalSize "/tmp/analyzer-test" (.ok (.dir testEntries))
          = (testEntries.totalBytes, none) ∧
        ∃ folders,
          processDirectory "/tmp/analyzer-test" "/tmp/analyzer-test" (.ok (.dir testEntries))
            = (folders, none) ∧
          List.Forall₂ HasFilesOf folders ((testEntries.subdirs "").map Prod.snd) ∧
          testEntries.totalBytes
            = (((testEntries.subdirs "").map Prod.snd).map Entries.directBytes).sum
              + testEntries.directBytes) :=
  ⟨by decide, by decide,
    calculateTotalSize_eq_sum_of_file_sizes "/tmp/analyzer-test" testEntries (by decide)
      (by decide)⟩

/-- Claim C2, counterexample: rooted at `./repo`, a path without trailing
separator that is not clean, the walk visits the directories under paths
without the leading `./`, the prefix is not trimmed and the folder names are
`repo/dir1` and `repo/dir1/dir2` instead of the relative paths. -/
theorem processDirectory_names_unclean_root :
    testEntries.wellFormed = true ∧
      (testEntries.subdirs "").map Prod.fst = ["dir1", "dir1/dir2"] ∧
      (processDirectory "./repo" "./repo" (.ok (.dir testEntries))).2 = none ∧
      (processDirectory "./repo" "./repo" (.ok (.dir testEntries))).1.map Folder.Name
        = ["repo/dir1", "repo/dir1/dir2"] ∧
      (processDirectory "./repo" "./repo" (.ok (.dir testEntries))).1.map Folder.Name
        ≠ (testEntries.subdirs "").map Prod.fst := by
  decide

/-- Claim C2 (amended): for every well-formed directory tree rooted at a clean
path `r` (`filepath.Clean r = r`, which rules out a trailing separator) other
than `/`, `processDirectory r r` returns exactly one folder per directory other
than the root, in the pre-order of the walk, named by the path of the
directory relative to `r`; the root is never a folder, so a tree without
sub-directories yields no folders. -/
theorem processDirectory_folder_names (r : String) (es : Entries)
    (hwf : es.wellFormed = true) (hclean : Clean r = r) (hroot : r ≠ "/") :
    (∃ folders, processDirectory r r (.ok (.dir es)) = (folders, none) ∧
      List.Forall₂ (fun folder d => folder.Name = d.1 ∧ HasFilesOf folder d.2)
        folders (es.subdirs "") ∧
      folders.map Folder.Name = (es.subdirs "").map Prod.fst ∧
      (es.subdirs "" = [] → folders = [])) ∧
    (processDirectory "/tmp/analyzer-test" "/tmp/analyzer-test" (.ok (.dir testEntries))).1.map
        Folder.Name = ["dir1", "dir1/dir2"] := by
  refine ⟨?_, by decide⟩
  obtain ⟨folders, h1, h2⟩ := processDirectory_named r hwf hclean hroot
  refine ⟨folders, h1, h2, ?_, ?_⟩
  · have : List.Forall₂ (fun (a : String) (b : String) => a = b)
        (folders.map Folder.Name) ((es.subdirs "").map Prod.fst) := by
      rw [List.forall₂_map_left_iff, List.forall₂_map_right_iff]
      exact h2.imp (fun _ _ h => h.1)
    exact List.forall₂_eq_eq_eq ▸ this
  · intro h0
    rw [h0] at h2
    cases h2
    rfl

/-- Witness for claim C2: the tree of the tests under the path of the test. -/
theorem processDirectory_folder_names_witness :
    testEntries.wellFormed = true ∧ Clean "/tmp/analyzer-test" = "/tmp/analyzer-test" ∧
      ("/tmp/analyzer-test" : String) ≠ "/" ∧
      ((∃ folders,
        processDirectory "/tmp/analyzer-test" "/tmp/analyzer-test" (.ok (.dir testEntries))
          = (folders, none) ∧
        List.Forall₂ (fun folder d => folder.Name = d.1 ∧ HasFilesOf folder d.2)
          folders (testEntries.subdirs "") ∧
        folders.map Folder.Name = (testEntries.subdirs "").map Prod.fst ∧
        (testEntries.subdirs "" = [] → folders = [])) ∧
      (processDirectory "/tmp/analyzer-test" "/tmp/analyzer-test" (.ok (.dir testEntries))).1.map
          Folder.Name = ["dir1", "dir1/dir2"]) :=
  ⟨by decide, by decide, by decide,
    processDirectory_folder_names "/tmp/analyzer-test" testEntries (by decide) (by decide)
      (by decide)⟩

/-- Claim C3: for every directory whose listing succeeds and whose immediate
entries that are not directories report their size, `analyzeDirectory` returns
no error and a folder whose files are exactly those entries, one record per
entry and in listing order (sub-directories contribute nothing); each record
has the name of the entry, `Size = RoundToTwoDecimals (BytesToMB s)` and
`SizeHuman = BytesToHumanReadable s` for the one byte size `s` of the entry. -/
theorem analyzeDirectory_files (path baseDir : String) (es : Entries)
    (hread : es.filesReadable = true) :
    ∃ folder, analyzeDirectory path baseDir (.dir es) = (folder, none) ∧
      folder.Files.length = es.directFiles.length ∧
      List.Forall₂
        (fun (f : File) (e : String × Int) =>
          f.Name = e.1 ∧ f.Size = RoundToTwoDecimals (BytesToMB e.2) ∧
            BytesToHumanReadable e.2 = some f.SizeHuman)
        folder.Files es.directFiles := by
  obtain ⟨folder, h1, _, h3⟩ := analyzeDirectory_spec path baseDir hread
  exact ⟨folder, h1, h3.length_eq, h3⟩

/-- Witness for claim C3: `dir1` of the test tree, as in `TestAnalyzeDirectory`. -/
theorem analyzeDirectory_files_witness :
    testDir1.filesReadable = true ∧
      ∃ folder,
        analyzeDirectory "/tmp/analyzer-test/dir1" "/tmp/analyzer-test" (.dir testDir1)
          = (folder, none) ∧
        folder.Files.length = testDir1.directFiles.length ∧
        List.Forall₂
          (fun (f : File) (e : String × Int) =>
            f.Name = e.1 ∧ f.Size = RoundToTwoDecimals (BytesToMB e.2) ∧
              BytesToHumanReadable e.2 = some f.SizeHuman)
          folder.Files testDir1.directFiles :=
  ⟨by decide,
    analyzeDirectory_files "/tmp/analyzer-test/dir1" "/tmp/analyzer-test" testDir1 (by decide)⟩

/-- Claim C4, counterexample: for `b = 9024087753343631` (between `1024^5` and
`1024^6`) the quotient `b / 1024^5` is below `8.015` and prints as `8.01` with
two decimal places, but `float64(b)` is `b + 1`, whose quotient is above
`8.015`: the function returns `8.02 PB`. -/
theorem BytesToHumanReadable_not_exact_quotient :
    (1024 : Int) ^ 5 ≤ 9024087753343631 ∧ (9024087753343631 : Int) < 1024 ^ 6 ∧
      (9024087753343631 : ℚ) / 1024 ^ 5 < 8015 / 1000 ∧
      fixed2 ((9024087753343631 : ℚ) / 1024 ^ 5) = "8.01" ∧
      F64.ofInt 9024087753343631 = .fin 9024087753343632 ∧
      BytesToHumanReadable 9024087753343631 = some "8.02 PB" ∧
      BytesToHumanReadable 9024087753343631
        ≠ some (fixed2 ((9024087753343631 : ℚ) / 1024 ^ 5) ++ " PB") := by
  decide!

/-- Claim C4 (amended): for every byte count `b` with `1024 ≤ b ≤ 2^63 - 1`,
`BytesToHumanReadable b` is the quotient `x / 1024^(k+1)` printed with exactly
two decimal places (rounded half to even), a space, the `k`-th letter of
`KMGTPE` and `B`, where `x = float64(b)` is `b` rounded to binary64 (`b` itself
whenever `b ≤ 2^53`) and `k` is the unique index with
`1024^(k+1) ≤ b < 1024^(k+2)`, so that the exact quotient lies in `[1, 1024)`;
in particular 1024 gives `1.00 KB`, 1536 gives `1.50 KB`, `1024^4` gives
`1.00 TB` and `1024^5` gives `1.00 PB`. -/
theorem BytesToHumanReadable_scaled (b : Int) (hlo : 1024 ≤ b) (hhi : b ≤ 2 ^ 63 - 1) :
    (∃ (k : Nat) (c : Char) (x : ℚ),
      ((1024 : Int) ^ (k + 1) ≤ b ∧ b < 1024 ^ (k + 2)) ∧
      (∀ j : Nat, (1024 : Int) ^ (j + 1) ≤ b → b < 1024 ^ (j + 2) → j = k) ∧
      (1 ≤ (b : ℚ) / 1024 ^ (k + 1) ∧ (b : ℚ) / 1024 ^ (k + 1) < 1024) ∧
      "KMGTPE".toList.get? k = some c ∧
      F64.ofInt b = .fin x ∧ (b ≤ 2 ^ 53 → x = b) ∧
      BytesToHumanReadable b
        = some (fixed2 (x / 1024 ^ (k + 1)) ++ " " ++ String.singleton c ++ "B")) ∧
    (BytesToHumanReadable 1024 = some "1.00 KB" ∧ BytesToHumanReadable 1536 = some "1.50 KB" ∧
      BytesToHumanReadable (1024 ^ 4) = some "1.00 TB" ∧
      BytesToHumanReadable (1024 ^ 5) = some "1.00 PB") := by
  refine ⟨?_, by decide!⟩
  obtain ⟨k, c, x, hk1, hk2, _, hc, hx1, hx2, hres⟩ :=
    BytesToHumanReadable_of_ge hlo (show b < 2 ^ 63 by omega)
  refine ⟨k, c, x, ⟨hk1, hk2⟩, fun j hj1 hj2 => unit_index_unique hj1 hj2 hk1 hk2, ?_, hc, hx1,
    hx2, hres⟩
  have hpos : (0 : ℚ) < 1024 ^ (k + 1) := by positivity
  have h1 : ((1024 ^ (k + 1) : Int) : ℚ) ≤ (b : ℚ) := by exact_mod_cast hk1
  have h2 : (b : ℚ) < ((1024 ^ (k + 2) : Int) : ℚ) := by exact_mod_cast hk2
  push_cast at h1 h2
  constructor
  · rw [le_div_iff₀ hpos]; linarith
  · rw [div_lt_iff₀ hpos]
    calc (b : ℚ) < 1024 ^ (k + 2) := h2
      _ = 1024 * 1024 ^ (k + 1) := by ring

/-- Witness for claim C4: 1536 bytes. -/
theorem BytesToHumanReadable_scaled_witness :
    (1024 : Int) ≤ 1536 ∧ (1536 : Int) ≤ 2 ^ 63 - 1 ∧
    ((∃ (k : Nat) (c : Char) (x : ℚ),
      ((1024 : Int) ^ (k + 1) ≤ 1536 ∧ (1536 : Int) < 1024 ^ (k + 2)) ∧
      (∀ j : Nat, (1024 : Int) ^ (j + 1) ≤ 1536 → (1536 : Int) < 1024 ^ (j + 2) → j = k) ∧
      (1 ≤ ((1536 : Int) : ℚ) / 1024 ^ (k + 1) ∧ ((1536 : Int) : ℚ) / 1024 ^ (k + 1) < 1024) ∧
      "KMGTPE".toList.get? k = some c ∧
      F64.ofInt 1536 = .fin x ∧ ((1536 : Int) ≤ 2 ^ 53 → x = (1536 : Int)) ∧
      BytesToHumanReadable 1536
        = some (fixed2 (x / 1024 ^ (k + 1)) ++ " " ++ String.singleton c ++ "B")) ∧
    (BytesToHumanReadable 1024 = some "1.00 KB" ∧ BytesToHumanReadable 1536 = some "1.50 KB" ∧
      BytesToHumanReadable (1024 ^ 4) = some "1.00 TB" ∧
      BytesToHumanReadable (1024 ^ 5) = some "1.00 PB")) :=
  ⟨by decide, by decide, BytesToHumanReadable_scaled 1536 (by decide) (by decide)⟩

/-- Claim C5: for every byte count `b` with `0 ≤ b < 1024`,
`BytesToHumanReadable b` is the decimal numeral of `b` followed by ` B`; in
particular 0 gives `0 B` and 500 gives `500 B`. -/
theorem BytesToHumanReadable_small (b : Int) (h0 : 0 ≤ b) (h1 : b < 1024) :
    BytesToHumanReadable b = some (Nat.repr b.toNat ++ " B") ∧
      BytesToHumanReadable 0 = some "0 B" ∧ BytesToHumanReadable 500 = some "500 B" := by
  refine ⟨?_, by decide, by decide⟩
  unfold BytesToHumanReadable
  rw [if_pos h1, toString_int_of_nonneg h0]

/-- Witness for claim C5: 500 bytes. -/
theorem BytesToHumanReadable_small_witness :
    (0 : Int) ≤ 500 ∧ (500 : Int) < 1024 ∧
      (BytesToHumanReadable 500 = some (Nat.repr (500 : Int).toNat ++ " B") ∧
        BytesToHumanReadable 0 = some "0 B" ∧ BytesToHumanReadable 500 = some "500 B") :=
  ⟨by decide, by decide, BytesToHumanReadable_small 500 (by decide) (by decide)⟩

/-- Claim C6, counterexample: `2^1020` is a `float64`; multiplied by 100 it
exceeds the largest finite value, so `RoundToTwoDecimals` returns `+Inf`, which
is no multiple of 0.01 and not within 0.005 of the argument. The integer
`4280000826122973696`, itself a `float64` and a multiple of 0.01, is returned
as a different number, 512 above it. The `float64` written `2.835` lies below
2.835, so the multiple of 0.01 nearest to it is 2.83, but its product with 100
rounds to 283.5 and the function returns 2.84. -/
theorem RoundToTwoDecimals_not_nearest :
    (roundNE (pow2 1020) = .fin (pow2 1020) ∧
      RoundToTwoDecimals (.fin (pow2 1020)) = .inf false ∧
      ¬ ∃ y : ℚ, RoundToTwoDecimals (.fin (pow2 1020)) = .fin y ∧ |y - pow2 1020| ≤ 5 / 1000) ∧
    (roundNE 4280000826122973696 = .fin 4280000826122973696 ∧
      RoundToTwoDecimals (.fin 4280000826122973696) = .fin 4280000826122974208 ∧
      ¬ |(4280000826122974208 : ℚ) - 4280000826122973696| ≤ 5 / 1000) ∧
    (F64.lit (2835 / 1000) = .fin (3191926235898839 / 1125899906842624) ∧
      RoundToTwoDecimals (.fin (3191926235898839 / 1125899906842624)) = F64.lit (284 / 100) ∧
      |(283 / 100 : ℚ) - 3191926235898839 / 1125899906842624|
        < |(284 / 100 : ℚ) - 3191926235898839 / 1125899906842624|) := by
  have h : RoundToTwoDecimals (.fin (pow2 1020)) = .inf false := by decide!
  refine ⟨⟨by decide!, h, ?_⟩, ⟨by decide!, by decide!, by norm_num⟩,
    by decide!, by decide!,
    by rw [abs_of_neg (by norm_num), abs_of_pos (by norm_num)]; norm_num⟩
  rintro ⟨y, hy, _⟩
  rw [h] at hy
  exact absurd hy (by simp)

/-- Claim C6 (amended): for every `float64` value `x` (negative ones included)
whose product with 100 is again a `float64`, or is below `2^52` in magnitude
and lies more than half a unit in its last place under the tie `|n| + 1/2`
next above it (`n` the integer nearest to `x * 100`, ties away from zero),
`RoundToTwoDecimals x` is the `float64` nearest to `m = n / 100`, the multiple
of 0.01 nearest to `x`, ties rounded away from zero, so `|m - x| ≤ 0.005`; and
1.249 and 1.251 both give 1.25, 1.5 gives 1.5 and -1.23456 gives -1.23. -/
theorem RoundToTwoDecimals_nearest_hundredth (x : ℚ) (_hx : IsBinary64 x)
    (hsafe : IsBinary64 (x * 100) ∨
      (|x * 100| < pow2 52 ∧
        |x * 100| + pow2 (ulpExp (x * 100)) / 2
          < |(roundHalfAway (x * 100) : ℚ)| + 1 / 2)) :
    (RoundToTwoDecimals (.fin x) = roundNE ((roundHalfAway (x * 100) : ℚ) / 100) ∧
      |(roundHalfAway (x * 100) : ℚ) / 100 - x| ≤ 5 / 1000 ∧
      (|(roundHalfAway (x * 100) : ℚ) / 100 - x| = 5 / 1000 →
        |x| < |(roundHalfAway (x * 100) : ℚ) / 100|)) ∧
    (RoundToTwoDecimals (F64.lit (1249 / 1000)) = F64.lit (125 / 100) ∧
      RoundToTwoDecimals (F64.lit (1251 / 1000)) = F64.lit (125 / 100) ∧
      RoundToTwoDecimals (F64.lit (15 / 10)) = F64.lit (15 / 10) ∧
      RoundToTwoDecimals (F64.lit (-123456 / 100000)) = F64.lit (-123 / 100)) := by
  refine ⟨⟨?_, ?_, ?_⟩, by decide!⟩
  · rcases hsafe with h100 | ⟨h52, hm⟩
    · exact RoundToTwoDecimals_of_exact h100
    · exact RoundToTwoDecimals_of_margin h52 hm
  · have h := (roundHalfAway_nearest (x * 100)).1
    have e : (roundHalfAway (x * 100) : ℚ) / 100 - x
        = ((roundHalfAway (x * 100) : ℚ) - x * 100) / 100 := by ring
    rw [e, abs_div, abs_of_pos (show (0 : ℚ) < 100 by norm_num), div_le_iff₀ (by norm_num)]
    linarith
  · intro he
    have e : (roundHalfAway (x * 100) : ℚ) / 100 - x
        = ((roundHalfAway (x * 100) : ℚ) - x * 100) / 100 := by ring
    rw [e, abs_div, abs_of_pos (show (0 : ℚ) < 100 by norm_num),
      div_eq_iff (by norm_num)] at he
    have h := (roundHalfAway_nearest (x * 100)).2 (by rw [he]; norm_num)
    rw [abs_div, abs_of_pos (show (0 : ℚ) < 100 by norm_num), lt_div_iff₀ (by norm_num)]
    rw [abs_mul, abs_of_pos (show (0 : ℚ) < 100 by norm_num)] at h
    exact h

/-- Witness for claim C6: the four values the claim names. The `float64`
written `1.249` has a product with 100 that is no `float64`; it is rounded, the
integer nearest to it is 125, and the result is 1.25. The same holds for
`1.251`, for `1.5` with the exact product 150, and for the negative
`-1.23456` with the integer -123. -/
theorem RoundToTwoDecimals_nearest_hundredth_witness :
    (F64.lit (1249 / 1000) = .fin (2812497967292875 / 2251799813685248 : ℚ) ∧
      roundNE ((2812497967292875 / 2251799813685248 : ℚ) * 100) ≠ .fin ((2812497967292875 / 2251799813685248 : ℚ) * 100) ∧
      roundHalfAway ((2812497967292875 / 2251799813685248 : ℚ) * 100) = 125 ∧
      IsBinary64 (2812497967292875 / 2251799813685248 : ℚ) ∧
      (IsBinary64 ((2812497967292875 / 2251799813685248 : ℚ) * 100) ∨
        (|(2812497967292875 / 2251799813685248 : ℚ) * 100| < pow2 52 ∧
          |(2812497967292875 / 2251799813685248 : ℚ) * 100| + pow2 (ulpExp ((2812497967292875 / 2251799813685248 : ℚ) * 100)) / 2
            < |(roundHalfAway ((2812497967292875 / 2251799813685248 : ℚ) * 100) : ℚ)| + 1 / 2)) ∧
      ((RoundToTwoDecimals (.fin (2812497967292875 / 2251799813685248 : ℚ)) = roundNE ((roundHalfAway ((2812497967292875 / 2251799813685248 : ℚ) * 100) : ℚ) / 100) ∧
        |(roundHalfAway ((2812497967292875 / 2251799813685248 : ℚ) * 100) : ℚ) / 100 - (2812497967292875 / 2251799813685248 : ℚ)| ≤ 5 / 1000 ∧
        (|(roundHalfAway ((2812497967292875 / 2251799813685248 : ℚ) * 100) : ℚ) / 100 - (2812497967292875 / 2251799813685248 : ℚ)| = 5 / 1000 →
          |(2812497967292875 / 2251799813685248 : ℚ)| < |(roundHalfAway ((2812497967292875 / 2251799813685248 : ℚ) * 100) : ℚ) / 100|)) ∧
      (RoundToTwoDecimals (F64.lit (1249 / 1000)) = F64.lit (125 / 100) ∧
      RoundToTwoDecimals (F64.lit (1251 / 1000)) = F64.lit (125 / 100) ∧
      RoundToTwoDecimals (F64.lit (15 / 10)) = F64.lit (15 / 10) ∧
      RoundToTwoDecimals (F64.lit (-123456 / 100000)) = F64.lit (-123 / 100)))) ∧
    (F64.lit (1251 / 1000) = .fin (2817001566920245 / 2251799813685248 : ℚ) ∧
      roundHalfAway ((2817001566920245 / 2251799813685248 : ℚ) * 100) = 125 ∧
      IsBinary64 (2817001566920245 / 2251799813685248 : ℚ) ∧
      (IsBinary64 ((2817001566920245 / 2251799813685248 : ℚ) * 100) ∨
        (|(2817001566920245 / 2251799813685248 : ℚ) * 100| < pow2 52 ∧
          |(2817001566920245 / 2251799813685248 : ℚ) * 100| + pow2 (ulpExp ((2817001566920245 / 2251799813685248 : ℚ) * 100)) / 2
            < |(roundHalfAway ((2817001566920245 / 2251799813685248 : ℚ) * 100) : ℚ)| + 1 / 2)) ∧
      (RoundToTwoDecimals (.fin (2817001566920245 / 2251799813685248 : ℚ)) = roundNE ((roundHalfAway ((2817001566920245 / 2251799813685248 : ℚ) * 100) : ℚ) / 100) ∧
        |(roundHalfAway ((2817001566920245 / 2251799813685248 : ℚ) * 100) : ℚ) / 100 - (2817001566920245 / 2251799813685248 : ℚ)| ≤ 5 / 1000 ∧
        (|(roundHalfAway ((2817001566920245 / 2251799813685248 : ℚ) * 100) : ℚ) / 100 - (2817001566920245 / 2251799813685248 : ℚ)| = 5 / 1000 →
          |(2817001566920245 / 2251799813685248 : ℚ)| < |(roundHalfAway ((2817001566920245 / 2251799813685248 : ℚ) * 100) : ℚ) / 100|))) ∧
    (F64.lit (15 / 10) = .fin (3 / 2 : ℚ) ∧
      roundHalfAway ((3 / 2 : ℚ) * 100) = 150 ∧
      IsBinary64 (3 / 2 : ℚ) ∧
      (IsBinary64 ((3 / 2 : ℚ) * 100) ∨
        (|(3 / 2 : ℚ) * 100| < pow2 52 ∧
          |(3 / 2 : ℚ) * 100| + pow2 (ulpExp ((3 / 2 : ℚ) * 100)) / 2
            < |(roundHalfAway ((3 / 2 : ℚ) * 100) : ℚ)| + 1 / 2)) ∧
      (RoundToTwoDecimals (.fin (3 / 2 : ℚ)) = roundNE ((roundHalfAway ((3 / 2 : ℚ) * 100) : ℚ) / 100) ∧
        |(roundHalfAway ((3 / 2 : ℚ) * 100) : ℚ) / 100 - (3 / 2 : ℚ)| ≤ 5 / 1000 ∧
        (|(roundHalfAway ((3 / 2 : ℚ) * 100) : ℚ) / 100 - (3 / 2 : ℚ)| = 5 / 1000 →
          |(3 / 2 : ℚ)| < |(roundHalfAway ((3 / 2 : ℚ) * 100) : ℚ) / 100|))) ∧
    (F64.lit (-123456 / 100000) = .fin (-694995494495815 / 562949953421312 : ℚ) ∧
      roundHalfAway ((-694995494495815 / 562949953421312 : ℚ) * 100) = -123 ∧
      IsBinary64 (-694995494495815 / 562949953421312 : ℚ) ∧
      (IsBinary64 ((-694995494495815 / 562949953421312 : ℚ) * 100) ∨
        (|(-694995494495815 / 562949953421312 : ℚ) * 100| < pow2 52 ∧
          |(-694995494495815 / 562949953421312 : ℚ) * 100| + pow2 (ulpExp ((-694995494495815 / 562949953421312 : ℚ) * 100)) / 2
            < |(roundHalfAway ((-694995494495815 / 562949953421312 : ℚ) * 100) : ℚ)| + 1 / 2)) ∧
      (RoundToTwoDecimals (.fin (-694995494495815 / 562949953421312 : ℚ)) = roundNE ((roundHalfAway ((-694995494495815 / 562949953421312 : ℚ) * 100) : ℚ) / 100) ∧
        |(roundHalfAway ((-694995494495815 / 562949953421312 : ℚ) * 100) : ℚ) / 100 - (-694995494495815 / 562949953421312 : ℚ)| ≤ 5 / 1000 ∧
        (|(roundHalfAway ((-694995494495815 / 562949953421312 : ℚ) * 100) : ℚ) / 100 - (-694995494495815 / 562949953421312 : ℚ)| = 5 / 1000 →
          |(-694995494495815 / 562949953421312 : ℚ)| < |(roundHalfAway ((-694995494495815 / 562949953421312 : ℚ) * 100) : ℚ) / 100|))) :=
  ⟨⟨by decide!, by decide!, by decide!,
      ⟨2812497967292875, -51, by decide, by decide, by decide, by decide!⟩,
      Or.inr ⟨by decide!, by decide!⟩,
      RoundToTwoDecimals_nearest_hundredth _
        ⟨2812497967292875, -51, by decide, by decide, by decide, by decide!⟩
        (Or.inr ⟨by decide!, by decide!⟩)⟩,
    ⟨by decide!, by decide!,
      ⟨2817001566920245, -51, by decide, by decide, by decide, by decide!⟩,
      Or.inr ⟨by decide!, by decide!⟩,
      (RoundToTwoDecimals_nearest_hundredth _
        ⟨2817001566920245, -51, by decide, by decide, by decide, by decide!⟩
        (Or.inr ⟨by decide!, by decide!⟩)).1⟩,
    ⟨by decide!, by decide!,
      ⟨3, -1, by decide, by decide, by decide, by decide!⟩,
      Or.inr ⟨by decide!, by decide!⟩,
      (RoundToTwoDecimals_nearest_hundredth _
        ⟨3, -1, by decide, by decide, by decide, by decide!⟩
        (Or.inr ⟨by decide!, by decide!⟩)).1⟩,
    ⟨by decide!, by decide!,
      ⟨-694995494495815, -49, by decide, by decide, by decide, by decide!⟩,
      Or.inr ⟨by decide!, by decide!⟩,
      (RoundToTwoDecimals_nearest_hundredth _
        ⟨-694995494495815, -49, by decide, by decide, by decide, by decide!⟩
        (Or.inr ⟨by decide!, by decide!⟩)).1⟩⟩

/-- Claim C7, counterexample: `2^53 + 1` is not a `float64`; it is converted to
`2^53`, and `BytesToMB` returns `2^33` instead of `(2^53 + 1) / 1048576`. -/
theorem BytesToMB_inexact_above_2_53 :
    BytesToMB (2 ^ 53 + 1) = .fin (2 ^ 33) ∧
      BytesToMB (2 ^ 53 + 1) ≠ .fin (((2 ^ 53 + 1 : Int) : ℚ) / 1048576) := by
  decide!

/-- Claim C7 (amended): for every byte count `b` with `0 ≤ b < 2^63` that is at
most `2^53` or a multiple of 1,048,576, `BytesToMB b` equals `b / 1,048,576`
exactly, with no rounding applied: `BytesToMB (1024*1024) = 1`,
`BytesToMB (512*1024) = 0.5`, `BytesToMB 0 = 0`, `BytesToMB 1024 = 0.0009765625`,
and `BytesToMB (k * 1,048,576) = k`. -/
theorem BytesToMB_exact (b : Int) (h0 : 0 ≤ b) (h63 : b < 2 ^ 63)
    (hrep : b ≤ 2 ^ 53 ∨ (1048576 : Int) ∣ b) :
    (BytesToMB b = .fin ((b : ℚ) / 1048576) ∧
      ∀ k : Int, b = k * 1048576 → BytesToMB b = .fin (k : ℚ)) ∧
    (BytesToMB (1024 * 1024) = .fin 1 ∧ BytesToMB (512 * 1024) = .fin (1 / 2) ∧
      BytesToMB 0 = .fin 0 ∧ BytesToMB 1024 = .fin (9765625 / 10000000000)) := by
  have hk : ∀ k : Int, b = k * 1048576 → BytesToMB b = .fin (k : ℚ) := by
    intro k hk
    rw [hk]
    exact BytesToMB_of_multiple (by omega) (by omega)
  refine ⟨⟨?_, hk⟩, by decide!⟩
  rcases hrep with h | ⟨k, hk'⟩
  · exact BytesToMB_of_small h0 h
  · have e : b = k * 1048576 := by rw [hk', mul_comm]
    rw [hk k e, e]
    push_cast
    congr 1
    field_simp

/-- Witness for claim C7: three mebibytes. -/
theorem BytesToMB_exact_witness :
    (0 : Int) ≤ 3145728 ∧ (3145728 : Int) < 2 ^ 63 ∧
      ((3145728 : Int) ≤ 2 ^ 53 ∨ (1048576 : Int) ∣ 3145728) ∧
    ((BytesToMB 3145728 = .fin (((3145728 : Int) : ℚ) / 1048576) ∧
      ∀ k : Int, (3145728 : Int) = k * 1048576 → BytesToMB 3145728 = .fin (k : ℚ)) ∧
    (BytesToMB (1024 * 1024) = .fin 1 ∧ BytesToMB (512 * 1024) = .fin (1 / 2) ∧
      BytesToMB 0 = .fin 0 ∧ BytesToMB 1024 = .fin (9765625 / 10000000000))) :=
  ⟨by decide, by decide, Or.inl (by decide),
    BytesToMB_exact 3145728 (by decide) (by decide) (Or.inl (by decide))⟩

/-- Claim C8: whenever the clone and both walks succeed, `AnalyzeRepo url`
returns no error and an analysis with `CloneURL = url`,
`Size = RoundToTwoDecimals (BytesToMB T)` and `SizeHuman = BytesToHumanReadable T`
for the one total `T` returned by `calculateTotalSize`, `Folders` the output of
`processDirectory` and `HasSubmodules` the answer of the git service; for the
tree of the tests this gives `Size = 6.5` and exactly two folders, `dir1` with
one file of 0.5 MB and `dir1/dir2` with one file of 3.0 MB. -/
theorem AnalyzeRepo_success (gitService : GitService) (fs : String → Except GoError Node)
    (url : String) (totalSize : Int) (folders : List Folder)
    (hclone : gitService.CloneRepo url = none)
    (hsize : calculateTotalSize gitService.GetRepoPath (fs gitService.GetRepoPath)
      = (totalSize, none))
    (hfolders : processDirectory gitService.GetRepoPath gitService.GetRepoPath
      (fs gitService.GetRepoPath) = (folders, none)) :
    (∃ analysis, (AnalyzeRepo gitService fs url).1 = (analysis, none) ∧
      analysis.CloneURL = url ∧
      analysis.Size = RoundToTwoDecimals (BytesToMB totalSize) ∧
      BytesToHumanReadable totalSize = some analysis.SizeHuman ∧
      analysis.Folders = folders ∧
      analysis.HasSubmodules = gitService.HasSubmodules) ∧
    (AnalyzeRepo testGitService testFs "test-url").1
      = ({ CloneURL := "test-url", Size := .fin (13 / 2), SizeHuman := "6.50 MB",
           Folders :=
            [{ Name := "dir1",
               Files := [{ Name := "file3.txt", Size := .fin (1 / 2), SizeHuman := "512.00 KB" }] },
             { Name := "dir1/dir2",
               Files := [{ Name := "file4.txt", Size := .fin 3, SizeHuman := "3.00 MB" }] }],
           HasSubmodules := true, Error := "" }, none) := by
  refine ⟨?_, by decide!⟩
  obtain ⟨human, hh, hres⟩ := AnalyzeRepo_of_success hclone hsize hfolders
  exact ⟨_, by rw [hres], rfl, rfl, hh, rfl, rfl⟩

/-- Witness for claim C8: the successful case of `TestAnalyzeRepo`. -/
theorem AnalyzeRepo_success_witness :
    testGitService.CloneRepo "test-url" = none ∧
    calculateTotalSize testGitService.GetRepoPath (testFs testGitService.GetRepoPath)
      = (6815744, none) ∧
    (processDirectory testGitService.GetRepoPath testGitService.GetRepoPath
        (testFs testGitService.GetRepoPath)).2 = none ∧
    ((∃ analysis, (AnalyzeRepo testGitService testFs "test-url").1 = (analysis, none) ∧
      analysis.CloneURL = "test-url" ∧
      analysis.Size = RoundToTwoDecimals (BytesToMB 6815744) ∧
      BytesToHumanReadable 6815744 = some analysis.SizeHuman ∧
      analysis.Folders
        = (processDirectory testGitService.GetRepoPath testGitService.GetRepoPath
            (testFs testGitService.GetRepoPath)).1 ∧
      analysis.HasSubmodules = testGitService.HasSubmodules) ∧
    (AnalyzeRepo testGitService testFs "test-url").1
      = ({ CloneURL := "test-url", Size := .fin (13 / 2), SizeHuman := "6.50 MB",
           Folders :=
            [{ Name := "dir1",
               Files := [{ Name := "file3.txt", Size := .fin (1 / 2), SizeHuman := "512.00 KB" }] },
             { Name := "dir1/dir2",
               Files := [{ Name := "file4.txt", Size := .fin 3, SizeHuman := "3.00 MB" }] }],
           HasSubmodules := true, Error := "" }, none)) :=
  ⟨rfl, by decide, by decide!,
    AnalyzeRepo_success testGitService testFs "test-url" 6815744 _ rfl (by decide)
      (by decide!)⟩

/-- Claim C9, the tree of the tests: it holds four files, `AnalyzeRepo`
succeeds on it, and the folders of the analysis hold two file records, not the
four that the claim and `TestAnalyzeRepo` expect: the two files directly under
the root are in no folder. -/
theorem AnalyzeRepo_file_count_test_tree :
    (Node.dir testEntries).fileCount = 4 ∧
      (AnalyzeRepo testGitService testFs "test-url").1.2 = none ∧
      (((AnalyzeRepo testGitService testFs "test-url").1.1.Folders.map
          (fun folder => folder.Files.length)).sum = 2) ∧
      ((AnalyzeRepo testGitService testFs "test-url").1.1.Folders.map
          (fun folder => folder.Files.length)).sum ≠ (Node.dir testEntries).fileCount := by
  decide!

/-- Claim C9: for every well-formed repository tree, when the clone succeeds
`AnalyzeRepo` succeeds, and the number of file records summed over all folders
of the analysis falls short of the number of files in the whole tree by the
number of files directly under the root: `processDirectory` skips the root, so
these files are in no folder; for the tree of the tests, with four files, the
count is 2 where the claim and `TestAnalyzeRepo` expect 4. -/
theorem AnalyzeRepo_file_count (gitService : GitService) (fs : String → Except GoError Node)
    (url : String) (es : Entries) (hclone : gitService.CloneRepo url = none)
    (hfs : fs gitService.GetRepoPath = .ok (.dir es)) (hwf : es.wellFormed = true) :
    ((AnalyzeRepo gitService fs url).1.2 = none ∧
      ((AnalyzeRepo gitService fs url).1.1.Folders.map (fun folder => folder.Files.length)).sum
          + es.directFiles.length
        = (Node.dir es).fileCount) ∧
    ((AnalyzeRepo testGitService testFs "test-url").1.1.Folders.map
        (fun folder => folder.Files.length)).sum = 2 := by
  refine ⟨?_, by decide!⟩
  obtain ⟨folders, hf1, hf2⟩ := processDirectory_files gitService.GetRepoPath hwf
  have hsize := calculateTotalSize_spec gitService.GetRepoPath hwf
  rw [← hfs] at hf1 hsize
  obtain ⟨human, _, hres⟩ :=
    @AnalyzeRepo_of_success gitService fs url _ _ hclone hsize hf1
  rw [hres]
  refine ⟨rfl, ?_⟩
  simp only [Node.fileCount]
  rw [entries_fileCount_eq es "" hwf, add_comm]
  congr 1
  have := forall₂_length_sum (f := fun folder : Folder => folder.Files.length)
    (g := fun e : Entries => e.directFiles.length) (fun a b (h : HasFilesOf a b) => h.length_eq) hf2
  rw [this, List.map_map]
  rfl

/-- Witness for claim C9: the tree of the tests, with two of its four files
under the root. -/
theorem AnalyzeRepo_file_count_witness :
    testGitService.CloneRepo "test-url" = none ∧
      testFs testGitService.GetRepoPath = .ok (.dir testEntries) ∧
      testEntries.wellFormed = true ∧
      (((AnalyzeRepo testGitService testFs "test-url").1.2 = none ∧
        ((AnalyzeRepo testGitService testFs "test-url").1.1.Folders.map
            (fun folder => folder.Files.length)).sum + testEntries.directFiles.length
          = (Node.dir testEntries).fileCount) ∧
      ((AnalyzeRepo testGitService testFs "test-url").1.1.Folders.map
          (fun folder => folder.Files.length)).sum = 2) :=
  ⟨rfl, by simp [testFs, testGitService], by decide,
    AnalyzeRepo_file_count testGitService testFs "test-url" testEntries rfl
      (by simp [testFs, testGitService]) (by decide)⟩

/-- Claim C10: `AnalyzeRepo` calls `Cleanup` exactly once on every path that
passes the clone (failure of the total-size walk, failure of the folder walk,
success), and not at all when `CloneRepo` fails: the `defer` statement follows
the return of the clone error. -/
theorem AnalyzeRepo_cleanup_calls (gitService : GitService)
    (fs : String → Except GoError Node) (url : String) :
    (AnalyzeRepo gitService fs url).2.count GitCall.Cleanup
        = (if (gitService.CloneRepo url).isSome then 0 else 1) ∧
      (AnalyzeRepo { testGitService with CloneRepo := fun _ => some (.os "clone failed") }
          testFs "test-url").2 = [.CloneRepo "test-url"] :=
  ⟨AnalyzeRepo_count_cleanup gitService fs url, by decide⟩

/-! ## Lemmas: the scaling loop without overflow -/

theorem scaleLoop_eq_exact (b : Int) (hb : b < 2 ^ 63) :
    ∀ (fuel : Nat) (n div : Int) (exp : Nat), 1 ≤ n → 0 < div → div * n ≤ b →
      scaleLoop fuel n div exp = scaleLoopExact fuel n div exp
  | 0, _, _, _, _, _, _ => rfl
  | fuel + 1, n, div, exp, h1, hdpos, hlo => by
    unfold scaleLoop scaleLoopExact
    split_ifs with hn
    · have hq : Int.tdiv n 1024 = n / 1024 := Int.tdiv_eq_ediv (by omega) (by norm_num)
      have hmul : div * 1024 ≤ div * n := mul_le_mul_of_nonneg_left hn hdpos.le
      have hwrap : wrapInt64 (div * 1024) = div * 1024 :=
        wrapInt64_of_inInt64 ⟨by nlinarith, by nlinarith⟩
      rw [hwrap]
      have hstep : div * 1024 * (n / 1024) ≤ div * n := by
        rw [mul_assoc]; exact mul_le_mul_of_nonneg_left (by omega) hdpos.le
      exact scaleLoop_eq_exact b hb fuel _ _ _ (by rw [hq]; omega) (by positivity)
        (by rw [hq]; linarith)
    · rfl

/-- On an `int64` of at least 1024 no multiplication of the scaling loop overflows. -/
theorem scaleLoop_bytes_eq_exact {b : Int} (h1 : 1024 ≤ b) (h2 : b < 2 ^ 63) (fuel : Nat) :
    scaleLoop fuel (Int.tdiv b 1024) 1024 0 = scaleLoopExact fuel (Int.tdiv b 1024) 1024 0 := by
  have hq : Int.tdiv b 1024 = b / 1024 := Int.tdiv_eq_ediv (by omega) (by norm_num)
  exact scaleLoop_eq_exact b h2 fuel _ _ _ (by rw [hq]; omega) (by norm_num)
    (by rw [hq]; omega)

/-- With enough fuel the scaling loop gives the same result whatever the fuel. -/
theorem scaleLoop_bytes_fuel {b : Int} (h1 : 1024 ≤ b) (h2 : b < 2 ^ 63) :
    ∃ k : Nat, k ≤ 5 ∧ (1024 : Int) ^ (k + 1) ≤ b ∧ b < 1024 ^ (k + 2) ∧
      ∀ fuel : Nat, (Int.tdiv b 1024).toNat ≤ fuel →
        scaleLoop fuel (Int.tdiv b 1024) 1024 0 = (1024 ^ (k + 1), k) := by
  obtain ⟨k, _, hk2, hk3, hk4⟩ := scaleLoop_bytes h1 h2
  refine ⟨k, hk4, hk2, hk3, ?_⟩
  intro fuel hfuel
  have hq : Int.tdiv b 1024 = b / 1024 := Int.tdiv_eq_ediv (by omega) (by norm_num)
  rw [hq] at hfuel ⊢
  obtain ⟨j, hj1, hj2, hj3, _⟩ :=
    scaleLoop_spec b h2 fuel (b / 1024) 1024 0 (by omega) hfuel (by norm_num)
      (by omega) (by omega)
  rw [hj1, unit_index_unique hj2 hj3 hk2 hk3]

/-! ## Lemmas: the legacy entry point -/

theorem floor_nonneg_le {y : ℚ} {n : Int} (h0 : 0 ≤ y) (h1 : y ≤ n) : 0 ≤ ⌊y⌋ ∧ ⌊y⌋ ≤ n := by
  refine ⟨Int.floor_nonneg.mpr h0, ?_⟩
  have := Int.floor_le y
  exact_mod_cast this.trans h1

theorem toInt_of_nonneg {y : ℚ} (h0 : 0 ≤ y) (h1 : y ≤ ((2 ^ 53 : Int) : ℚ)) :
    F64.toInt (.fin y) = ⌊y⌋ := by
  obtain ⟨ha, hb⟩ := floor_nonneg_le h0 h1
  unfold F64.toInt
  simp only [if_pos h0]
  rw [if_pos ⟨by omega, by omega⟩]

/-- The product `bytesToMB(b) * 100` is exact for byte counts up to `2^48`. -/
theorem mul_hundred_exact {b : Int} (h0 : 0 ≤ b) (h1 : b ≤ 2 ^ 48) :
    IsBinary64 ((b : ℚ) / 1048576 * 100) := by
  have hm : |25 * b| ≤ 2 ^ 53 := by rw [abs_of_nonneg (by omega)]; omega
  have h := isBinary64_of_le (m := 25 * b) (e := -18) hm (by norm_num) (by norm_num)
  have h18 : pow2 (-18) = 1 / 262144 := by rw [pow2_eq_zpow]; norm_num [zpow_neg]
  rw [h18] at h
  have e : (b : ℚ) / 1048576 * 100 = ((25 * b : Int) : ℚ) * (1 / 262144) := by
    push_cast; ring
  rw [e]; exact h

/-- The legacy expression truncates: for a byte count up to `2^48` it gives the
greatest multiple of 0.01 that is at most the megabyte value, as a `float64`. -/
theorem truncTwoDecimals_bytesToMB {b : Int} (h0 : 0 ≤ b) (h1 : b ≤ 2 ^ 48) :
    Main.truncTwoDecimals (Main.bytesToMB b)
      = roundNE ((⌊(b : ℚ) / 1048576 * 100⌋ : ℚ) / 100) := by
  have hmb : Main.bytesToMB b = .fin ((b : ℚ) / 1048576) :=
    BytesToMB_of_small h0 (by omega)
  have hy0 : (0 : ℚ) ≤ (b : ℚ) / 1048576 * 100 := by
    have : (0 : ℚ) ≤ (b : ℚ) := by exact_mod_cast h0
    positivity
  have hy1 : (b : ℚ) / 1048576 * 100 ≤ ((2 ^ 53 : Int) : ℚ) := by
    have : (b : ℚ) ≤ ((2 ^ 48 : Int) : ℚ) := by exact_mod_cast h1
    push_cast at this ⊢
    linarith
  obtain ⟨hf0, hf1⟩ := floor_nonneg_le hy0 hy1
  unfold Main.truncTwoDecimals
  rw [hmb]
  unfold F64.mul
  simp only
  rw [roundNE_of_isBinary64 (mul_hundred_exact h0 h1), toInt_of_nonneg hy0 hy1,
    ofInt_exact (by rw [abs_of_nonneg hf0]; exact hf1)]
  unfold F64.div
  simp

theorem RoundToTwoDecimals_BytesToMB {b : Int} (h0 : 0 ≤ b) (h1 : b ≤ 2 ^ 48) :
    RoundToTwoDecimals (BytesToMB b)
      = roundNE ((roundHalfAway ((b : ℚ) / 1048576 * 100) : ℚ) / 100) := by
  rw [BytesToMB_of_small h0 (by omega)]
  exact RoundToTwoDecimals_of_exact (mul_hundred_exact h0 h1)

theorem legacy_bytesToHumanReadable_eq (b : Int) :
    Main.bytesToHumanReadable b = BytesToHumanReadable b := rfl

theorem legacy_analyzeEntries_spec : ∀ (es : Entries) (folder : Folder),
    es.filesReadable = true →
    ∃ files, Main.analyzeEntries es folder
        = ({ folder with Files := folder.Files ++ files }, none) ∧
      List.Forall₂
        (fun (f : File) (e : String × Int) =>
          f.Name = e.1 ∧ f.Size = Main.truncTwoDecimals (Main.bytesToMB e.2) ∧
            Main.bytesToHumanReadable e.2 = some f.SizeHuman)
        files es.directFiles
  | .nil, folder, _ => ⟨[], by simp [Main.analyzeEntries], List.Forall₂.nil⟩
  | .cons name (.file size) rest, folder, h => by
    simp only [Entries.filesReadable, Bool.and_eq_true, decide_eq_true_eq] at h
    obtain ⟨human, hh⟩ := BytesToHumanReadable_isSome h.1
    rw [← legacy_bytesToHumanReadable_eq] at hh
    obtain ⟨files, hf1, hf2⟩ := legacy_analyzeEntries_spec rest
      { folder with Files := folder.Files ++
          [{ Name := name, Size := Main.truncTwoDecimals (Main.bytesToMB size),
             SizeHuman := human }] } h.2
    refine ⟨File.mk name (Main.truncTwoDecimals (Main.bytesToMB size)) human :: files, ?_, ?_⟩
    · simp only [Main.analyzeEntries, Node.IsDir, Node.Info, hh, hf1]
      simp
    · exact List.Forall₂.cons ⟨rfl, rfl, hh⟩ hf2
  | .cons _ (.fileNoInfo _) rest, folder, h => by
    simp [Entries.filesReadable] at h
  | .cons _ (.dir _) rest, folder, h => by
    simp only [Entries.filesReadable] at h
    obtain ⟨files, hf1, hf2⟩ := legacy_analyzeEntries_spec rest folder h
    exact ⟨files, by simp only [Main.analyzeEntries, Node.IsDir]; simpa using hf1, hf2⟩
  | .cons _ (.dirNoRead _) rest, folder, h => by
    simp only [Entries.filesReadable] at h
    obtain ⟨files, hf1, hf2⟩ := legacy_analyzeEntries_spec rest folder h
    exact ⟨files, by simp only [Main.analyzeEntries, Node.IsDir]; simpa using hf1, hf2⟩

/-- The sizes reported by the legacy `analyzeDirectory`. -/
theorem legacy_analyzeDirectory_spec (path baseDir : String) {es : Entries}
    (h : es.filesReadable = true) :
    ∃ folder, Main.analyzeDirectory path baseDir (.dir es) = (folder, none) ∧
      List.Forall₂
        (fun (f : File) (e : String × Int) =>
          f.Name = e.1 ∧ f.Size = Main.truncTwoDecimals (Main.bytesToMB e.2) ∧
            Main.bytesToHumanReadable e.2 = some f.SizeHuman)
        folder.Files es.directFiles := by
  obtain ⟨files, hf1, hf2⟩ := legacy_analyzeEntries_spec es
    { Name := TrimPrefix path (baseDir ++ "/"), Files := [] } h
  refine ⟨{ Name := TrimPrefix path (baseDir ++ "/"), Files := [] ++ files }, ?_, ?_⟩
  · unfold Main.analyzeDirectory
    simp only [Node.ReadDir]
    exact hf1
  · simpa using hf2

/-- The total reported by the legacy `analyzeRepo` when the walk succeeds. -/
theorem legacy_analyzeRepo_size {repoPath : String} {root : Except GoError Node}
    {gitModules : Option GoError} {analysis : Main.RepoAnalysis}
    (h : Main.analyzeRepo repoPath root gitModules = (analysis, none)) :
    analysis.Size
      = Main.truncTwoDecimals (Main.bytesToMB
          (Main.Walk repoPath root (Main.analyzeRepoFn repoPath) (0, [])).1.1) := by
  unfold Main.analyzeRepo at h
  rcases hw : Main.Walk repoPath root (Main.analyzeRepoFn repoPath) (0, [])
    with ⟨⟨total, folders⟩, _ | err⟩
  · rw [hw] at h
    simp only at h
    cases hh : Main.bytesToHumanReadable total with
    | none => rw [hh] at h; simp at h
    | some human =>
      rw [hh] at h
      simp only [Prod.mk.injEq, and_true] at h
      rw [← h]
  · rw [hw] at h; simp at h

/-- Claim C11: whenever `CloneRepo`, `calculateTotalSize` or `processDirectory`
fails, `AnalyzeRepo url` returns that error together with an analysis in which
`CloneURL = url`, `Folders` is empty, `Size = 0`, `SizeHuman` is empty and
`HasSubmodules` is false, and it does not query the submodules; when
`CloneRepo` fails the only call made is the clone and the file system is not
looked at. In particular the folders collected before a failure of
`processDirectory` are not reported. The statement is about `AnalyzeRepoAt`,
of which `AnalyzeRepo gitService fs url` is the case `fsSize = fsFolders = fs`. -/
theorem AnalyzeRepo_failure (gitService : GitService)
    (fsSize fsFolders : String → Except GoError Node) (url : String) (err : GoError)
    (hfail : gitService.CloneRepo url = some err ∨
      (gitService.CloneRepo url = none ∧
        (calculateTotalSize gitService.GetRepoPath (fsSize gitService.GetRepoPath)).2
          = some err) ∨
      (gitService.CloneRepo url = none ∧
        (calculateTotalSize gitService.GetRepoPath (fsSize gitService.GetRepoPath)).2 = none ∧
        (processDirectory gitService.GetRepoPath gitService.GetRepoPath
          (fsFolders gitService.GetRepoPath)).2 = some err)) :
    ((AnalyzeRepoAt gitService fsSize fsFolders url).1
        = (emptyAnalysis url, some err) ∧
      GitCall.HasSubmodules ∉ (AnalyzeRepoAt gitService fsSize fsFolders url).2 ∧
      (gitService.CloneRepo url = some err →
        (AnalyzeRepoAt gitService fsSize fsFolders url).2 = [.CloneRepo url] ∧
        ∀ fs1 fs2 : String → Except GoError Node,
          AnalyzeRepoAt gitService fs1 fs2 url
            = AnalyzeRepoAt gitService fsSize fsFolders url)) ∧
    ((processDirectory "/tmp/repo" "/tmp/repo" (halfReadableFs "/tmp/repo")).1.map Folder.Name
        = ["a"] ∧
      (AnalyzeRepoAt halfReadableService readableFs halfReadableFs "test-url").1
        = (emptyAnalysis "test-url",
           some (.analysis "failed to read directory" (.os "permission denied"))) ∧
      (AnalyzeRepo halfReadableService halfReadableFs "test-url").1
        = (emptyAnalysis "test-url",
           some (.analysis "failed to walk path" (.os "permission denied"))) ∧
      (AnalyzeRepo failingGitService testFs "test-url")
        = ((emptyAnalysis "test-url", some (.os "clone failed")), [.CloneRepo "test-url"])) := by
  refine ⟨?_, by decide, by decide, by decide, by decide⟩
  rcases hfail with h | ⟨h1, h2⟩ | ⟨h1, h2, h3⟩
  · refine ⟨?_, ?_, fun _ => ⟨?_, fun fs1 fs2 => ?_⟩⟩ <;>
      simp [AnalyzeRepoAt, emptyAnalysis, h]
  · rcases hc : calculateTotalSize gitService.GetRepoPath (fsSize gitService.GetRepoPath)
      with ⟨total, e⟩
    rw [hc] at h2
    simp only at h2
    subst h2
    refine ⟨?_, ?_, fun hcl => ?_⟩
    · simp [AnalyzeRepoAt, emptyAnalysis, h1, hc]
    · simp [AnalyzeRepoAt, emptyAnalysis, h1, hc]
    · rw [h1] at hcl; exact absurd hcl (by simp)
  · rcases hc : calculateTotalSize gitService.GetRepoPath (fsSize gitService.GetRepoPath)
      with ⟨total, e⟩
    rw [hc] at h2
    simp only at h2
    subst h2
    rcases hp : processDirectory gitService.GetRepoPath gitService.GetRepoPath
      (fsFolders gitService.GetRepoPath) with ⟨folders, e⟩
    rw [hp] at h3
    simp only at h3
    subst h3
    refine ⟨?_, ?_, fun hcl => ?_⟩
    · simp [AnalyzeRepoAt, emptyAnalysis, h1, hc, hp]
    · simp [AnalyzeRepoAt, emptyAnalysis, h1, hc, hp]
    · rw [h1] at hcl; exact absurd hcl (by simp)

/-- Witness for claim C11: a directory that cannot be listed any more when
`processDirectory` walks, after `calculateTotalSize` succeeded. -/
theorem AnalyzeRepo_failure_witness :
    (halfReadableService.CloneRepo "test-url" = none ∧
      (calculateTotalSize halfReadableService.GetRepoPath
        (readableFs halfReadableService.GetRepoPath)).2 = none ∧
      (processDirectory halfReadableService.GetRepoPath halfReadableService.GetRepoPath
        (halfReadableFs halfReadableService.GetRepoPath)).2
          = some (.analysis "failed to read directory" (.os "permission denied"))) ∧
    (((AnalyzeRepoAt halfReadableService readableFs halfReadableFs "test-url").1
        = (emptyAnalysis "test-url",
           some (.analysis "failed to read directory" (.os "permission denied"))) ∧
      GitCall.HasSubmodules
        ∉ (AnalyzeRepoAt halfReadableService readableFs halfReadableFs "test-url").2 ∧
      (halfReadableService.CloneRepo "test-url"
          = some (.analysis "failed to read directory" (.os "permission denied")) →
        (AnalyzeRepoAt halfReadableService readableFs halfReadableFs "test-url").2
          = [.CloneRepo "test-url"] ∧
        ∀ fs1 fs2 : String → Except GoError Node,
          AnalyzeRepoAt halfReadableService fs1 fs2 "test-url"
            = AnalyzeRepoAt halfReadableService readableFs halfReadableFs "test-url")) ∧
    ((processDirectory "/tmp/repo" "/tmp/repo" (halfReadableFs "/tmp/repo")).1.map Folder.Name
        = ["a"] ∧
      (AnalyzeRepoAt halfReadableService readableFs halfReadableFs "test-url").1
        = (emptyAnalysis "test-url",
           some (.analysis "failed to read directory" (.os "permission denied"))) ∧
      (AnalyzeRepo halfReadableService halfReadableFs "test-url").1
        = (emptyAnalysis "test-url",
           some (.analysis "failed to walk path" (.os "permission denied"))) ∧
      (AnalyzeRepo failingGitService testFs "test-url")
        = ((emptyAnalysis "test-url", some (.os "clone failed")), [.CloneRepo "test-url"]))) :=
  ⟨⟨rfl, by decide, by decide⟩,
    AnalyzeRepo_failure halfReadableService readableFs halfReadableFs "test-url"
      (.analysis "failed to read directory" (.os "permission denied"))
      (Or.inr (Or.inr ⟨rfl, by decide, by decide⟩))⟩

/-- Claim C12: in the legacy entry point the size of a file and the total are
not rounded to the nearest multiple of 0.01 but truncated: for a byte count
`b` up to `2^48` the expression `float64(int(x*100)) / 100` gives the greatest
multiple of 0.01 that is at most `b / 1,048,576` (as a `float64`), while
`RoundToTwoDecimals (BytesToMB b)` gives the nearest one, and the two integers
of hundredths agree only when the fraction dropped is below one half. For a
file of 10,000 bytes the legacy `analyzeDirectory` and `analyzeRepo` report
0, `RoundToTwoDecimals (BytesToMB 10000)` is 0.01. -/
theorem legacy_size_truncates (b : Int) (h0 : 0 ≤ b) (h1 : b ≤ 2 ^ 48) :
    (Main.truncTwoDecimals (Main.bytesToMB b)
        = roundNE ((⌊(b : ℚ) / 1048576 * 100⌋ : ℚ) / 100) ∧
      RoundToTwoDecimals (BytesToMB b)
        = roundNE ((roundHalfAway ((b : ℚ) / 1048576 * 100) : ℚ) / 100) ∧
      (⌊(b : ℚ) / 1048576 * 100⌋ = roundHalfAway ((b : ℚ) / 1048576 * 100)
        ↔ Int.fract ((b : ℚ) / 1048576 * 100) < 1 / 2)) ∧
    (Main.analyzeDirectory "/tmp/repo/docs" "/tmp/repo" (.dir smallFileDir)
        = ({ Name := "docs",
             Files := [{ Name := "notes.txt", Size := .fin 0, SizeHuman := "9.77 KB" }] }, none) ∧
      (Main.analyzeRepo "/tmp/repo" (.ok (.dir smallFileRepo)) none).2 = none ∧
      (Main.analyzeRepo "/tmp/repo" (.ok (.dir smallFileRepo)) none).1.Size = .fin 0 ∧
      RoundToTwoDecimals (BytesToMB 10000) = F64.lit (1 / 100) ∧
      F64.lit (1 / 100) ≠ .fin 0) := by
  refine ⟨⟨truncTwoDecimals_bytesToMB h0 h1, RoundToTwoDecimals_BytesToMB h0 h1, ?_⟩,
    by decide!, by decide!, by decide!, by decide!, by decide!⟩
  have hy0 : (0 : ℚ) ≤ (b : ℚ) / 1048576 * 100 := by
    have : (0 : ℚ) ≤ (b : ℚ) := by exact_mod_cast h0
    positivity
  generalize (b : ℚ) / 1048576 * 100 = y at hy0
  unfold roundHalfAway
  rw [if_pos hy0]
  have hf := Int.floor_add_fract y
  have hfr0 := Int.fract_nonneg y
  have hfr1 := Int.fract_lt_one y
  constructor
  · intro h
    by_contra hlt
    have h2 : (⌊y⌋ : ℚ) + 1 ≤ y + 1 / 2 := by linarith
    have h3 : ⌊y⌋ + 1 ≤ ⌊y + 1 / 2⌋ := Int.le_floor.mpr (by push_cast; exact h2)
    omega
  · intro hlt
    symm
    rw [Int.floor_eq_iff]
    constructor <;> linarith

/-- Witness for claim C12: a file of 10,000 bytes. -/
theorem legacy_size_truncates_witness :
    (0 : Int) ≤ 10000 ∧ (10000 : Int) ≤ 2 ^ 48 ∧
    ((Main.truncTwoDecimals (Main.bytesToMB 10000)
        = roundNE ((⌊((10000 : Int) : ℚ) / 1048576 * 100⌋ : ℚ) / 100) ∧
      RoundToTwoDecimals (BytesToMB 10000)
        = roundNE ((roundHalfAway (((10000 : Int) : ℚ) / 1048576 * 100) : ℚ) / 100) ∧
      (⌊((10000 : Int) : ℚ) / 1048576 * 100⌋ = roundHalfAway (((10000 : Int) : ℚ) / 1048576 * 100)
        ↔ Int.fract (((10000 : Int) : ℚ) / 1048576 * 100) < 1 / 2)) ∧
    (Main.analyzeDirectory "/tmp/repo/docs" "/tmp/repo" (.dir smallFileDir)
        = ({ Name := "docs",
             Files := [{ Name := "notes.txt", Size := .fin 0, SizeHuman := "9.77 KB" }] }, none) ∧
      (Main.analyzeRepo "/tmp/repo" (.ok (.dir smallFileRepo)) none).2 = none ∧
      (Main.analyzeRepo "/tmp/repo" (.ok (.dir smallFileRepo)) none).1.Size = .fin 0 ∧
      RoundToTwoDecimals (BytesToMB 10000) = F64.lit (1 / 100) ∧
      F64.lit (1 / 100) ≠ .fin 0)) :=
  ⟨by decide, by decide, legacy_size_truncates 10000 (by decide) (by decide)⟩

/-- Claim C13: for every `int64` byte count `b`, the maximum `2^63 - 1`
included, `BytesToHumanReadable` and the legacy `bytesToHumanReadable` return a
string; for `b ≥ 1024` the scaling loop ends, whatever fuel at least
`b / 1024` it is given, with a unit index `exp ≤ 5` and the divisor
`div = 1024^(exp+1) ≤ 2^60`, the lookup `"KMGTPE"[exp]` is in range, and the
loop computed without wrap-around gives the same divisor: no multiplication
overflows `int64`. -/
theorem BytesToHumanReadable_total (b : Int) (hb : InInt64 b) :
    ((∃ s, BytesToHumanReadable b = some s ∧ Main.bytesToHumanReadable b = some s) ∧
      (1024 ≤ b → ∃ k : Nat, k ≤ 5 ∧ (1024 : Int) ^ (k + 1) ≤ 2 ^ 60 ∧
        (∃ c, "KMGTPE".toList.get? k = some c) ∧
        ∀ fuel : Nat, (Int.tdiv b 1024).toNat ≤ fuel →
          scaleLoop fuel (Int.tdiv b 1024) 1024 0 = (1024 ^ (k + 1), k) ∧
          scaleLoopExact fuel (Int.tdiv b 1024) 1024 0 = (1024 ^ (k + 1), k))) ∧
    (scaleLoop (Int.tdiv (2 ^ 63 - 1) 1024).toNat (Int.tdiv (2 ^ 63 - 1) 1024) 1024 0
        = (2 ^ 60, 5) ∧
      BytesToHumanReadable (2 ^ 63 - 1) = some "8.00 EB" ∧
      Main.bytesToHumanReadable (2 ^ 63 - 1) = some "8.00 EB" ∧
      BytesToHumanReadable (-(2 ^ 63)) = some "-9223372036854775808 B") := by
  refine ⟨⟨?_, ?_⟩, by decide!, by decide!, by decide!, by decide!⟩
  · obtain ⟨s, hs⟩ := BytesToHumanReadable_isSome hb
    exact ⟨s, hs, hs⟩
  · intro h1
    obtain ⟨k, hk1, _, _, hk4⟩ := scaleLoop_bytes_fuel h1 hb.2
    refine ⟨k, hk1, ?_, unitLetter_isSome hk1, ?_⟩
    · calc (1024 : Int) ^ (k + 1) ≤ 1024 ^ 6 := pow_le_pow_right₀ (by norm_num) (by omega)
        _ = 2 ^ 60 := by norm_num
    · intro fuel hfuel
      have h := hk4 fuel hfuel
      exact ⟨h, by rw [← scaleLoop_bytes_eq_exact h1 hb.2 fuel]; exact h⟩

/-- Witness for claim C13: the largest `int64`. -/
theorem BytesToHumanReadable_total_witness :
    InInt64 (2 ^ 63 - 1) ∧
    (((∃ s, BytesToHumanReadable (2 ^ 63 - 1) = some s ∧
          Main.bytesToHumanReadable (2 ^ 63 - 1) = some s) ∧
      ((1024 : Int) ≤ 2 ^ 63 - 1 → ∃ k : Nat, k ≤ 5 ∧ (1024 : Int) ^ (k + 1) ≤ 2 ^ 60 ∧
        (∃ c, "KMGTPE".toList.get? k = some c) ∧
        ∀ fuel : Nat, (Int.tdiv (2 ^ 63 - 1) 1024).toNat ≤ fuel →
          scaleLoop fuel (Int.tdiv (2 ^ 63 - 1) 1024) 1024 0 = (1024 ^ (k + 1), k) ∧
          scaleLoopExact fuel (Int.tdiv (2 ^ 63 - 1) 1024) 1024 0 = (1024 ^ (k + 1), k))) ∧
    (scaleLoop (Int.tdiv (2 ^ 63 - 1) 1024).toNat (Int.tdiv (2 ^ 63 - 1) 1024) 1024 0
        = (2 ^ 60, 5) ∧
      BytesToHumanReadable (2 ^ 63 - 1) = some "8.00 EB" ∧
      Main.bytesToHumanReadable (2 ^ 63 - 1) = some "8.00 EB" ∧
      BytesToHumanReadable (-(2 ^ 63)) = some "-9223372036854775808 B")) :=
  ⟨by decide, BytesToHumanReadable_total (2 ^ 63 - 1) (by decide)⟩

end RepoAnalyzer
